import Mathlib

/-!
Verification development for the apple-reminders metadata virtualization layer
(source: src/unnamed/part_000).  JavaScript strings are modelled as lists of
Unicode scalar values (`List Char`); JavaScript numbers are modelled as exact
finite decimal rationals (every IEEE double is a finite binary - hence finite
decimal - fraction); `undefined`/`null` are modelled with `Option`; functions
that can `throw` return `Except`.  Unicode-dependent library routines
(`toLowerCase`, `trim`) are modelled on their ASCII/standard-whitespace
behaviour, which is the fragment the program's own string constants exercise.
-/

set_option maxRecDepth 100000

namespace ARM

/-- JavaScript strings, modelled as lists of Unicode scalar values. -/
abbrev Str := List Char

/-- Coerce a Lean string literal to the model's string type. -/
def strOf (s : String) : Str := s.data

/-- The character set matched by the JavaScript `\s` class (used by
`String.prototype.trim` and the metadata regular expression). -/
def isJsWs (c : Char) : Bool :=
  let n := c.toNat
  n == 9 || n == 10 || n == 11 || n == 12 || n == 13 || n == 32 ||
  n == 0xa0 || n == 0x1680 || (0x2000 ≤ n && n ≤ 0x200a) ||
  n == 0x2028 || n == 0x2029 || n == 0x202f || n == 0x205f ||
  n == 0x3000 || n == 0xfeff

/-- Model of `String.prototype.trimStart`. -/
def jsTrimStart (s : Str) : Str := s.dropWhile isJsWs

/-- Model of `String.prototype.trimEnd`. -/
def jsTrimEnd (s : Str) : Str := (s.reverse.dropWhile isJsWs).reverse

/-- Model of `String.prototype.trim`. -/
def jsTrim (s : Str) : Str := jsTrimEnd (jsTrimStart s)

/-- Model of `String.prototype.toLowerCase` on the ASCII fragment. -/
def lowChar (c : Char) : Char :=
  if 65 ≤ c.toNat ∧ c.toNat ≤ 90 then Char.ofNat (c.toNat + 32) else c

/-- Lower-case an entire string (model of `toLowerCase`). -/
def lowerStr (s : Str) : Str := s.map lowChar

/-- Source `normalizeListName`: `value.trim().toLowerCase()`. -/
def normalizeListName (value : Str) : Str := lowerStr (jsTrim value)

/-- A JavaScript number, modelled as an exact finite decimal
`mant / 10 ^ fexp` in canonical form (no trailing decimal zeros).  Every
finite IEEE double is such a decimal, and `JSON.stringify` renders it as a
plain decimal literal for the magnitudes this program manipulates. -/
structure JNum where
  mant : Int
  fexp : Nat
  canon : (fexp == 0 || mant % 10 != 0) = true

theorem JNum.eq_iff (a b : JNum) : a = b ↔ a.mant = b.mant ∧ a.fexp = b.fexp := by
  constructor
  · intro h; rw [h]; exact ⟨rfl, rfl⟩
  · intro ⟨h1, h2⟩
    cases a; cases b
    simp only at h1 h2
    subst h1; subst h2; rfl

instance : DecidableEq JNum := fun a b =>
  decidable_of_iff (a.mant = b.mant ∧ a.fexp = b.fexp) (JNum.eq_iff a b).symm

/-- The rational value of a modelled JavaScript number. -/
def JNum.toRat (n : JNum) : ℚ := (n.mant : ℚ) / (10 ^ n.fexp : ℚ)

/-- Embed an integer literal as a JavaScript number. -/
def JNum.ofInt (m : Int) : JNum := ⟨m, 0, by simp⟩

instance : OfNat JNum n := ⟨JNum.ofInt n⟩

/-- Source `normalizeTags` inner normalization of one tag:
`tag.trim().replace(/^#+/, "")`. -/
def tagNormalForm (tag : Str) : Str := (jsTrim tag).dropWhile (· == '#')

/-- Loop of the source `normalizeTags`: a `Map` keyed by the lower-cased
normal form, retaining first-seen casing in insertion order.  `keys` and
`vals` hold, in order, the keys and values inserted so far. -/
def normalizeTagsGo (keys vals : List Str) : List Str → List Str
  | [] => vals
  | tag :: rest =>
    let normalized := tagNormalForm tag
    if normalized = [] then normalizeTagsGo keys vals rest
    else
      let key := lowerStr normalized
      if keys.contains key then normalizeTagsGo keys vals rest
      else normalizeTagsGo (keys ++ [key]) (vals ++ [normalized]) rest

/-- Source `normalizeTags` (part_000 lines 294-312). -/
def normalizeTags : Option (List Str) → List Str
  | none => []
  | some tags => normalizeTagsGo [] [] tags

/-- Source `ReminderLocation` (all fields optional).  `proximity` is kept as
a raw string so that the "unrecognized proximity" validation branch is
representable. -/
structure ReminderLocation where
  title : Option Str := none
  latitude : Option JNum := none
  longitude : Option JNum := none
  radiusMeters : Option JNum := none
  proximity : Option Str := none
deriving DecidableEq

/-- The empty location structure (`{}`). -/
def emptyLoc : ReminderLocation := {}

/-- The title branch of `normalizeLocation`: keep the trimmed title when
non-empty (silently dropped otherwise, in both modes). -/
def normTitle (t : Option Str) : Option Str :=
  match t with
  | some t => if jsTrim t ≠ [] then some (jsTrim t) else none
  | none => none

/-- A numeric field branch of `normalizeLocation`: an out-of-range value
throws in strict mode and is dropped in lenient mode. -/
def normNumField (v : Option JNum) (isBad : JNum → Bool) (msg : Str) (strict : Bool) :
    Except Str (Option JNum) :=
  match v with
  | some n =>
    if isBad n then
      if strict then Except.error msg else Except.ok none
    else Except.ok (some n)
  | none => Except.ok none

/-- The proximity branch of `normalizeLocation`. -/
def normProximity (p : Option Str) (strict : Bool) : Except Str (Option Str) :=
  match p with
  | some p =>
    if p = strOf "arriving" ∨ p = strOf "leaving" then Except.ok (some p)
    else if strict then
      Except.error (strOf "location.proximity must be arriving or leaving")
    else Except.ok none
  | none => Except.ok none

/-- Out-of-range test for latitude. -/
def badLat (n : JNum) : Bool := decide (n.toRat < -90) || decide (n.toRat > 90)

/-- Out-of-range test for longitude. -/
def badLng (n : JNum) : Bool := decide (n.toRat < -180) || decide (n.toRat > 180)

/-- Out-of-range test for the radius. -/
def badRad (n : JNum) : Bool := decide (n.toRat ≤ 0)

/-- Source `normalizeLocation` (part_000 lines 314-379).  `strict` throws on
invalid fields (modelled as `Except.error` carrying the thrown message);
lenient mode silently drops them.  The `Number.isFinite` guards of the source
are vacuous here because the number model contains only finite values. -/
def normalizeLocation (location : Option ReminderLocation) (strict : Bool) :
    Except Str (Option ReminderLocation) := do
  match location with
  | none => return none
  | some location =>
    let title : Option Str := normTitle location.title
    let latitude ← normNumField location.latitude badLat
      (strOf "location.latitude must be between -90 and 90") strict
    let longitude ← normNumField location.longitude badLng
      (strOf "location.longitude must be between -180 and 180") strict
    let radiusMeters ← normNumField location.radiusMeters badRad
      (strOf "location.radiusMeters must be greater than 0") strict
    let proximity ← normProximity location.proximity strict
    let pairOk : Bool := latitude.isSome == longitude.isSome
    let latitude2 := if pairOk then latitude else none
    let longitude2 := if pairOk then longitude else none
    if pairOk = false ∧ strict = true then
      Except.error
        (strOf "location.latitude and location.longitude must be provided together")
    else
      let normalized : ReminderLocation :=
        ⟨title, latitude2, longitude2, radiusMeters, proximity⟩
      if normalized = emptyLoc then
        return none
      else
        return some normalized

/-- Lenient normalization never throws (proved below as part of C8); this
total wrapper is what the metadata codec uses. -/
def lenientLoc (location : Option ReminderLocation) : Option ReminderLocation :=
  match normalizeLocation location false with
  | .ok r => r
  | .error _ => none

/-- A JavaScript `Date`, modelled by its epoch-milliseconds value together
with the local-calendar projection the platform's timezone assigns to it
(`getFullYear`/`getMonth`/`getDate`).  The timezone mapping is an external
parameter of the runtime, so it is carried as data. -/
structure JSDate where
  epochMs : Int
  year : Int
  month : Int
  day : Int
deriving DecidableEq

/-- The clock environment of one call: `new Date()` / `Date.now()`. -/
structure Env where
  nowEpochMs : Int
  nowYear : Int
  nowMonth : Int
  nowDay : Int
deriving DecidableEq

/-- A raw item row as returned by the store binding (source
`ReminderItemWithExtras`); absent/undefined fields are `none`.  Invalid
(`NaN`) dates are modelled as absent. -/
structure RItem where
  id : Option Str := none
  name : Option Str := none
  body : Option Str := none
  completed : Option Bool := none
  dueDate : Option JSDate := none
  priority : Option Int := none
  flagged : Option Bool := none
deriving DecidableEq

/-- Source `normalizeDateValue`: falsy or invalid dates become `null`, and a
Unix-epoch-zero date is treated as "no due date". -/
def normalizeDateValue (date : Option JSDate) : Option JSDate :=
  match date with
  | none => none
  | some d => if d.epochMs = 0 then none else some d

/-- Source `isCompleted`: `item.completed ?? false`. -/
def isCompleted (item : RItem) : Bool := item.completed.getD false

/-- Source `isFlagged`: `item.flagged ?? false`. -/
def isFlagged (item : RItem) : Bool := item.flagged.getD false

/-- Source `dueDateOf`. -/
def dueDateOf (item : RItem) : Option JSDate := normalizeDateValue item.dueDate

/-- Source `isDueToday`: due date present and equal to `now` in the local
calendar. -/
def isDueToday (env : Env) (item : RItem) : Bool :=
  match dueDateOf item with
  | none => false
  | some d => d.year == env.nowYear && d.month == env.nowMonth && d.day == env.nowDay

/-- Source `isOverdue`: due date present, not completed, and strictly before
`Date.now()`. -/
def isOverdue (env : Env) (item : RItem) : Bool :=
  match dueDateOf item with
  | none => false
  | some d => if isCompleted item then false else decide (d.epochMs < env.nowEpochMs)

/-- The six entries of the source `SMART_LISTS` catalog. -/
inductive SmartList
  | all | today | scheduled | flagged | completed | overdue
deriving DecidableEq

/-- Canonical catalog order (source `SMART_LISTS` array order). -/
def SMART_LISTS : List SmartList :=
  [.all, .today, .scheduled, .flagged, .completed, .overdue]

/-- Display names of the catalog entries. -/
def SmartList.name : SmartList → Str
  | .all => strOf "All"
  | .today => strOf "Today"
  | .scheduled => strOf "Scheduled"
  | .flagged => strOf "Flagged"
  | .completed => strOf "Completed"
  | .overdue => strOf "Overdue"

/-- Aliases of the catalog entries. -/
def SmartList.aliases : SmartList → List Str
  | .all => [strOf "all reminders"]
  | .scheduled => [strOf "planned"]
  | _ => []

/-- The predicate of each catalog entry (source `SMART_LISTS` predicates). -/
def SmartList.predicate : SmartList → Env → RItem → Bool
  | .all, _, _ => true
  | .today, env, item => !isCompleted item && isDueToday env item
  | .scheduled, _, item => !isCompleted item && (dueDateOf item).isSome
  | .flagged, _, item => !isCompleted item && isFlagged item
  | .completed, _, item => isCompleted item
  | .overdue, env, item => isOverdue env item

/-- Source `getSmartListByName` (part_000 lines 172-190): normalize, strip an
optional `smart:` namespace marker, and scan the catalog comparing canonical
names and aliases. -/
def getSmartListByName (listName : Str) : Option SmartList :=
  let normalizedName := normalizeListName listName
  let normalizedStrippedName :=
    if (strOf "smart:").isPrefixOf normalizedName then
      jsTrim (normalizedName.drop (strOf "smart:").length)
    else normalizedName
  SMART_LISTS.find? fun smartList =>
    let canonicalName := normalizeListName smartList.name
    normalizedStrippedName == canonicalName || normalizedName == canonicalName ||
      smartList.aliases.any fun a => normalizeListName a == normalizedStrippedName

/-- A real (native) list handle: `{id, name}`. -/
structure RList where
  id : Str
  name : Str
deriving DecidableEq

/-- Source `ResolvedList`. -/
inductive ResolvedList
  | regular (list : RList)
  | smart (smartList : SmartList)
deriving DecidableEq

/-- The external reminders store at one instant: the real lists, in
enumeration order, and each list's items keyed by list identifier. -/
structure Store where
  lists : List RList
  items : List (Str × List RItem)

/-- Model of `reminders.getReminders(listId, props)`: the rows of one list
(the requested property set only restricts which fields are populated, which
the row model already expresses with `Option`). -/
def Store.getReminders (store : Store) (listId : Str) : List RItem :=
  match store.items.lookup listId with
  | some its => its
  | none => []

/-- Source `getRegularListByName`: case-insensitive exact match against the
current list enumeration, first match in enumeration order. -/
def getRegularListByName (store : Store) (listName : Str) : Option RList :=
  store.lists.find? fun list => normalizeListName list.name == normalizeListName listName

/-- Source `resolveListByName` (part_000 lines 201-213): real lists first,
then the smart catalog, otherwise a thrown `List "<name>" not found`. -/
def resolveListByName (store : Store) (listName : Str) : Except Str ResolvedList :=
  match getRegularListByName store listName with
  | some regularList => .ok (.regular regularList)
  | none =>
    match getSmartListByName listName with
    | some smartList => .ok (.smart smartList)
    | none =>
      .error (strOf "List \"" ++ listName ++ strOf "\" not found")

/-- Deduplication loop of source `fetchAllReminders`: `seenIds` is the `Set`
of identifiers already pushed; items without a string id are always kept. -/
def dedupById (seen : List Str) : List RItem → List RItem
  | [] => []
  | item :: rest =>
    match item.id with
    | some i =>
      if seen.contains i then dedupById seen rest
      else item :: dedupById (i :: seen) rest
    | none => item :: dedupById seen rest

/-- Source `fetchAllReminders` (part_000 lines 237-263): fetch every real
list's items and merge them in list-enumeration order, deduplicating by
identifier. -/
def fetchAllReminders (store : Store) : List RItem :=
  dedupById [] (store.lists.flatMap fun list => store.getReminders list.id)

/-- Source `fetchRemindersForList`: a regular list is fetched directly; a
smart list filters the deduplicated union through its predicate. -/
def fetchRemindersForList (env : Env) (store : Store) (listName : Str) :
    Except Str (List RItem) := do
  match ← resolveListByName store listName with
  | .regular list => return store.getReminders list.id
  | .smart smartList =>
    return (fetchAllReminders store).filter (smartList.predicate env)

/-- Source `getReminderByName`: first item of the resolved list whose `name`
equals the target exactly and whose id is a string. -/
def getReminderByName (env : Env) (store : Store) (listName reminderName : Str) :
    Except Str (Option RItem) := do
  let items ← fetchRemindersForList env store listName
  return items.find? fun item => item.name == some reminderName && item.id.isSome

/-- The base64url alphabet used by `Buffer.prototype.toString("base64url")`. -/
def b64Alphabet : Str :=
  strOf "ABCDEFGHIJKLMNOPQRSTUVWXYZabcdefghijklmnopqrstuvwxyz0123456789-_"

/-- The alphabet character of one 6-bit group. -/
def b64Char (n : Nat) : Char := b64Alphabet.getD n 'A'

/-- Index of a character in the base64url alphabet. -/
def b64ValGo (i : Nat) (c : Char) : Str → Option Nat
  | [] => none
  | a :: rest => if a == c then some i else b64ValGo (i + 1) c rest

/-- The 6-bit value of a base64url character. -/
def b64Val (c : Char) : Option Nat := b64ValGo 0 c b64Alphabet

/-- Model of Node's unpadded base64url rendering of a byte sequence. -/
def b64Encode : List Nat → Str
  | [] => []
  | [a] => [b64Char (a / 4), b64Char ((a % 4) * 16)]
  | [a, b] => [b64Char (a / 4), b64Char ((a % 4) * 16 + b / 16), b64Char ((b % 16) * 4)]
  | a :: b :: c :: rest =>
    b64Char (a / 4) :: b64Char ((a % 4) * 16 + b / 16) ::
      b64Char ((b % 16) * 4 + c / 64) :: b64Char (c % 64) :: b64Encode rest

/-- Model of `Buffer.from(str, "base64url")`: unpadded base64url decoding; a
lone trailing character contributes fewer than eight bits and is dropped. -/
def b64Decode : Str → Option (List Nat)
  | [] => some []
  | [_] => some []
  | [c1, c2] => do
    let v1 ← b64Val c1
    let v2 ← b64Val c2
    pure [v1 * 4 + v2 / 16]
  | [c1, c2, c3] => do
    let v1 ← b64Val c1
    let v2 ← b64Val c2
    let v3 ← b64Val c3
    pure [v1 * 4 + v2 / 16, (v2 % 16) * 16 + v3 / 4]
  | c1 :: c2 :: c3 :: c4 :: rest => do
    let v1 ← b64Val c1
    let v2 ← b64Val c2
    let v3 ← b64Val c3
    let v4 ← b64Val c4
    let tail ← b64Decode rest
    pure ((v1 * 4 + v2 / 16) :: ((v2 % 16) * 16 + v3 / 4) :: ((v3 % 4) * 64 + v4) :: tail)

/-- The character class `[A-Za-z0-9_-]` of the metadata marker token. -/
def isTokenChar (c : Char) : Bool :=
  (65 ≤ c.toNat && c.toNat ≤ 90) || (97 ≤ c.toNat && c.toNat ≤ 122) ||
    (48 ≤ c.toNat && c.toNat ≤ 57) || c == '_' || c == '-'

theorem b64Val_b64Char : ∀ n, n < 64 → b64Val (b64Char n) = some n := by decide

theorem isTokenChar_b64Char : ∀ n, n < 64 → isTokenChar (b64Char n) = true := by decide

theorem b64Encode_decode :
    ∀ bytes : List Nat, (∀ b ∈ bytes, b < 256) → b64Decode (b64Encode bytes) = some bytes
  | [], _ => rfl
  | [a], h => by
    have ha : a < 256 := h a (by simp)
    simp only [b64Encode, b64Decode]
    have w1 := b64Val_b64Char (a / 4) (by omega)
    have w2 := b64Val_b64Char ((a % 4) * 16) (by omega)
    rw [w1, w2]
    simp only [Option.bind_eq_bind, Option.some_bind, Option.pure_def]
    congr 2
    omega
  | [a, b], h => by
    have ha : a < 256 := h a (by simp)
    have hb : b < 256 := h b (by simp)
    simp only [b64Encode, b64Decode]
    have w1 := b64Val_b64Char (a / 4) (by omega)
    have w2 := b64Val_b64Char ((a % 4) * 16 + b / 16) (by omega)
    have w3 := b64Val_b64Char ((b % 16) * 4) (by omega)
    rw [w1, w2, w3]
    simp only [Option.bind_eq_bind, Option.some_bind, Option.pure_def]
    congr 1
    have e1 : (a / 4) * 4 + ((a % 4) * 16 + b / 16) / 16 = a := by omega
    have e2 : (((a % 4) * 16 + b / 16) % 16) * 16 + ((b % 16) * 4) / 4 = b := by omega
    rw [e1, e2]
  | a :: b :: c :: rest, h => by
    have ha : a < 256 := h a (by simp)
    have hb : b < 256 := h b (by simp)
    have hc : c < 256 := h c (by simp)
    have ih := b64Encode_decode rest (fun x hx => h x (by simp [hx]))
    simp only [b64Encode, b64Decode]
    have w1 := b64Val_b64Char (a / 4) (by omega)
    have w2 := b64Val_b64Char ((a % 4) * 16 + b / 16) (by omega)
    have w3 := b64Val_b64Char ((b % 16) * 4 + c / 64) (by omega)
    have w4 := b64Val_b64Char (c % 64) (by omega)
    rw [w1, w2, w3, w4, ih]
    simp only [Option.bind_eq_bind, Option.some_bind, Option.pure_def]
    congr 1
    have e1 : (a / 4) * 4 + ((a % 4) * 16 + b / 16) / 16 = a := by omega
    have e2 : (((a % 4) * 16 + b / 16) % 16) * 16 + ((b % 16) * 4 + c / 64) / 4 = b := by
      omega
    have e3 : (((b % 16) * 4 + c / 64) % 4) * 64 + c % 64 = c := by omega
    rw [e1, e2, e3]

theorem isTokenChar_b64Char_all (n : Nat) : isTokenChar (b64Char n) = true := by
  rcases Nat.lt_or_ge n 64 with h | h
  · exact isTokenChar_b64Char n h
  · have hnone : b64Alphabet.get? n = none := by
      rw [List.get?_eq_none]
      have hlen : b64Alphabet.length = 64 := by decide
      omega
    have hchar : b64Char n = 'A' := by
      show b64Alphabet.getD n 'A' = 'A'
      rw [List.getD_eq_getD_get?, hnone]
      rfl
    rw [hchar]
    decide

theorem b64Encode_tokenChars :
    ∀ bytes : List Nat, ∀ ch ∈ b64Encode bytes, isTokenChar ch = true
  | [], _, h => by simp [b64Encode] at h
  | [a], ch, h => by
    simp only [b64Encode, List.mem_cons, List.not_mem_nil, or_false] at h
    rcases h with h | h <;>
      (subst h; exact isTokenChar_b64Char_all _)
  | [a, b], ch, h => by
    simp only [b64Encode, List.mem_cons, List.not_mem_nil, or_false] at h
    rcases h with h | h | h <;>
      (subst h; exact isTokenChar_b64Char_all _)
  | a :: b :: c :: rest, ch, h => by
    simp only [b64Encode, List.mem_cons] at h
    rcases h with h | h | h | h | h
    · subst h; exact isTokenChar_b64Char_all _
    · subst h; exact isTokenChar_b64Char_all _
    · subst h; exact isTokenChar_b64Char_all _
    · subst h; exact isTokenChar_b64Char_all _
    · exact b64Encode_tokenChars rest ch h

/-- The Unicode replacement character emitted by Node's UTF-8 decoder for
malformed sequences. -/
def replChar : Char := Char.ofNat 0xfffd

/-- UTF-8 encoding of one Unicode scalar value. -/
def utf8EncodeChar (c : Char) : List Nat :=
  let n := c.toNat
  if n < 0x80 then [n]
  else if n < 0x800 then [0xc0 + n / 64, 0x80 + n % 64]
  else if n < 0x10000 then [0xe0 + n / 4096, 0x80 + n / 64 % 64, 0x80 + n % 64]
  else [0xf0 + n / 262144, 0x80 + n / 4096 % 64, 0x80 + n / 64 % 64, 0x80 + n % 64]

/-- Model of `Buffer.from(str, "utf8")`. -/
def utf8Encode (s : Str) : List Nat := s.flatMap utf8EncodeChar

/-- Is a byte a UTF-8 continuation byte. -/
def isCont (b : Nat) : Bool := 0x80 ≤ b && b < 0xc0

/-- One step of the UTF-8 replacement decoder: decode the character starting
at byte `b`, returning it and the remaining bytes.  Non-recursive. -/
def utf8Dec1 (b : Nat) (rest : List Nat) : Char × List Nat :=
  if b < 0x80 then (Char.ofNat b, rest)
  else if b < 0xc0 then (replChar, rest)
  else if b < 0xe0 then
    match rest with
    | b2 :: rest2 =>
      if isCont b2 then (Char.ofNat ((b - 0xc0) * 64 + (b2 - 0x80)), rest2)
      else (replChar, b2 :: rest2)
    | [] => (replChar, [])
  else if b < 0xf0 then
    match rest with
    | b2 :: b3 :: rest3 =>
      if isCont b2 && isCont b3 then
        (Char.ofNat ((b - 0xe0) * 4096 + (b2 - 0x80) * 64 + (b3 - 0x80)), rest3)
      else (replChar, b2 :: b3 :: rest3)
    | r => (replChar, r.drop 1)
  else if b < 0xf8 then
    match rest with
    | b2 :: b3 :: b4 :: rest4 =>
      if isCont b2 && isCont b3 && isCont b4 then
        (Char.ofNat
            ((b - 0xf0) * 262144 + (b2 - 0x80) * 4096 + (b3 - 0x80) * 64 + (b4 - 0x80)),
          rest4)
      else (replChar, b2 :: b3 :: b4 :: rest4)
    | r => (replChar, r.drop r.length)
  else (replChar, rest)

theorem utf8Dec1_consumes (b : Nat) (rest : List Nat) :
    (utf8Dec1 b rest).2.length ≤ rest.length := by
  rw [utf8Dec1.eq_def]
  split
  · simp
  · split
    · simp
    · split
      · split
        · split <;> simp
        · simp
      · split
        · split
          · split <;> simp_arith
          · simp [List.length_drop]
        · split
          · split
            · split <;> simp_arith
            · simp [List.length_drop]
          · simp

/-- Model of `Buffer.prototype.toString("utf8")`: total decoding, emitting a
replacement character for malformed sequences (the exact resynchronization
policy after a malformed sequence is a coarse model; no valid encoding
exercises it). -/
def utf8DecodeR : List Nat → Str
  | [] => []
  | b :: rest => (utf8Dec1 b rest).1 :: utf8DecodeR (utf8Dec1 b rest).2
termination_by l => l.length
decreasing_by
  simp only [List.length_cons]
  exact Nat.lt_succ_of_le (utf8Dec1_consumes b rest)

theorem utf8DecodeR_nil : utf8DecodeR [] = [] := by
  rw [utf8DecodeR]

theorem utf8DecodeR_cons (b : Nat) (rest : List Nat) :
    utf8DecodeR (b :: rest) = (utf8Dec1 b rest).1 :: utf8DecodeR (utf8Dec1 b rest).2 := by
  rw [utf8DecodeR]

theorem char_valid_lt (c : Char) : c.toNat < 0x110000 := by
  have hv : c.val.toNat < 0xd800 ∨ (0xe000 ≤ c.val.toNat ∧ c.val.toNat < 0x110000) :=
    c.valid
  show c.val.toNat < 0x110000
  rcases hv with h | ⟨_, h⟩ <;> omega

theorem utf8Dec1_encodeChar (c : Char) (tail : List Nat) :
    utf8EncodeChar c ++ tail =
      (utf8EncodeChar c).headI :: ((utf8EncodeChar c).tail ++ tail) ∧
    utf8Dec1 (utf8EncodeChar c).headI ((utf8EncodeChar c).tail ++ tail) = (c, tail) := by
  have h4 := char_valid_lt c
  rcases Nat.lt_or_ge c.toNat 0x80 with h1 | h1
  · rw [utf8EncodeChar]
    rw [if_pos h1]
    refine ⟨by simp, ?_⟩
    simp only [List.headI, List.tail, List.nil_append]
    rw [utf8Dec1.eq_def, if_pos h1, Char.ofNat_toNat]
  · rcases Nat.lt_or_ge c.toNat 0x800 with h2 | h2
    · rw [utf8EncodeChar]
      rw [if_neg (by omega), if_pos h2]
      refine ⟨by simp, ?_⟩
      simp only [List.headI, List.tail, List.cons_append, List.nil_append]
      rw [utf8Dec1.eq_def, if_neg (by omega), if_neg (by omega), if_pos (by omega)]
      dsimp only
      rw [if_pos (by simp only [isCont, Bool.and_eq_true, decide_eq_true_eq]; omega)]
      have he : (0xc0 + c.toNat / 64 - 0xc0) * 64 + (0x80 + c.toNat % 64 - 0x80) =
          c.toNat := by omega
      rw [he, Char.ofNat_toNat]
    · rcases Nat.lt_or_ge c.toNat 0x10000 with h3 | h3
      · rw [utf8EncodeChar]
        rw [if_neg (by omega), if_neg (by omega), if_pos h3]
        refine ⟨by simp, ?_⟩
        simp only [List.headI, List.tail, List.cons_append, List.nil_append]
        rw [utf8Dec1.eq_def, if_neg (by omega), if_neg (by omega), if_neg (by omega),
          if_pos (by omega)]
        dsimp only
        rw [if_pos (by
          simp only [isCont, Bool.and_eq_true, decide_eq_true_eq]
          refine ⟨⟨?_, ?_⟩, ?_, ?_⟩ <;> omega)]
        have he : (0xe0 + c.toNat / 4096 - 0xe0) * 4096 +
            (0x80 + c.toNat / 64 % 64 - 0x80) * 64 + (0x80 + c.toNat % 64 - 0x80) =
            c.toNat := by omega
        rw [he, Char.ofNat_toNat]
      · rw [utf8EncodeChar]
        rw [if_neg (by omega), if_neg (by omega), if_neg (by omega)]
        refine ⟨by simp, ?_⟩
        simp only [List.headI, List.tail, List.cons_append, List.nil_append]
        rw [utf8Dec1.eq_def, if_neg (by omega), if_neg (by omega), if_neg (by omega),
          if_neg (by omega), if_pos (by omega)]
        dsimp only
        rw [if_pos (by
          simp only [isCont, Bool.and_eq_true, decide_eq_true_eq]
          refine ⟨⟨⟨?_, ?_⟩, ?_, ?_⟩, ?_, ?_⟩ <;> omega)]
        have he : (0xf0 + c.toNat / 262144 - 0xf0) * 262144 +
            (0x80 + c.toNat / 4096 % 64 - 0x80) * 4096 +
            (0x80 + c.toNat / 64 % 64 - 0x80) * 64 + (0x80 + c.toNat % 64 - 0x80) =
            c.toNat := by omega
        rw [he, Char.ofNat_toNat]

theorem utf8DecodeR_encodeChar (c : Char) (tail : List Nat) :
    utf8DecodeR (utf8EncodeChar c ++ tail) = c :: utf8DecodeR tail := by
  obtain ⟨hshape, hstep⟩ := utf8Dec1_encodeChar c tail
  rw [hshape, utf8DecodeR_cons, hstep]

theorem utf8DecodeR_encode (s : Str) : utf8DecodeR (utf8Encode s) = s := by
  induction s with
  | nil => exact utf8DecodeR_nil
  | cons c rest ih =>
    have h : utf8Encode (c :: rest) = utf8EncodeChar c ++ utf8Encode rest := by
      simp [utf8Encode]
    rw [h, utf8DecodeR_encodeChar, ih]

theorem utf8EncodeChar_lt_256 (c : Char) : ∀ b ∈ utf8EncodeChar c, b < 256 := by
  intro b hb
  have h4 : c.toNat < 0x110000 := char_valid_lt c
  rw [utf8EncodeChar] at hb
  split at hb
  · simp only [List.mem_singleton] at hb; omega
  · split at hb
    · simp only [List.mem_cons, List.not_mem_nil, or_false] at hb
      rcases hb with h | h <;> omega
    · split at hb
      · simp only [List.mem_cons, List.not_mem_nil, or_false] at hb
        rcases hb with h | h | h <;> omega
      · simp only [List.mem_cons, List.not_mem_nil, or_false] at hb
        rcases hb with h | h | h | h <;> omega

theorem utf8Encode_lt_256 (s : Str) : ∀ b ∈ utf8Encode s, b < 256 := by
  intro b hb
  simp only [utf8Encode, List.mem_flatMap] at hb
  obtain ⟨c, _, hc⟩ := hb
  exact utf8EncodeChar_lt_256 c b hc

/-- Is a character an ASCII decimal digit. -/
def isDigit (c : Char) : Bool := 48 ≤ c.toNat && c.toNat ≤ 57

/-- Numeric value of an ASCII digit character. -/
def digitVal (c : Char) : Nat := c.toNat - 48

/-- The ASCII digit character of a value below ten. -/
def digitChar (d : Nat) : Char := Char.ofNat (48 + d)

/-- Value of a big-endian ASCII digit string. -/
def charsVal (l : Str) : Nat := l.foldl (fun acc c => acc * 10 + digitVal c) 0

/-- Big-endian base-ten digits of a natural number (empty for zero). -/
def digitsBE (n : Nat) : List Nat := (Nat.digits 10 n).reverse

/-- The digit list of a number's absolute value, zero-padded at the front so
that at least `fexp + 1` digits are present. -/
def jnumDigits (n : JNum) : List Nat :=
  let ds := digitsBE n.mant.natAbs
  if n.fexp + 1 ≤ ds.length then ds
  else List.replicate (n.fexp + 1 - ds.length) 0 ++ ds

/-- Integer-part digits. -/
def jnumIP (n : JNum) : List Nat :=
  (jnumDigits n).take ((jnumDigits n).length - n.fexp)

/-- Fraction-part digits. -/
def jnumFP (n : JNum) : List Nat :=
  (jnumDigits n).drop ((jnumDigits n).length - n.fexp)

/-- Decimal rendering of a modelled JavaScript number, exactly as
`JSON.stringify` renders the corresponding double: optional sign, integer
part without leading zeros (or a single `0`), and for `fexp > 0` a point
followed by `fexp` fraction digits without trailing zeros. -/
def renderJNum (n : JNum) : Str :=
  (if n.mant < 0 then ['-'] else []) ++ (jnumIP n).map digitChar ++
    (if n.fexp = 0 then [] else '.' :: (jnumFP n).map digitChar)

/-- JSON grammar integer part: `0 | [1-9][0-9]*`. -/
def pNat (s : Str) : Option (Nat × Str) :=
  match s with
  | [] => none
  | c :: rest =>
    if c = '0' then
      match rest.head? with
      | some c2 => if isDigit c2 then none else some (0, rest)
      | none => some (0, rest)
    else if isDigit c then
      some (charsVal ((c :: rest).takeWhile isDigit), (c :: rest).dropWhile isDigit)
    else none

/-- JSON grammar optional fraction: `('.' [0-9]+)?`, returning the fraction
value, the number of fraction digits and the remaining input. -/
def pFrac (s : Str) : Option (Nat × Nat × Str) :=
  match s with
  | [] => some (0, 0, [])
  | c :: rest =>
    if c = '.' then
      let ds := rest.takeWhile isDigit
      if ds = [] then none
      else some (charsVal ds, ds.length, rest.dropWhile isDigit)
    else some (0, 0, c :: rest)

/-- One or more exponent digits. -/
def pExpDigits (s : Str) : Option (Int × Str) :=
  let ds := s.takeWhile isDigit
  if ds = [] then none else some ((charsVal ds : Int), s.dropWhile isDigit)

/-- JSON grammar optional exponent: `([eE] [+-]? [0-9]+)?`. -/
def pExp (s : Str) : Option (Int × Str) :=
  match s with
  | [] => some (0, [])
  | c :: rest =>
    if c = 'e' ∨ c = 'E' then
      match rest with
      | [] => none
      | c2 :: r2 =>
        if c2 = '+' then pExpDigits r2
        else if c2 = '-' then (pExpDigits r2).map fun p => (-p.1, p.2)
        else pExpDigits (c2 :: r2)
    else some (0, c :: rest)

/-- Canonicalize `m / 10 ^ k` by removing common factors of ten. -/
def canonReduce (m : Int) : Nat → JNum
  | 0 => ⟨m, 0, by simp⟩
  | k + 1 =>
    if h : m % 10 = 0 then canonReduce (m / 10) k
    else ⟨m, k + 1, by simp [h]⟩

/-- Assemble the canonical number from parsed sign, integer part, fraction
and exponent. -/
def mkJNum (neg : Bool) (ival fval flen : Nat) (e : Int) : JNum :=
  let mag : Int := ((ival * 10 ^ flen + fval : Nat) : Int)
  let m : Int := if neg then -mag else mag
  let net : Int := (flen : Int) - e
  if net ≤ 0 then ⟨m * 10 ^ (-net).toNat, 0, by simp⟩
  else canonReduce m net.toNat

/-- Parse integer part, fraction and exponent after the optional sign. -/
def pNumBody (neg : Bool) (s : Str) : Option (JNum × Str) := do
  let (i, r1) ← pNat s
  let (f, fl, r2) ← pFrac r1
  let (e, r3) ← pExp r2
  pure (mkJNum neg i f fl e, r3)

/-- JSON number parsing, producing the canonical decimal value. -/
def pNum (s : Str) : Option (JNum × Str) :=
  match s with
  | [] => none
  | c :: rest =>
    if c = '-' then pNumBody true rest else pNumBody false (c :: rest)

/-- Big-endian value of a digit list. -/
def beVal (ds : List Nat) : Nat := ds.foldl (fun a d => a * 10 + d) 0

theorem beVal_general (ds : List Nat) (init : Nat) :
    ds.foldl (fun a d => a * 10 + d) init = init * 10 ^ ds.length + beVal ds := by
  induction ds generalizing init with
  | nil => simp [beVal]
  | cons d t ih =>
    simp only [List.foldl_cons, List.length_cons, beVal]
    rw [ih (init * 10 + d), ih (0 * 10 + d)]
    ring

theorem beVal_cons (d : Nat) (t : List Nat) :
    beVal (d :: t) = d * 10 ^ t.length + beVal t := by
  rw [beVal, List.foldl_cons, beVal_general]
  ring_nf

theorem beVal_append (l1 l2 : List Nat) :
    beVal (l1 ++ l2) = beVal l1 * 10 ^ l2.length + beVal l2 := by
  rw [beVal, List.foldl_append, ← beVal, beVal_general]

theorem beVal_replicate_zero (k : Nat) : beVal (List.replicate k 0) = 0 := by
  induction k with
  | zero => rfl
  | succ m ih =>
    rw [List.replicate_succ, beVal_cons, ih]
    ring

theorem beVal_pad (k : Nat) (ds : List Nat) :
    beVal (List.replicate k 0 ++ ds) = beVal ds := by
  rw [beVal_append, beVal_replicate_zero]
  ring

theorem beVal_reverse_ofDigits (l : List Nat) :
    beVal l.reverse = Nat.ofDigits 10 l := by
  induction l with
  | nil => rfl
  | cons d t ih =>
    rw [List.reverse_cons, beVal_append, ih, Nat.ofDigits_cons]
    simp [beVal, beVal_cons]
    ring

theorem beVal_digitsBE (n : Nat) : beVal (digitsBE n) = n := by
  rw [digitsBE, beVal_reverse_ofDigits, Nat.ofDigits_digits]

theorem digitsBE_lt_10 (n : Nat) : ∀ d ∈ digitsBE n, d < 10 := by
  intro d hd
  rw [digitsBE, List.mem_reverse] at hd
  exact Nat.digits_lt_base (by norm_num) hd

theorem digitVal_digitChar (d : Nat) (h : d < 10) : digitVal (digitChar d) = d := by
  interval_cases d <;> decide

theorem isDigit_digitChar (d : Nat) (h : d < 10) : isDigit (digitChar d) = true := by
  interval_cases d <;> decide

theorem digitChar_eq_zeroChar (d : Nat) (h : d < 10) : (digitChar d = '0') ↔ d = 0 := by
  interval_cases d <;> simp <;> decide

theorem charsVal_general (l : Str) (init : Nat) :
    l.foldl (fun acc c => acc * 10 + digitVal c) init =
      init * 10 ^ l.length + charsVal l := by
  induction l generalizing init with
  | nil => simp [charsVal]
  | cons c t ih =>
    simp only [List.foldl_cons, List.length_cons, charsVal]
    rw [ih (init * 10 + digitVal c), ih (0 * 10 + digitVal c)]
    ring

theorem charsVal_map_digitChar (ds : List Nat) (h : ∀ d ∈ ds, d < 10) :
    charsVal (ds.map digitChar) = beVal ds := by
  induction ds with
  | nil => rfl
  | cons d t ih =>
    have hd := h d (by simp)
    have ht : ∀ x ∈ t, x < 10 := fun x hx => h x (by simp [hx])
    rw [List.map_cons]
    show List.foldl (fun acc c => acc * 10 + digitVal c) 0 _ = _
    rw [List.foldl_cons, charsVal_general, ih ht, beVal_cons, List.length_map,
      digitVal_digitChar d hd]
    ring

theorem takeWhile_digits_append (l r : Str) (hl : ∀ c ∈ l, isDigit c = true)
    (hr : ∀ c, r.head? = some c → isDigit c = false) :
    (l ++ r).takeWhile isDigit = l ∧ (l ++ r).dropWhile isDigit = r := by
  induction l with
  | nil =>
    simp only [List.nil_append]
    cases r with
    | nil => exact ⟨rfl, rfl⟩
    | cons c r2 =>
      have := hr c rfl
      constructor
      · rw [List.takeWhile_cons]
        simp [this]
      · rw [List.dropWhile_cons]
        simp [this]
  | cons c l2 ih =>
    have hc := hl c (by simp)
    have hl2 : ∀ x ∈ l2, isDigit x = true := fun x hx => hl x (by simp [hx])
    obtain ⟨h1, h2⟩ := ih hl2
    constructor
    · rw [List.cons_append, List.takeWhile_cons, hc]
      simp [h1]
    · rw [List.cons_append, List.dropWhile_cons, hc]
      simp [h2]

theorem pNat_zero (r : Str) (hr : ∀ c, r.head? = some c → isDigit c = false) :
    pNat ('0' :: r) = some (0, r) := by
  rw [pNat]
  simp only [if_pos rfl]
  cases r with
  | nil => rfl
  | cons c r2 =>
    have := hr c rfl
    simp [this]

theorem pNat_pos (d0 : Nat) (t : List Nat) (r : Str)
    (h10 : ∀ d ∈ d0 :: t, d < 10) (hd0 : d0 ≠ 0)
    (hr : ∀ c, r.head? = some c → isDigit c = false) :
    pNat ((d0 :: t).map digitChar ++ r) = some (beVal (d0 :: t), r) := by
  have hd0lt : d0 < 10 := h10 d0 (by simp)
  have hmapdig : ∀ c ∈ (d0 :: t).map digitChar, isDigit c = true := by
    intro c hc
    rw [List.mem_map] at hc
    obtain ⟨d, hd, rfl⟩ := hc
    exact isDigit_digitChar d (h10 d hd)
  obtain ⟨htake, hdrop⟩ := takeWhile_digits_append _ r hmapdig hr
  rw [List.map_cons, List.cons_append, pNat]
  have hne : ¬ (digitChar d0 = '0') := by
    rw [digitChar_eq_zeroChar d0 hd0lt]
    exact hd0
  rw [if_neg hne, if_pos (isDigit_digitChar d0 hd0lt)]
  rw [← List.cons_append, ← List.map_cons, htake, hdrop]
  rw [charsVal_map_digitChar _ h10]

theorem digitsBE_nil_iff (a : Nat) : digitsBE a = [] ↔ a = 0 := by
  rw [digitsBE, List.reverse_eq_nil_iff, Nat.digits_eq_nil_iff_eq_zero]

theorem digitsBE_head_ne_zero (a : Nat) (d0 : Nat) (t : List Nat)
    (h : digitsBE a = d0 :: t) : d0 ≠ 0 := by
  have ha : a ≠ 0 := by
    intro h0
    rw [h0] at h
    simp [digitsBE] at h
  have hne : Nat.digits 10 a ≠ [] := Nat.digits_ne_nil_iff_ne_zero.mpr ha
  have hlast := Nat.getLast_digit_ne_zero 10 ha
  have hh : (digitsBE a).head? = (Nat.digits 10 a).getLast? := by
    rw [digitsBE, List.head?_reverse]
  rw [h] at hh
  rw [List.getLast?_eq_getLast _ hne] at hh
  simp only [List.head?_cons] at hh
  have hd : d0 = (Nat.digits 10 a).getLast hne := Option.some.inj hh
  intro h0
  apply hlast
  rw [← hd]
  exact h0

theorem jnumDigits_lt10 (n : JNum) : ∀ d ∈ jnumDigits n, d < 10 := by
  intro d hd
  rw [jnumDigits] at hd
  split at hd
  · exact digitsBE_lt_10 _ d hd
  · rw [List.mem_append] at hd
    rcases hd with hd | hd
    · rw [List.eq_of_mem_replicate hd]; omega
    · exact digitsBE_lt_10 _ d hd

theorem jnumDigits_beVal (n : JNum) : beVal (jnumDigits n) = n.mant.natAbs := by
  rw [jnumDigits]
  split
  · exact beVal_digitsBE _
  · rw [beVal_pad, beVal_digitsBE]

theorem jnumDigits_len (n : JNum) : n.fexp + 1 ≤ (jnumDigits n).length := by
  rw [jnumDigits]
  split
  · omega
  · rw [List.length_append, List.length_replicate]
    omega

theorem jnumFP_len (n : JNum) : (jnumFP n).length = n.fexp := by
  have := jnumDigits_len n
  rw [jnumFP, List.length_drop]
  omega

theorem jnumIP_append_FP (n : JNum) : jnumIP n ++ jnumFP n = jnumDigits n := by
  rw [jnumIP, jnumFP, List.take_append_drop]

theorem jnumIP_form (n : JNum) :
    (∃ d0 t, jnumIP n = d0 :: t ∧ d0 ≠ 0) ∨ jnumIP n = [0] := by
  rw [jnumIP, jnumDigits]
  split
  · rename_i hle
    left
    cases hds : digitsBE n.mant.natAbs with
    | nil =>
      rw [hds] at hle
      simp at hle
    | cons d0 t =>
      refine ⟨d0, (t.take (t.length - n.fexp)), ?_, digitsBE_head_ne_zero _ _ _ hds⟩
      rw [hds] at hle
      have hpos : (d0 :: t).length - n.fexp = (t.length - n.fexp) + 1 := by
        simp only [List.length_cons] at hle ⊢
        omega
      rw [hpos, List.take_succ_cons]
  · rename_i hgt
    right
    have hrep : n.fexp + 1 - (digitsBE n.mant.natAbs).length =
        (n.fexp - (digitsBE n.mant.natAbs).length) + 1 := by omega
    rw [hrep, List.replicate_succ, List.cons_append]
    have hlen2 : (0 :: (List.replicate (n.fexp - (digitsBE n.mant.natAbs).length) 0 ++
        digitsBE n.mant.natAbs)).length - n.fexp = 1 := by
      simp only [List.length_cons, List.length_append, List.length_replicate]
      omega
    rw [hlen2, List.take_succ_cons, List.take_zero]

theorem isDigit_dot : isDigit '.' = false := by decide

theorem mkJNum_exact (n : JNum) :
    mkJNum (decide (n.mant < 0)) (beVal (jnumIP n)) (beVal (jnumFP n)) n.fexp 0 = n := by
  have hmag : beVal (jnumIP n) * 10 ^ n.fexp + beVal (jnumFP n) = n.mant.natAbs := by
    have h1 := beVal_append (jnumIP n) (jnumFP n)
    rw [jnumIP_append_FP, jnumDigits_beVal, jnumFP_len] at h1
    omega
  have hmval : (if decide (n.mant < 0) = true then
      -((beVal (jnumIP n) * 10 ^ n.fexp + beVal (jnumFP n) : Nat) : Int)
      else ((beVal (jnumIP n) * 10 ^ n.fexp + beVal (jnumFP n) : Nat) : Int)) = n.mant := by
    split <;> rename_i hs <;> simp only [decide_eq_true_eq, Decidable.not_not] at hs <;>
      omega
  rw [mkJNum]
  split
  · rename_i hle
    have hf0 : n.fexp = 0 := by omega
    rw [JNum.eq_iff]
    constructor
    · show (if decide (n.mant < 0) = true then
          -((beVal (jnumIP n) * 10 ^ n.fexp + beVal (jnumFP n) : Nat) : Int)
          else ((beVal (jnumIP n) * 10 ^ n.fexp + beVal (jnumFP n) : Nat) : Int)) *
            10 ^ (-((n.fexp : Int) - 0)).toNat = n.mant
      have htn : (-((n.fexp : Int) - 0)).toNat = 0 := by omega
      rw [htn, pow_zero, mul_one, hmval]
    · show 0 = n.fexp
      omega
  · rename_i hgt
    have hf : 0 < n.fexp := by omega
    have htn : ((n.fexp : Int) - 0).toNat = n.fexp := by omega
    rw [htn, hmval]
    obtain ⟨k, hkk⟩ : ∃ k, n.fexp = k + 1 := ⟨n.fexp - 1, by omega⟩
    rw [hkk]
    have hm10 : ¬ (n.mant % 10 = 0) := by
      have hc := n.canon
      simp only [beq_iff_eq, bne_iff_ne, Bool.or_eq_true, ne_eq] at hc
      rcases hc with h | h
      · omega
      · exact h
    rw [canonReduce, dif_neg hm10]
    rw [JNum.eq_iff]
    refine ⟨rfl, ?_⟩
    show k + 1 = n.fexp
    omega

/-- Characters that may legitimately follow a rendered JSON number in this
development's grammar usage. -/
def NumStop (r : Str) : Prop :=
  ∀ c, r.head? = some c → isDigit c = false ∧ c ≠ '.' ∧ c ≠ 'e' ∧ c ≠ 'E'

theorem pFrac_none (r : Str) (h : ∀ c, r.head? = some c → c ≠ '.') :
    pFrac r = some (0, 0, r) := by
  cases r with
  | nil => rfl
  | cons c r2 =>
    rw [pFrac]
    rw [if_neg (h c rfl)]

theorem pExp_none (r : Str) (h : ∀ c, r.head? = some c → c ≠ 'e' ∧ c ≠ 'E') :
    pExp r = some (0, r) := by
  cases r with
  | nil => rfl
  | cons c r2 =>
    rw [pExp.eq_def]
    dsimp only
    have hce := h c rfl
    rw [if_neg (by tauto)]

theorem pNat_render_ip (ip : List Nat) (R : Str)
    (hip10 : ∀ d ∈ ip, d < 10)
    (hipform : (∃ d0 t, ip = d0 :: t ∧ d0 ≠ 0) ∨ ip = [0])
    (hR : ∀ c, R.head? = some c → isDigit c = false) :
    pNat (ip.map digitChar ++ R) = some (beVal ip, R) := by
  rcases hipform with ⟨d0, t, hipeq, hd0⟩ | hipeq
  · subst hipeq
    exact pNat_pos d0 t R hip10 hd0 hR
  · subst hipeq
    have h0 : digitChar 0 = '0' := by decide
    rw [List.map_cons, List.map_nil, h0, List.cons_append, List.nil_append]
    rw [pNat_zero R hR]
    rfl

theorem pNumBody_render (neg : Bool) (ip fp : List Nat) (k : Nat) (rest : Str)
    (hip10 : ∀ d ∈ ip, d < 10) (hfp10 : ∀ d ∈ fp, d < 10)
    (hfplen : fp.length = k)
    (hipform : (∃ d0 t, ip = d0 :: t ∧ d0 ≠ 0) ∨ ip = [0])
    (hstop : NumStop rest) :
    pNumBody neg
        (ip.map digitChar ++ (if k = 0 then [] else '.' :: fp.map digitChar) ++ rest) =
      some (mkJNum neg (beVal ip) (beVal fp) k 0, rest) := by
  have hreststop : ∀ c, rest.head? = some c → isDigit c = false :=
    fun c hc => (hstop c hc).1
  have hfracstop : ∀ c, rest.head? = some c → c ≠ '.' :=
    fun c hc => (hstop c hc).2.1
  have hexpstop : ∀ c, rest.head? = some c → c ≠ 'e' ∧ c ≠ 'E' :=
    fun c hc => ⟨(hstop c hc).2.2.1, (hstop c hc).2.2.2⟩
  rcases Nat.eq_zero_or_pos k with hk | hk
  · subst hk
    have hfpnil : fp = [] := List.length_eq_zero.mp hfplen
    subst hfpnil
    rw [if_pos rfl, List.append_nil]
    rw [pNumBody]
    rw [pNat_render_ip ip rest hip10 hipform hreststop]
    simp only [Option.bind_eq_bind, Option.some_bind]
    rw [pFrac_none rest hfracstop]
    simp only [Option.some_bind]
    rw [pExp_none rest hexpstop]
    simp only [Option.some_bind]
    rfl
  · rw [if_neg (by omega), List.append_assoc]
    rw [pNumBody]
    have hdotR : ∀ c, (('.' :: fp.map digitChar) ++ rest).head? = some c →
        isDigit c = false := by
      intro c hc
      rw [List.cons_append, List.head?_cons] at hc
      rw [← Option.some.inj hc]
      exact isDigit_dot
    rw [pNat_render_ip ip (('.' :: fp.map digitChar) ++ rest) hip10 hipform hdotR]
    simp only [Option.bind_eq_bind, Option.some_bind]
    have hmapdig : ∀ c ∈ fp.map digitChar, isDigit c = true := by
      intro c hc
      rw [List.mem_map] at hc
      obtain ⟨d, hd, rfl⟩ := hc
      exact isDigit_digitChar d (hfp10 d hd)
    obtain ⟨htake, hdrop⟩ :=
      takeWhile_digits_append (fp.map digitChar) rest hmapdig hreststop
    rw [List.cons_append, pFrac, if_pos rfl]
    have hfpne : fp.map digitChar ≠ [] := by
      intro h0
      rw [List.map_eq_nil_iff] at h0
      rw [h0] at hfplen
      simp at hfplen
      omega
    rw [htake, hdrop]
    rw [if_neg hfpne]
    simp only [Option.some_bind]
    rw [pExp_none rest hexpstop]
    simp only [Option.some_bind]
    rw [charsVal_map_digitChar fp hfp10, List.length_map, hfplen]
    rfl

theorem digitChar_ne_minus (d : Nat) (h : d < 10) : digitChar d ≠ '-' := by
  interval_cases d <;> decide

theorem pNum_renderJNum (n : JNum) (rest : Str) (hstop : NumStop rest) :
    pNum (renderJNum n ++ rest) = some (n, rest) := by
  have hip10 : ∀ d ∈ jnumIP n, d < 10 := by
    intro d hd
    exact jnumDigits_lt10 n d (List.take_subset _ _ hd)
  have hfp10 : ∀ d ∈ jnumFP n, d < 10 := by
    intro d hd
    exact jnumDigits_lt10 n d (List.drop_subset _ _ hd)
  have hbody := pNumBody_render (decide (n.mant < 0)) (jnumIP n) (jnumFP n) n.fexp rest
    hip10 hfp10 (jnumFP_len n) (jnumIP_form n) hstop
  rw [mkJNum_exact] at hbody
  rw [renderJNum]
  have hipheadlt : ∃ d0 t, jnumIP n = d0 :: t ∧ d0 < 10 := by
    rcases jnumIP_form n with ⟨d0, t, hipeq, _⟩ | hipeq
    · exact ⟨d0, t, hipeq, hip10 d0 (by rw [hipeq]; simp)⟩
    · exact ⟨0, [], hipeq, by omega⟩
  obtain ⟨d0, t, hipeq, hd0lt⟩ := hipheadlt
  rcases Classical.em (n.mant < 0) with hneg | hneg
  · rw [if_pos hneg]
    have hd : decide (n.mant < 0) = true := by simp [hneg]
    rw [hd] at hbody
    simp only [List.append_assoc, List.cons_append, List.nil_append] at hbody ⊢
    rw [pNum, if_pos rfl]
    exact hbody
  · rw [if_neg hneg]
    have hd : decide (n.mant < 0) = false := by simp [hneg]
    rw [hd] at hbody
    rw [hipeq, List.map_cons] at hbody ⊢
    simp only [List.append_assoc, List.cons_append, List.nil_append] at hbody ⊢
    rw [pNum, if_neg (digitChar_ne_minus d0 hd0lt)]
    exact hbody

/-- Lower-case hexadecimal digit, as emitted by `JSON.stringify` in `\\u00xx`
escapes. -/
def hexDigitChar (n : Nat) : Char := Char.ofNat (if n < 10 then 48 + n else 87 + n)

/-- Value of a hexadecimal digit character (`JSON.parse` accepts both cases). -/
def hexVal (c : Char) : Option Nat :=
  if 48 ≤ c.toNat ∧ c.toNat ≤ 57 then some (c.toNat - 48)
  else if 97 ≤ c.toNat ∧ c.toNat ≤ 102 then some (c.toNat - 87)
  else if 65 ≤ c.toNat ∧ c.toNat ≤ 70 then some (c.toNat - 55)
  else none

/-- `JSON.stringify` escaping of one character: quote and backslash, the
short escapes for the common control characters, `\\u00xx` for the other
control characters, everything else verbatim. -/
def escapeChar (c : Char) : Str :=
  if c = '"' then ['\\', '"']
  else if c = '\\' then ['\\', '\\']
  else if c.toNat = 8 then ['\\', 'b']
  else if c.toNat = 9 then ['\\', 't']
  else if c.toNat = 10 then ['\\', 'n']
  else if c.toNat = 12 then ['\\', 'f']
  else if c.toNat = 13 then ['\\', 'r']
  else if c.toNat < 32 then
    ['\\', 'u', '0', '0', hexDigitChar (c.toNat / 16), hexDigitChar (c.toNat % 16)]
  else [c]

/-- `JSON.stringify` escaping of a string body. -/
def escapeStr (s : Str) : Str := s.flatMap escapeChar

/-- A rendered JSON string literal. -/
def renderJString (s : Str) : Str := '"' :: escapeStr s ++ ['"']

/-- `JSON.parse` string-body scanning, given the input after the opening
quote: returns the decoded content and the input after the closing quote.
Surrogate halves from `\\u` escapes are outside the scalar-value string
model and collapse to NUL; no output of `escapeStr` produces them. -/
def unescapeAux : Str → Option (Str × Str)
  | [] => none
  | '"' :: rest => some ([], rest)
  | '\\' :: 'u' :: h1 :: h2 :: h3 :: h4 :: rest => do
    let v1 ← hexVal h1
    let v2 ← hexVal h2
    let v3 ← hexVal h3
    let v4 ← hexVal h4
    let (content, r) ← unescapeAux rest
    pure (Char.ofNat (((v1 * 16 + v2) * 16 + v3) * 16 + v4) :: content, r)
  | '\\' :: e :: rest => do
    let ec ←
      if e = '"' then some '"'
      else if e = '\\' then some '\\'
      else if e = '/' then some '/'
      else if e = 'b' then some (Char.ofNat 8)
      else if e = 'f' then some (Char.ofNat 12)
      else if e = 'n' then some (Char.ofNat 10)
      else if e = 'r' then some (Char.ofNat 13)
      else if e = 't' then some (Char.ofNat 9)
      else none
    let (content, r) ← unescapeAux rest
    pure (ec :: content, r)
  | c :: rest =>
    if c.toNat < 32 then none
    else do
      let (content, r) ← unescapeAux rest
      pure (c :: content, r)

theorem hexVal_hexDigitChar (n : Nat) (h : n < 16) : hexVal (hexDigitChar n) = some n := by
  interval_cases n <;> decide

theorem unescapeAux_escape (s rest : Str) :
    unescapeAux (escapeStr s ++ '"' :: rest) = some (s, rest) := by
  induction s with
  | nil => rfl
  | cons c s2 ih =>
    have hesc : escapeStr (c :: s2) = escapeChar c ++ escapeStr s2 := by
      simp [escapeStr]
    rw [hesc, List.append_assoc]
    rw [escapeChar]
    by_cases h1 : c = '"'
    · rw [if_pos h1, h1]
      simp [unescapeAux, ih]
    rw [if_neg h1]
    by_cases h2 : c = '\\'
    · rw [if_pos h2, h2]
      simp [unescapeAux, ih]
    rw [if_neg h2]
    by_cases h3 : c.toNat = 8
    · rw [if_pos h3]
      have hc : Char.ofNat 8 = c := by rw [← h3, Char.ofNat_toNat]
      simp [unescapeAux, ih]
      exact hc
    rw [if_neg h3]
    by_cases h4 : c.toNat = 9
    · rw [if_pos h4]
      have hc : Char.ofNat 9 = c := by rw [← h4, Char.ofNat_toNat]
      simp [unescapeAux, ih]
      exact hc
    rw [if_neg h4]
    by_cases h5 : c.toNat = 10
    · rw [if_pos h5]
      have hc : Char.ofNat 10 = c := by rw [← h5, Char.ofNat_toNat]
      simp [unescapeAux, ih]
      exact hc
    rw [if_neg h5]
    by_cases h6 : c.toNat = 12
    · rw [if_pos h6]
      have hc : Char.ofNat 12 = c := by rw [← h6, Char.ofNat_toNat]
      simp [unescapeAux, ih]
      exact hc
    rw [if_neg h6]
    by_cases h7 : c.toNat = 13
    · rw [if_pos h7]
      have hc : Char.ofNat 13 = c := by rw [← h7, Char.ofNat_toNat]
      simp [unescapeAux, ih]
      exact hc
    rw [if_neg h7]
    by_cases h8 : c.toNat < 32
    · rw [if_pos h8]
      have hdiv : c.toNat / 16 < 16 := by omega
      have hmod : c.toNat % 16 < 16 := by omega
      have h0 : hexVal '0' = some 0 := by decide
      have hv : ((0 * 16 + 0) * 16 + c.toNat / 16) * 16 + c.toNat % 16 = c.toNat := by
        omega
      simp [unescapeAux, h0, hexVal_hexDigitChar _ hdiv, hexVal_hexDigitChar _ hmod,
        ih, hv, Char.ofNat_toNat]
      have hv2 : c.toNat / 16 * 16 + c.toNat % 16 = c.toNat := by omega
      rw [hv2, Char.ofNat_toNat]
    · rw [if_neg h8]
      simp [unescapeAux, h1, h2, h8, ih]

/-- JSON values (`JSON.parse` result tree). -/
inductive JValue where
  | null
  | bool (b : Bool)
  | num (n : JNum)
  | str (s : Str)
  | arr (elems : List JValue)
  | obj (fields : List (Str × JValue))

/-- The JSON whitespace class (RFC 8259). -/
def isJsonWs (c : Char) : Bool :=
  c == ' ' || c.toNat == 9 || c.toNat == 10 || c.toNat == 13

/-- Skip JSON whitespace. -/
def wsSkip (s : Str) : Str := s.dropWhile isJsonWs

/-- The opening brace character. -/
def braceOpen : Char := Char.ofNat 123

/-- The closing brace character. -/
def braceClose : Char := Char.ofNat 125

mutual

/-- `JSON.stringify` rendering of a value (no gap argument: compact form). -/
def renderJValue : JValue → Str
  | .null => strOf "null"
  | .bool true => strOf "true"
  | .bool false => strOf "false"
  | .num n => renderJNum n
  | .str s => renderJString s
  | .arr es => '[' :: renderElems es ++ [']']
  | .obj fs => braceOpen :: renderFields fs ++ [braceClose]

/-- Render array elements, comma-separated. -/
def renderElems : List JValue → Str
  | [] => []
  | [e] => renderJValue e
  | e :: f :: rest => renderJValue e ++ ',' :: renderElems (f :: rest)

/-- Render object members, comma-separated. -/
def renderFields : List (Str × JValue) → Str
  | [] => []
  | [(k, v)] => renderJString k ++ ':' :: renderJValue v
  | (k, v) :: f :: rest =>
    renderJString k ++ ':' :: renderJValue v ++ ',' :: renderFields (f :: rest)

end

mutual

/-- Fueled `JSON.parse` value parser; fuel strictly decreases at every
recursive call, and the top-level entry supplies more fuel than any input
can consume. -/
def pValue : Nat → Str → Option (JValue × Str)
  | 0, _ => none
  | fuel + 1, s =>
    match wsSkip s with
    | [] => none
    | c :: r =>
      if c = '"' then (unescapeAux r).map fun p => (JValue.str p.1, p.2)
      else if c = 't' then
        if (strOf "rue").isPrefixOf r then some (.bool true, r.drop 3) else none
      else if c = 'f' then
        if (strOf "alse").isPrefixOf r then some (.bool false, r.drop 4) else none
      else if c = 'n' then
        if (strOf "ull").isPrefixOf r then some (.null, r.drop 3) else none
      else if c = '[' then
        match wsSkip r with
        | [] => none
        | c1 :: r1 =>
          if c1 = ']' then some (.arr [], r1)
          else
            match pElems fuel (c1 :: r1) with
            | some (es, r2) => some (.arr es, r2)
            | none => none
      else if c = braceOpen then
        match wsSkip r with
        | c2 :: r2 =>
          if c2 = braceClose then some (.obj [], r2)
          else
            match pFields fuel (c2 :: r2) with
            | some (fs, r3) => some (.obj fs, r3)
            | none => none
        | [] => none
      else (pNum (c :: r)).map fun p => (.num p.1, p.2)

/-- Parse one or more array elements followed by the closing bracket. -/
def pElems : Nat → Str → Option (List JValue × Str)
  | 0, _ => none
  | fuel + 1, s => do
    let (v, r1) ← pValue fuel s
    match wsSkip r1 with
    | [] => none
    | c1 :: r2 =>
      if c1 = ']' then some ([v], r2)
      else if c1 = ',' then do
        let (es, r3) ← pElems fuel r2
        pure (v :: es, r3)
      else none

/-- Parse one or more object members followed by the closing brace. -/
def pFields : Nat → Str → Option (List (Str × JValue) × Str)
  | 0, _ => none
  | fuel + 1, s =>
    match wsSkip s with
    | c :: r =>
      if c = '"' then do
        let (k, r1) ← unescapeAux r
        match wsSkip r1 with
        | c2 :: r2 =>
          if c2 = ':' then do
            let (v, r3) ← pValue fuel r2
            match wsSkip r3 with
            | c3 :: r4 =>
              if c3 = ',' then do
                let (fs, r5) ← pFields fuel r4
                pure ((k, v) :: fs, r5)
              else if c3 = braceClose then some ([(k, v)], r4)
              else none
            | [] => none
          else none
        | [] => none
      else none
    | [] => none

end

/-- Model of `JSON.parse`: parse one value with ample fuel and require only
whitespace to remain. -/
def jsonParse (s : Str) : Option JValue :=
  match pValue (s.length + 1) s with
  | some (v, rest) => if wsSkip rest = [] then some v else none
  | none => none

mutual

/-- Fuel sufficient for `pValue` on the rendering of a value. -/
def needed : JValue → Nat
  | .null => 1
  | .bool _ => 1
  | .num _ => 1
  | .str _ => 1
  | .arr es => 1 + neededList es
  | .obj fs => 1 + neededFields fs

/-- Fuel sufficient for `pElems` on rendered elements. -/
def neededList : List JValue → Nat
  | [] => 1
  | v :: es => 1 + max (needed v) (neededList es)

/-- Fuel sufficient for `pFields` on rendered members. -/
def neededFields : List (Str × JValue) → Nat
  | [] => 1
  | (_, v) :: fs => 1 + max (needed v) (neededFields fs)

end

/-- Characters that may follow a complete rendered value inside the JSON
grammar as this development uses it. -/
def JsonStop (r : Str) : Prop :=
  ∀ c, r.head? = some c → c = ',' ∨ c = braceClose ∨ c = ']'

theorem jsonStop_numStop (r : Str) (h : JsonStop r) : NumStop r := by
  intro c hc
  rcases h c hc with h1 | h1 | h1 <;> (subst h1; exact ⟨by decide, by decide, by decide, by decide⟩)

theorem digitChar_head_facts (d : Nat) (h : d < 10) :
    isJsonWs (digitChar d) = false ∧ digitChar d ≠ '"' ∧ digitChar d ≠ 't' ∧
    digitChar d ≠ 'f' ∧ digitChar d ≠ 'n' ∧ digitChar d ≠ '[' ∧
    digitChar d ≠ braceOpen ∧ digitChar d ≠ ']' := by
  interval_cases d <;> refine ⟨by decide, by decide, by decide, by decide, by decide, by decide, by decide, by decide⟩

theorem renderJNum_head (n : JNum) :
    ∃ c t, renderJNum n = c :: t ∧ (c = '-' ∨ ∃ d, d < 10 ∧ c = digitChar d) := by
  rw [renderJNum]
  obtain ⟨d0, t0, hip, hd0⟩ : ∃ d0 t0, jnumIP n = d0 :: t0 ∧ d0 < 10 := by
    rcases jnumIP_form n with ⟨d0, t0, hipeq, _⟩ | hipeq
    · refine ⟨d0, t0, hipeq, ?_⟩
      have := jnumDigits_lt10 n d0 (List.take_subset _ _ (by rw [← jnumIP]; rw [hipeq]; simp))
      exact this
    · exact ⟨0, [], hipeq, by omega⟩
  rcases Classical.em (n.mant < 0) with hneg | hneg
  · rw [if_pos hneg]
    exact ⟨'-', _, rfl, Or.inl rfl⟩
  · rw [if_neg hneg, hip, List.nil_append, List.map_cons, List.cons_append]
    exact ⟨digitChar d0, _, rfl, Or.inr ⟨d0, hd0, rfl⟩⟩

theorem renderJValue_head (v : JValue) :
    ∃ c t, renderJValue v = c :: t ∧ isJsonWs c = false ∧ c ≠ ']' := by
  cases v with
  | null => exact ⟨'n', _, rfl, by decide, by decide⟩
  | bool b =>
    cases b
    · exact ⟨'f', _, rfl, by decide, by decide⟩
    · exact ⟨'t', _, rfl, by decide, by decide⟩
  | num n =>
    obtain ⟨c, t, heq, hc⟩ := renderJNum_head n
    refine ⟨c, t, heq, ?_, ?_⟩
    · rcases hc with h | ⟨d, hd, h⟩
      · subst h; decide
      · subst h; exact (digitChar_head_facts d hd).1
    · rcases hc with h | ⟨d, hd, h⟩
      · subst h; decide
      · subst h; exact (digitChar_head_facts d hd).2.2.2.2.2.2.2
  | str s => exact ⟨'"', _, rfl, by decide, by decide⟩
  | arr es =>
    exact ⟨'[', renderElems es ++ [']'],
      by rw [renderJValue, List.cons_append], by decide, by decide⟩
  | obj fs =>
    exact ⟨braceOpen, renderFields fs ++ [braceClose],
      by rw [renderJValue, List.cons_append], by decide, by decide⟩

theorem wsSkip_cons_not_ws (c : Char) (t : Str) (h : isJsonWs c = false) :
    wsSkip (c :: t) = c :: t := by
  rw [wsSkip, List.dropWhile_cons, h]
  simp

theorem one_le_needed (v : JValue) : 1 ≤ needed v := by
  cases v <;> simp [needed]

theorem one_le_neededList (es : List JValue) : 1 ≤ neededList es := by
  cases es <;> simp [neededList]

theorem one_le_neededFields (fs : List (Str × JValue)) : 1 ≤ neededFields fs := by
  cases fs with
  | nil => simp [neededFields]
  | cons f fs2 =>
    obtain ⟨k, v⟩ := f
    simp [neededFields]

theorem jsonStop_bracket (rest : Str) : JsonStop (']' :: rest) := by
  intro c hc
  rw [List.head?_cons] at hc
  exact Or.inr (Or.inr (Option.some.inj hc).symm)

theorem jsonStop_comma (rest : Str) : JsonStop (',' :: rest) := by
  intro c hc
  rw [List.head?_cons] at hc
  exact Or.inl (Option.some.inj hc).symm

theorem jsonStop_brace (rest : Str) : JsonStop (braceClose :: rest) := by
  intro c hc
  rw [List.head?_cons] at hc
  exact Or.inr (Or.inl (Option.some.inj hc).symm)

mutual

theorem pValue_render : ∀ (fuel : Nat) (v : JValue) (rest : Str),
    needed v ≤ fuel → JsonStop rest →
    pValue fuel (renderJValue v ++ rest) = some (v, rest)
  | 0, v, _, hf, _ => by
    have h1 := one_le_needed v
    omega
  | fuel + 1, v, rest, hf, hstop => by
    cases v with
    | null =>
      have h : renderJValue .null ++ rest = 'n' :: 'u' :: 'l' :: 'l' :: rest := rfl
      rw [h, pValue, wsSkip_cons_not_ws _ _ (by decide)]
      simp only [List.isPrefixOf, Bool.and_eq_true, beq_iff_eq]
      rw [if_neg (by decide), if_neg (by decide), if_neg (by decide)]
      simp
    | bool b =>
      cases b with
      | false =>
        have h : renderJValue (.bool false) ++ rest =
            'f' :: 'a' :: 'l' :: 's' :: 'e' :: rest := rfl
        rw [h, pValue, wsSkip_cons_not_ws _ _ (by decide)]
        simp only [List.isPrefixOf, Bool.and_eq_true, beq_iff_eq]
        rw [if_neg (by decide), if_neg (by decide), if_pos (by decide)]
        simp
      | true =>
        have h : renderJValue (.bool true) ++ rest = 't' :: 'r' :: 'u' :: 'e' :: rest := rfl
        rw [h, pValue, wsSkip_cons_not_ws _ _ (by decide)]
        simp only [List.isPrefixOf, Bool.and_eq_true, beq_iff_eq]
        rw [if_neg (by decide), if_pos (by decide)]
        simp
    | num n =>
      obtain ⟨c, t, heq, hc⟩ := renderJNum_head n
      have hrv : renderJValue (.num n) = c :: t := heq
      have hcws : isJsonWs c = false := by
        rcases hc with h1 | ⟨d, hd, h1⟩
        · subst h1; decide
        · subst h1; exact (digitChar_head_facts d hd).1
      have h : renderJValue (.num n) ++ rest = c :: (t ++ rest) := by
        rw [hrv, List.cons_append]
      rw [h, pValue, wsSkip_cons_not_ws _ _ hcws]
      dsimp only
      have hne : (c ≠ '"') ∧ (c ≠ 't') ∧ (c ≠ 'f') ∧ (c ≠ 'n') ∧ (c ≠ '[') ∧
          (c ≠ braceOpen) := by
        rcases hc with h1 | ⟨d, hd, h1⟩
        · subst h1
          exact ⟨by decide, by decide, by decide, by decide, by decide, by decide⟩
        · subst h1
          have hfacts := digitChar_head_facts d hd
          exact ⟨hfacts.2.1, hfacts.2.2.1, hfacts.2.2.2.1, hfacts.2.2.2.2.1,
            hfacts.2.2.2.2.2.1, hfacts.2.2.2.2.2.2.1⟩
      rw [if_neg hne.1, if_neg hne.2.1, if_neg hne.2.2.1, if_neg hne.2.2.2.1,
        if_neg hne.2.2.2.2.1, if_neg hne.2.2.2.2.2]
      have hback : c :: (t ++ rest) = renderJNum n ++ rest := by
        rw [← List.cons_append, ← heq]
      rw [hback, pNum_renderJNum n rest (jsonStop_numStop rest hstop)]
      rfl
    | str s =>
      have h : renderJValue (.str s) ++ rest = '"' :: (escapeStr s ++ '"' :: rest) := by
        show ('"' :: escapeStr s ++ ['"']) ++ rest = _
        simp
      rw [h, pValue, wsSkip_cons_not_ws _ _ (by decide)]
      dsimp only
      rw [if_pos (by decide)]
      rw [unescapeAux_escape]
      simp
    | arr es =>
      cases es with
      | nil =>
        have h : renderJValue (.arr []) ++ rest = '[' :: ']' :: rest := rfl
        rw [h, pValue, wsSkip_cons_not_ws _ _ (by decide)]
        dsimp only
        rw [if_neg (by decide), if_neg (by decide), if_neg (by decide), if_neg (by decide),
          if_pos (by decide)]
        rw [wsSkip_cons_not_ws _ _ (by decide)]
        simp
      | cons v es2 =>
        have h : renderJValue (.arr (v :: es2)) ++ rest =
            '[' :: (renderElems (v :: es2) ++ ']' :: rest) := by
          show ('[' :: renderElems (v :: es2) ++ [']']) ++ rest = _
          simp
        rw [h, pValue, wsSkip_cons_not_ws _ _ (by decide)]
        dsimp only
        rw [if_neg (by decide), if_neg (by decide), if_neg (by decide), if_neg (by decide),
          if_pos (by decide)]
        obtain ⟨c1, t1, he1, hc1ws, hc1ne⟩ := renderJValue_head v
        obtain ⟨X, hX⟩ : ∃ X, renderElems (v :: es2) = renderJValue v ++ X := by
          cases es2 with
          | nil => exact ⟨[], by rw [renderElems, List.append_nil]⟩
          | cons w es3 => exact ⟨',' :: renderElems (w :: es3), by rw [renderElems]⟩
        have hlist : renderElems (v :: es2) ++ ']' :: rest =
            c1 :: (t1 ++ (X ++ ']' :: rest)) := by
          rw [hX, he1]
          simp [List.cons_append, List.append_assoc]
        rw [hlist, wsSkip_cons_not_ws _ _ hc1ws]
        dsimp only
        rw [if_neg hc1ne]
        rw [← hlist]
        rw [pElems_render fuel (v :: es2) rest (by simp)
          (by simp only [needed] at hf; omega)]
    | obj fs =>
      cases fs with
      | nil =>
        have h : renderJValue (.obj []) ++ rest = braceOpen :: braceClose :: rest := rfl
        rw [h, pValue, wsSkip_cons_not_ws _ _ (by decide)]
        dsimp only
        rw [if_neg (by decide), if_neg (by decide), if_neg (by decide), if_neg (by decide),
          if_neg (by decide), if_pos (by decide)]
        rw [wsSkip_cons_not_ws _ _ (by decide)]
        dsimp only
        rw [if_pos (by decide)]
      | cons f fs2 =>
        obtain ⟨k, vv⟩ := f
        have h : renderJValue (.obj ((k, vv) :: fs2)) ++ rest =
            braceOpen :: (renderFields ((k, vv) :: fs2) ++ braceClose :: rest) := by
          show (braceOpen :: renderFields ((k, vv) :: fs2) ++ [braceClose]) ++ rest = _
          simp
        rw [h, pValue, wsSkip_cons_not_ws _ _ (by decide)]
        dsimp only
        rw [if_neg (by decide), if_neg (by decide), if_neg (by decide), if_neg (by decide),
          if_neg (by decide), if_pos (by decide)]
        obtain ⟨X, hX⟩ : ∃ X, renderFields ((k, vv) :: fs2) =
            '"' :: (escapeStr k ++ '"' :: X) := by
          cases fs2 with
          | nil =>
            refine ⟨':' :: renderJValue vv, ?_⟩
            rw [renderFields, renderJString]
            simp [List.cons_append, List.append_assoc]
          | cons f2 fs3 =>
            obtain ⟨k2, v2⟩ := f2
            refine ⟨':' :: (renderJValue vv ++ ',' :: renderFields ((k2, v2) :: fs3)), ?_⟩
            rw [renderFields, renderJString]
            simp [List.cons_append, List.append_assoc]
        have hlist : renderFields ((k, vv) :: fs2) ++ braceClose :: rest =
            '"' :: ((escapeStr k ++ '"' :: X) ++ braceClose :: rest) := by
          rw [hX]
          simp [List.cons_append]
        rw [hlist, wsSkip_cons_not_ws _ _ (by decide)]
        dsimp only
        rw [if_neg (by decide)]
        rw [← hlist]
        rw [pFields_render fuel ((k, vv) :: fs2) rest (by simp)
          (by simp only [needed] at hf; omega)]
  termination_by fuel _ _ _ _ => fuel

theorem pElems_render : ∀ (fuel : Nat) (es : List JValue) (rest : Str),
    es ≠ [] → neededList es ≤ fuel →
    pElems fuel (renderElems es ++ ']' :: rest) = some (es, rest)
  | 0, es, _, hne, hf => by
    have h1 := one_le_neededList es
    omega
  | fuel + 1, es, rest, hne, hf => by
    cases es with
    | nil => exact absurd rfl hne
    | cons v es2 =>
      have hnv : needed v ≤ fuel := by
        simp only [neededList] at hf
        omega
      cases es2 with
      | nil =>
        have h : renderElems [v] ++ ']' :: rest = renderJValue v ++ ']' :: rest := by
          rw [renderElems]
        rw [h, pElems]
        rw [pValue_render fuel v (']' :: rest) hnv (jsonStop_bracket rest)]
        simp only [Option.bind_eq_bind, Option.some_bind]
        rw [wsSkip_cons_not_ws _ _ (by decide)]
        dsimp only
        rw [if_pos (by decide)]
      | cons w es3 =>
        have h : renderElems (v :: w :: es3) ++ ']' :: rest =
            renderJValue v ++ (',' :: (renderElems (w :: es3) ++ ']' :: rest)) := by
          rw [renderElems]
          simp [List.cons_append, List.append_assoc]
        rw [h, pElems]
        rw [pValue_render fuel v _ hnv (jsonStop_comma _)]
        simp only [Option.bind_eq_bind, Option.some_bind]
        rw [wsSkip_cons_not_ws _ _ (by decide)]
        dsimp only
        rw [if_neg (by decide), if_pos (by decide)]
        rw [pElems_render fuel (w :: es3) rest (by simp)
          (by simp only [neededList] at hf ⊢; omega)]
        rfl
  termination_by fuel _ _ _ _ => fuel

theorem pFields_render : ∀ (fuel : Nat) (fs : List (Str × JValue)) (rest : Str),
    fs ≠ [] → neededFields fs ≤ fuel →
    pFields fuel (renderFields fs ++ braceClose :: rest) = some (fs, rest)
  | 0, fs, _, hne, hf => by
    have h1 := one_le_neededFields fs
    omega
  | fuel + 1, fs, rest, hne, hf => by
    cases fs with
    | nil => exact absurd rfl hne
    | cons f fs2 =>
      obtain ⟨k, v⟩ := f
      have hnv : needed v ≤ fuel := by
        simp only [neededFields] at hf
        omega
      cases fs2 with
      | nil =>
        have h : renderFields [(k, v)] ++ braceClose :: rest =
            '"' :: (escapeStr k ++ '"' :: (':' :: (renderJValue v ++ braceClose :: rest))) := by
          rw [renderFields, renderJString]
          simp [List.cons_append, List.append_assoc]
        rw [h, pFields]
        rw [wsSkip_cons_not_ws _ _ (by decide)]
        dsimp only
        rw [if_pos (by decide)]
        rw [unescapeAux_escape]
        simp only [Option.bind_eq_bind, Option.some_bind]
        rw [wsSkip_cons_not_ws _ _ (by decide)]
        dsimp only
        rw [if_pos (by decide)]
        rw [pValue_render fuel v _ hnv (jsonStop_brace rest)]
        simp only [Option.some_bind]
        rw [wsSkip_cons_not_ws _ _ (by decide)]
        dsimp only
        rw [if_neg (by decide), if_pos (by decide)]
      | cons f2 fs3 =>
        obtain ⟨k2, v2⟩ := f2
        have h : renderFields ((k, v) :: (k2, v2) :: fs3) ++ braceClose :: rest =
            '"' :: (escapeStr k ++ '"' ::
              (':' :: (renderJValue v ++
                ',' :: (renderFields ((k2, v2) :: fs3) ++ braceClose :: rest)))) := by
          rw [renderFields, renderJString]
          simp [List.cons_append, List.append_assoc]
        rw [h, pFields]
        rw [wsSkip_cons_not_ws _ _ (by decide)]
        dsimp only
        rw [if_pos (by decide)]
        rw [unescapeAux_escape]
        simp only [Option.bind_eq_bind, Option.some_bind]
        rw [wsSkip_cons_not_ws _ _ (by decide)]
        dsimp only
        rw [if_pos (by decide)]
        rw [pValue_render fuel v _ hnv (jsonStop_comma _)]
        simp only [Option.some_bind]
        rw [wsSkip_cons_not_ws _ _ (by decide)]
        dsimp only
        rw [if_pos (by decide)]
        rw [pFields_render fuel ((k2, v2) :: fs3) rest (by simp)
          (by simp only [neededFields] at hf ⊢; omega)]
        rfl
  termination_by fuel _ _ _ _ => fuel

end

mutual

theorem needed_le_render : ∀ v : JValue, needed v ≤ (renderJValue v).length + 1
  | .null => by simp [needed]
  | .bool b => by cases b <;> simp [needed]
  | .num n => by simp [needed]
  | .str s => by simp [needed]
  | .arr [] => by
    simp [needed, neededList, renderJValue, renderElems]
  | .arr (v :: es) => by
    have h := neededList_le_render (v :: es) (by simp)
    simp only [needed, renderJValue, List.cons_append, List.length_cons,
      List.length_append, List.length_singleton]
    omega
  | .obj [] => by
    simp [needed, neededFields, renderJValue, renderFields]
  | .obj (f :: fs) => by
    have h := neededFields_le_render (f :: fs) (by simp)
    simp only [needed, renderJValue, List.cons_append, List.length_cons,
      List.length_append, List.length_singleton]
    omega

theorem neededList_le_render : ∀ es : List JValue, es ≠ [] →
    neededList es ≤ (renderElems es).length + 2
  | [v], _ => by
    have h1 := needed_le_render v
    have h2 := one_le_needed v
    simp only [neededList, renderElems]
    omega
  | v :: w :: es, _ => by
    have h1 := needed_le_render v
    have h2 := neededList_le_render (w :: es) (by simp)
    rw [neededList, renderElems]
    simp only [List.length_append, List.length_cons]
    omega

theorem neededFields_le_render : ∀ fs : List (Str × JValue), fs ≠ [] →
    neededFields fs ≤ (renderFields fs).length + 2
  | [(k, v)], _ => by
    have h1 := needed_le_render v
    have h2 := one_le_needed v
    simp only [neededFields, renderFields, List.length_append, List.length_cons]
    omega
  | (k, v) :: f :: fs, _ => by
    have h1 := needed_le_render v
    have h2 := neededFields_le_render (f :: fs) (by simp)
    obtain ⟨k2, v2⟩ := f
    rw [neededFields, renderFields]
    simp only [List.length_append, List.length_cons]
    omega

end

/-- The `JSON.parse` / `JSON.stringify` round trip used by the metadata
codec. -/
theorem jsonParse_render (v : JValue) : jsonParse (renderJValue v) = some v := by
  rw [jsonParse]
  have hlen := needed_le_render v
  have h := pValue_render ((renderJValue v).length + 1) v [] hlen
    (by intro c hc; simp at hc)
  rw [List.append_nil] at h
  rw [h]
  simp [wsSkip]

/-- Source `ReminderMetadata`. -/
structure ReminderMetadata where
  tags : Option (List Str) := none
  location : Option ReminderLocation := none
deriving DecidableEq

/-- Source `ReminderBodyParts`. -/
structure ReminderBodyParts where
  notes : Option Str
  metadata : ReminderMetadata
deriving DecidableEq

/-- The leading sentinel of the metadata marker (source `METADATA_PREFIX`;
renamed here to avoid a keyword-like suffix). -/
def METADATA_MARK : Str := strOf "[[mcp-reminder-meta:"

/-- The trailing sentinel of the metadata marker (source `METADATA_SUFFIX`). -/
def METADATA_TAIL : Str := strOf "]]"

/-- The full marker around an encoded token. -/
def markerOf (tok : Str) : Str := METADATA_MARK ++ tok ++ METADATA_TAIL

/-- The `JSON.stringify` image of a normalized location, fields in insertion
order (title, latitude, longitude, radiusMeters, proximity). -/
def locationToJValue (loc : ReminderLocation) : JValue :=
  .obj ((loc.title.map fun t => (strOf "title", JValue.str t)).toList ++
    (loc.latitude.map fun n => (strOf "latitude", JValue.num n)).toList ++
    (loc.longitude.map fun n => (strOf "longitude", JValue.num n)).toList ++
    (loc.radiusMeters.map fun n => (strOf "radiusMeters", JValue.num n)).toList ++
    (loc.proximity.map fun p => (strOf "proximity", JValue.str p)).toList)

/-- The `JSON.stringify` image of the compact metadata object: `tags` first
when non-empty, then `location` when present. -/
def metadataToJValue (tags : List Str) (location : Option ReminderLocation) : JValue :=
  .obj ((if tags = [] then [] else [(strOf "tags", JValue.arr (tags.map JValue.str))]) ++
    (match location with
     | some l => [(strOf "location", locationToJValue l)]
     | none => []))

/-- Source `encodeMetadata` (part_000 lines 381-398): normalize leniently,
return `null` when nothing remains, otherwise base64url of the UTF-8 JSON
serialization.  Lenient location normalization cannot throw, so the
`.error` branch of `lenientLoc` is unreachable. -/
def encodeMetadata (metadata : ReminderMetadata) : Option Str :=
  let tags := normalizeTags metadata.tags
  let location := lenientLoc metadata.location
  if tags = [] ∧ location = none then none
  else some (b64Encode (utf8Encode (renderJValue (metadataToJValue tags location))))

/-- The source's `hasNotes` test: `typeof notes === "string" &&
notes.trim().length > 0`. -/
def hasNotes (notes : Option Str) : Bool :=
  match notes with
  | some s => !(jsTrim s).isEmpty
  | none => false

/-- Source `composeReminderBody` (part_000 lines 400-410). -/
def composeReminderBody (notes : Option Str) (metadata : ReminderMetadata) :
    Option Str :=
  match encodeMetadata metadata with
  | none => if hasNotes notes then notes else none
  | some tok =>
    let marker := markerOf tok
    if hasNotes notes then some (notes.getD [] ++ strOf "\n\n" ++ marker)
    else some marker

/-- One anchored attempt of the body regular expression
`\s*\[\[mcp-reminder-meta:([A-Za-z0-9_-]+)\]\]\s*$` at the start of `l`,
requiring the match to span all of `l`.  The alternation is deterministic:
the sentinel starts with a non-whitespace character, token characters are
disjoint from `]`, so success is equivalent to the obvious decomposition. -/
def matchFull (l : Str) : Option Str :=
  let pastWs := l.dropWhile isJsWs
  if METADATA_MARK.isPrefixOf pastWs then
    let after := pastWs.drop METADATA_MARK.length
    let tok := after.takeWhile isTokenChar
    if tok ≠ [] ∧ (after.drop tok.length).take 2 = METADATA_TAIL ∧
        ((after.drop tok.length).drop 2).all isJsWs then
      some tok
    else none
  else none

/-- One step of the marker scan: try an anchored match here, else defer. -/
def fmStep (i : Nat) (l : Str) (next : Option (Nat × Str)) : Option (Nat × Str) :=
  match matchFull l with
  | some tok => some (i, tok)
  | none => next

/-- Scan for the leftmost match of the metadata pattern (JavaScript
`String.prototype.match` semantics: smallest starting index). -/
def findMarkerGo (i : Nat) : Str → Option (Nat × Str)
  | [] => fmStep i [] none
  | c :: rest => fmStep i (c :: rest) (findMarkerGo (i + 1) rest)

/-- Leftmost match index and captured token of the metadata pattern. -/
def findMarker (b : Str) : Option (Nat × Str) := findMarkerGo 0 b

/-- Property access `obj[key]` on a parsed JSON object: the last duplicate
key wins, as with `JSON.parse`. -/
def jGetLast (fields : List (Str × JValue)) (key : Str) : Option JValue :=
  match fields.reverse.find? (fun f => f.1 == key) with
  | some f => some f.2
  | none => none

/-- String payload of a JSON value, if it is a string. -/
def asStr : JValue → Option Str
  | .str s => some s
  | _ => none

/-- Numeric payload of a JSON value, if it is a number. -/
def asNum : JValue → Option JNum
  | .num n => some n
  | _ => none

/-- JavaScript falsiness of a parsed JSON value. -/
def jFalsy : JValue → Bool
  | .null => true
  | .bool b => !b
  | .num n => n.mant == 0
  | .str s => s.isEmpty
  | _ => false

/-- The argument that reaches `normalizeTags` when decoding, simulating the
dynamic behaviour of `for (const tag of tags)` with `tag.trim()`: `none`
models a thrown `TypeError` (caught by the decoder's `catch`), `some none`
a falsy value, `some (some l)` an iterable of strings (a string iterates
as its characters). -/
def extractTagsArg (field : Option JValue) : Option (Option (List Str)) :=
  match field with
  | none => some none
  | some v =>
    if jFalsy v then some none
    else
      match v with
      | .arr xs =>
        if xs.all (fun x => (asStr x).isSome) then some (some (xs.filterMap asStr))
        else none
      | .str s => some (some (s.map fun c => [c]))
      | _ => none

/-- The location structure that reaches `normalizeLocation` when decoding:
falsy values become absent, non-objects read every property as undefined,
objects contribute their string/number fields. -/
def jvalueToLocation (field : Option JValue) : Option ReminderLocation :=
  match field with
  | none => none
  | some v =>
    if jFalsy v then none
    else
      match v with
      | .obj fs =>
        some { title := (jGetLast fs (strOf "title")).bind asStr
               latitude := (jGetLast fs (strOf "latitude")).bind asNum
               longitude := (jGetLast fs (strOf "longitude")).bind asNum
               radiusMeters := (jGetLast fs (strOf "radiusMeters")).bind asNum
               proximity := (jGetLast fs (strOf "proximity")).bind asStr }
      | _ => some {}

/-- Field accesses of the decoder on the parsed JSON value (`parsed.tags`,
`parsed.location`): property access on `null` throws (modelled as `none`);
on a non-object it yields undefined. -/
def extractMetadata (v : JValue) : Option ReminderMetadata :=
  match v with
  | .null => none
  | _ =>
    let tagsField := match v with | .obj fs => jGetLast fs (strOf "tags") | _ => none
    match extractTagsArg tagsField with
    | none => none
    | some targ =>
      let locField := match v with | .obj fs => jGetLast fs (strOf "location") | _ => none
      some ⟨some (normalizeTags targ), lenientLoc (jvalueToLocation locField)⟩

/-- The `try` block of `parseReminderBody` after the marker matched:
base64url decode, UTF-8 decode, `JSON.parse`, then field extraction with
lenient normalization.  `none` models a thrown-and-caught failure. -/
def decodeMetadataToken (tok : Str) : Option ReminderMetadata :=
  match b64Decode tok with
  | none => none
  | some bytes =>
    match jsonParse (utf8DecodeR bytes) with
    | none => none
    | some v => extractMetadata v

/-- Source `parseReminderBody` (part_000 lines 412-441). -/
def parseReminderBody (body : Option Str) : ReminderBodyParts :=
  match body with
  | none => ⟨none, {}⟩
  | some b =>
    if b = [] then ⟨none, {}⟩
    else
      match findMarker b with
      | none => ⟨some b, {}⟩
      | some (idx, tok) =>
        match decodeMetadataToken tok with
        | none => ⟨some b, {}⟩
        | some md =>
          let notesPortion := jsTrimEnd (b.take idx)
          ⟨if notesPortion = [] then none else some notesPortion, md⟩

/-- A due-date argument: the raw string and the result of `new Date(raw)`
(`none` models an invalid date). -/
structure DueInput where
  raw : Str
  parsed : Option JSDate
deriving DecidableEq

/-- Source `parseDueDate`: throws on an unparsable date string. -/
def parseDueDate (d : DueInput) : Except Str JSDate :=
  match d.parsed with
  | some dt => .ok dt
  | none =>
    .error (strOf "Invalid dueDate \"" ++ d.raw ++
      strOf "\". Use an ISO-compatible date string.")

/-- Source `ReminderCreatePayload` as passed to `reminders.createReminder`. -/
structure ReminderCreatePayload where
  name : Str
  dueDate : Option JSDate := none
  body : Option Str := none
  priority : Option Int := none
  flagged : Option Bool := none
deriving DecidableEq

/-- Source `createReminder` (part_000 lines 545-598) up to the store call:
the successful result is the single `reminders.createReminder(listId,
payload)` call that would be issued; an error means no call reaches the
store. -/
def createReminderCore (store : Store) (listName title : Str)
    (dueDate : Option DueInput) (notes : Option Str) (flagged : Option Bool)
    (priority : Option Int) (tags : Option (List Str))
    (location : Option ReminderLocation) :
    Except Str (Str × ReminderCreatePayload) := do
  let resolvedList ← resolveListByName store listName
  match resolvedList with
  | .smart _ =>
    Except.error (strOf "Cannot create reminders in smart list \"" ++ listName ++
      strOf "\". Select a regular reminder list.")
  | .regular list => do
    let due : Option JSDate ←
      match dueDate with
      | some d => Except.map some (parseDueDate d)
      | none => pure none
    let normalizedLocation ← normalizeLocation location true
    let reminderBody :=
      composeReminderBody notes ⟨some (normalizeTags tags), normalizedLocation⟩
    pure (list.id,
      { name := title, dueDate := due, body := reminderBody,
        priority := priority, flagged := flagged })

/-- Source `createReminder` including the catch-and-rewrap of any thrown
error. -/
def createReminder (store : Store) (listName title : Str)
    (dueDate : Option DueInput) (notes : Option Str) (flagged : Option Bool)
    (priority : Option Int) (tags : Option (List Str))
    (location : Option ReminderLocation) :
    Except Str (Str × ReminderCreatePayload) :=
  match createReminderCore store listName title dueDate notes flagged priority tags
      location with
  | .ok r => .ok r
  | .error m => .error (strOf "Failed to create reminder: " ++ m)

/-- Source `ReminderAttributesUpdate`; `location = some none` models the
explicit `null` that clears the stored location. -/
structure ReminderAttributesUpdate where
  flagged : Option Bool := none
  priority : Option Int := none
  tags : Option (List Str) := none
  location : Option (Option ReminderLocation) := none
deriving DecidableEq

/-- The partial update written back by `setReminderAttributes`. -/
structure UpdatePayload where
  flagged : Option Bool := none
  priority : Option Int := none
  body : Option Str := none
deriving DecidableEq

/-- Outcome of `setReminderAttributes`: target missing (returns `false`),
no-op success (nothing written), or the single `updateReminder` call
issued. -/
inductive SetOutcome
  | notFound
  | noop
  | updated (id : Str) (payload : UpdatePayload)
deriving DecidableEq

/-- Source `setReminderAttributes` (part_000 lines 603-672) up to the store
write. -/
def setReminderAttributesCore (env : Env) (store : Store)
    (listName reminderName : Str) (attrs : ReminderAttributesUpdate) :
    Except Str SetOutcome := do
  let target ← getReminderByName env store listName reminderName
  match target with
  | none => pure .notFound
  | some targetReminder =>
    if attrs.tags.isSome || attrs.location.isSome then do
      let bodyParts := parseReminderBody targetReminder.body
      let nextTags : Option (List Str) :=
        match attrs.tags with
        | some ts =>
          let normalizedTags := normalizeTags (some ts)
          if normalizedTags = [] then none else some normalizedTags
        | none => bodyParts.metadata.tags
      let nextLocation : Option ReminderLocation ←
        match attrs.location with
        | some locOrNull =>
          match locOrNull with
          | none => pure none
          | some loc => normalizeLocation (some loc) true
        | none => pure bodyParts.metadata.location
      let updatedBody := composeReminderBody bodyParts.notes ⟨nextTags, nextLocation⟩
      pure (.updated (targetReminder.id.getD [])
        ⟨attrs.flagged, attrs.priority, some (updatedBody.getD [])⟩)
    else
      if attrs.flagged = none ∧ attrs.priority = none then pure .noop
      else
        pure (.updated (targetReminder.id.getD [])
          ⟨attrs.flagged, attrs.priority, none⟩)

/-- Source `setReminderAttributes` including the catch-and-rewrap. -/
def setReminderAttributes (env : Env) (store : Store)
    (listName reminderName : Str) (attrs : ReminderAttributesUpdate) :
    Except Str SetOutcome :=
  match setReminderAttributesCore env store listName reminderName attrs with
  | .ok r => .ok r
  | .error m => .error (strOf "Failed to set reminder attributes: " ++ m)

theorem head_dropWhile_not (p : Char → Bool) :
    ∀ (l : Str) (a : Char), (List.dropWhile p l).head? = some a → p a = false
  | [], a, h => by simp [List.dropWhile] at h
  | c :: t, a, h => by
    rw [List.dropWhile_cons] at h
    by_cases hc : p c
    · rw [if_pos hc] at h
      exact head_dropWhile_not p t a h
    · rw [if_neg hc] at h
      rw [List.head?_cons] at h
      have := Option.some.inj h
      rw [← this]
      exact Bool.of_not_eq_true hc

theorem tagNormalForm_shape (tag : Str) :
    (tagNormalForm tag).head? ≠ some '#' := by
  intro hh
  have := head_dropWhile_not (· == '#') (jsTrim tag) '#' hh
  simp at this

theorem normalizeTagsGo_shape :
    ∀ (l keys vals : List Str),
      (∀ v ∈ vals, v ≠ [] ∧ v.head? ≠ some '#') →
      ∀ v ∈ normalizeTagsGo keys vals l, v ≠ [] ∧ v.head? ≠ some '#'
  | [], _, vals, hv, v, hmem => hv v hmem
  | tag :: rest, keys, vals, hv, v, hmem => by
    rw [normalizeTagsGo] at hmem
    by_cases hn : tagNormalForm tag = []
    · rw [if_pos hn] at hmem
      exact normalizeTagsGo_shape rest keys vals hv v hmem
    · rw [if_neg hn] at hmem
      by_cases hk : keys.contains (lowerStr (tagNormalForm tag))
      · rw [if_pos hk] at hmem
        exact normalizeTagsGo_shape rest keys vals hv v hmem
      · rw [if_neg hk] at hmem
        refine normalizeTagsGo_shape rest _ _ ?_ v hmem
        intro u hu
        rw [List.mem_append, List.mem_singleton] at hu
        rcases hu with hu | hu
        · exact hv u hu
        · subst hu
          exact ⟨hn, tagNormalForm_shape tag⟩

theorem normalizeTagsGo_nodup :
    ∀ (l keys vals : List Str),
      (List.map lowerStr vals).Nodup →
      (∀ k ∈ List.map lowerStr vals, k ∈ keys) →
      (List.map lowerStr (normalizeTagsGo keys vals l)).Nodup
  | [], _, vals, hnd, _ => hnd
  | tag :: rest, keys, vals, hnd, hsub => by
    rw [normalizeTagsGo]
    by_cases hn : tagNormalForm tag = []
    · rw [if_pos hn]
      exact normalizeTagsGo_nodup rest keys vals hnd hsub
    · rw [if_neg hn]
      by_cases hk : keys.contains (lowerStr (tagNormalForm tag))
      · rw [if_pos hk]
        exact normalizeTagsGo_nodup rest keys vals hnd hsub
      · rw [if_neg hk]
        refine normalizeTagsGo_nodup rest _ _ ?_ ?_
        · rw [List.map_append, List.map_singleton]
          rw [List.nodup_append]
          refine ⟨hnd, List.nodup_singleton _, ?_⟩
          intro a ha hb
          rw [List.mem_singleton] at hb
          subst hb
          have := hsub _ ha
          rw [List.elem_iff] at hk
          exact hk this
        · intro k hk2
          rw [List.map_append, List.map_singleton, List.mem_append,
            List.mem_singleton] at hk2
          rw [List.mem_append, List.mem_singleton]
          rcases hk2 with h | h
          · exact Or.inl (hsub _ h)
          · exact Or.inr h

theorem normalizeTagsGo_stable :
    ∀ (l keys vals : List Str),
      (∀ v ∈ l, tagNormalForm v = v ∧ v ≠ []) →
      (∀ v ∈ l, lowerStr v ∉ keys) →
      (List.map lowerStr l).Nodup →
      normalizeTagsGo keys vals l = vals ++ l
  | [], _, vals, _, _, _ => by
    rw [normalizeTagsGo, List.append_nil]
  | v :: rest, keys, vals, hfix, hkeys, hnd => by
    obtain ⟨hform, hne⟩ := hfix v (by simp)
    rw [normalizeTagsGo, hform, if_neg hne]
    have hnotin : ¬ (keys.contains (lowerStr v)) = true := by
      rw [List.elem_iff]
      exact hkeys v (by simp)
    rw [if_neg hnotin]
    rw [List.map_cons, List.nodup_cons] at hnd
    have hrec := normalizeTagsGo_stable rest (keys ++ [lowerStr v]) (vals ++ [v])
      (fun u hu => hfix u (by simp [hu]))
      (fun u hu => by
        rw [List.mem_append, List.mem_singleton]
        rintro (h | h)
        · exact hkeys u (by simp [hu]) h
        · exact hnd.1 (h ▸ List.mem_map_of_mem lowerStr hu))
      hnd.2
    rw [hrec, List.append_assoc, List.singleton_append]

theorem normalizeTags_elements_shape (x : List Str) :
    ∀ v ∈ normalizeTags (some x), v ≠ [] ∧ v.head? ≠ some '#' := by
  intro v hv
  exact normalizeTagsGo_shape x [] [] (by intro u hu; simp at hu) v hv

/-- C7: `normalizeTags` trims, strips leading `#`, drops empties, and
deduplicates case-insensitively in first-seen order, but it is NOT
idempotent in general: stripping the `#` run can expose leading whitespace
that only the next application trims away. -/
theorem C7_counterexample :
    normalizeTags (some (normalizeTags (some [strOf "# a"]))) ≠
      normalizeTags (some [strOf "# a"]) := by decide

/-- C7 (amended): the concrete example behaves as stated, the output is
case-insensitively duplicate-free, and `normalizeTags` is idempotent on
every input whose normalized tags are trim-stable (in particular whenever
no whitespace follows a stripped `#` run). -/
theorem C7_tags_normalization :
    (normalizeTags (some [strOf "#A", strOf "a", strOf "B"]) = [strOf "A", strOf "B"]) ∧
    (∀ x : List Str, (List.map lowerStr (normalizeTags (some x))).Nodup) ∧
    (∀ x : List Str, (∀ v ∈ normalizeTags (some x), jsTrim v = v) →
      normalizeTags (some (normalizeTags (some x))) = normalizeTags (some x)) := by
  refine ⟨by decide, ?_, ?_⟩
  · intro x
    exact normalizeTagsGo_nodup x [] [] (by simp) (by simp)
  · intro x hstable
    have hshape := normalizeTags_elements_shape x
    show normalizeTagsGo [] [] (normalizeTags (some x)) = normalizeTags (some x)
    have hres := normalizeTagsGo_stable (normalizeTags (some x)) [] []
      (by
        intro v hv
        obtain ⟨hne, hhd⟩ := hshape v hv
        refine ⟨?_, hne⟩
        rw [tagNormalForm, hstable v hv]
        cases hv2 : v with
        | nil => exact absurd hv2 hne
        | cons a t =>
          rw [List.dropWhile_cons]
          have : ¬ (a == '#') = true := by
            intro hh
            apply hhd
            rw [hv2, List.head?_cons]
            simp at hh
            rw [hh]
          rw [if_neg this]
      )
      (by intro v hv; simp)
      (by
        have := normalizeTagsGo_nodup x [] [] (by simp) (by simp)
        exact this)
    rw [hres, List.nil_append]

/-- C7 witness: the theorem instantiated at the claim's example array. -/
theorem C7_witness :
    normalizeTags (some [strOf "#A", strOf "a", strOf "B"]) = [strOf "A", strOf "B"] ∧
    (List.map lowerStr (normalizeTags (some [strOf "#A", strOf "a", strOf "B"]))).Nodup ∧
    normalizeTags (some (normalizeTags (some [strOf "#A", strOf "a", strOf "B"]))) =
      normalizeTags (some [strOf "#A", strOf "a", strOf "B"]) :=
  ⟨C7_tags_normalization.1, C7_tags_normalization.2.1 _,
    C7_tags_normalization.2.2 _ (by decide)⟩

theorem badLat_false_iff (n : JNum) :
    badLat n = false ↔ (-90 ≤ n.toRat ∧ n.toRat ≤ 90) := by
  simp [badLat, not_lt]

theorem badLng_false_iff (n : JNum) :
    badLng n = false ↔ (-180 ≤ n.toRat ∧ n.toRat ≤ 180) := by
  simp [badLng, not_lt]

theorem badRad_false_iff (n : JNum) : badRad n = false ↔ 0 < n.toRat := by
  simp [badRad, not_le]

/-- Modelled from the spec (§4.1, lenient mode): for each field keep it when
well-formed and drop it silently otherwise, drop an unpaired
latitude/longitude, and collapse a fieldless result to absent. -/
def specLenientLocation (loc : ReminderLocation) : Option ReminderLocation :=
  let title : Option Str :=
    match loc.title with
    | some t => if jsTrim t = [] then none else some (jsTrim t)
    | none => none
  let lat : Option JNum :=
    match loc.latitude with
    | some n => if -90 ≤ n.toRat ∧ n.toRat ≤ 90 then some n else none
    | none => none
  let lng : Option JNum :=
    match loc.longitude with
    | some n => if -180 ≤ n.toRat ∧ n.toRat ≤ 180 then some n else none
    | none => none
  let rad : Option JNum :=
    match loc.radiusMeters with
    | some n => if 0 < n.toRat then some n else none
    | none => none
  let prox : Option Str :=
    match loc.proximity with
    | some p => if p = strOf "arriving" ∨ p = strOf "leaving" then some p else none
    | none => none
  let paired := lat.isSome = lng.isSome
  let result : ReminderLocation :=
    ⟨title, if paired then lat else none, if paired then lng else none, rad, prox⟩
  if result = emptyLoc then none else some result

theorem normNumField_false (v : Option JNum) (b : JNum → Bool) (m : Str) :
    normNumField v b m false =
      .ok (match v with
           | some n => if b n then none else some n
           | none => none) := by
  cases v with
  | none => rfl
  | some n =>
    dsimp only [normNumField]
    split_ifs with h1 <;> simp_all

theorem normProximity_false (p : Option Str) :
    normProximity p false =
      .ok (match p with
           | some q =>
             if q = strOf "arriving" ∨ q = strOf "leaving" then some q else none
           | none => none) := by
  cases p with
  | none => rfl
  | some q =>
    dsimp only [normProximity]
    split_ifs with h1 <;> simp_all

theorem exists_ok_ite {α β : Type} (b : Prop) [Decidable b] (x y : α) :
    ∃ r, (if b then (Except.ok x : Except β α) else Except.ok y) = .ok r := by
  split
  · exact ⟨x, rfl⟩
  · exact ⟨y, rfl⟩

theorem normalizeLocation_lenient_ok (loc : Option ReminderLocation) :
    ∃ r, normalizeLocation loc false = .ok r := by
  cases loc with
  | none => exact ⟨none, rfl⟩
  | some loc =>
    simp only [normalizeLocation, normNumField_false, normProximity_false, bind,
      Except.bind]
    rw [if_neg (by simp)]
    apply exists_ok_ite

theorem latField_eq (v : Option JNum) :
    (match v with
     | some n => if badLat n then none else some n
     | none => none) =
      (match v with
       | some n => if -90 ≤ n.toRat ∧ n.toRat ≤ 90 then some n else none
       | none => none) := by
  cases v with
  | none => rfl
  | some n =>
    dsimp only
    by_cases h : badLat n = true
    · rw [if_pos h, if_neg]
      intro hc
      have := (badLat_false_iff n).mpr hc
      simp [h] at this
    · rw [if_neg h, if_pos ((badLat_false_iff n).mp (by simpa using h))]

theorem lngField_eq (v : Option JNum) :
    (match v with
     | some n => if badLng n then none else some n
     | none => none) =
      (match v with
       | some n => if -180 ≤ n.toRat ∧ n.toRat ≤ 180 then some n else none
       | none => none) := by
  cases v with
  | none => rfl
  | some n =>
    dsimp only
    by_cases h : badLng n = true
    · rw [if_pos h, if_neg]
      intro hc
      have := (badLng_false_iff n).mpr hc
      simp [h] at this
    · rw [if_neg h, if_pos ((badLng_false_iff n).mp (by simpa using h))]

theorem radField_eq (v : Option JNum) :
    (match v with
     | some n => if badRad n then none else some n
     | none => none) =
      (match v with
       | some n => if 0 < n.toRat then some n else none
       | none => none) := by
  cases v with
  | none => rfl
  | some n =>
    dsimp only
    by_cases h : badRad n = true
    · rw [if_pos h, if_neg]
      intro hc
      have := (badRad_false_iff n).mpr hc
      simp [h] at this
    · rw [if_neg h, if_pos ((badRad_false_iff n).mp (by simpa using h))]

theorem normTitle_eq (t : Option Str) :
    normTitle t =
      (match t with
       | some t => if jsTrim t = [] then none else some (jsTrim t)
       | none => none) := by
  cases t with
  | none => rfl
  | some u =>
    dsimp only [normTitle]
    by_cases h : jsTrim u = []
    · simp [h]
    · simp [h]

theorem normalizeLocation_lenient_spec (loc : ReminderLocation) :
    normalizeLocation (some loc) false = .ok (specLenientLocation loc) := by
  simp only [normalizeLocation, normNumField_false, normProximity_false, bind,
    Except.bind]
  rw [if_neg (by simp)]
  rw [specLenientLocation]
  rw [latField_eq, lngField_eq, radField_eq, normTitle_eq]
  simp only [beq_iff_eq]
  split_ifs <;> rfl

/-- Modelled from the spec (§4.1, strict mode): every present field is within
range and latitude/longitude appear together. -/
def specStrictOk (loc : ReminderLocation) : Prop :=
  (∀ n ∈ loc.latitude, -90 ≤ n.toRat ∧ n.toRat ≤ 90) ∧
  (∀ n ∈ loc.longitude, -180 ≤ n.toRat ∧ n.toRat ≤ 180) ∧
  (∀ n ∈ loc.radiusMeters, 0 < n.toRat) ∧
  (∀ p ∈ loc.proximity, p = strOf "arriving" ∨ p = strOf "leaving") ∧
  loc.latitude.isSome = loc.longitude.isSome

instance specStrictOk.decide (loc : ReminderLocation) : Decidable (specStrictOk loc) := by
  unfold specStrictOk
  infer_instance

theorem normNumField_true_valid (v : Option JNum) (b : JNum → Bool) (m : Str)
    (h : ∀ n ∈ v, b n = false) : normNumField v b m true = .ok v := by
  cases v with
  | none => rfl
  | some n =>
    have hn := h n (by simp)
    simp [normNumField, hn]

theorem normProximity_true_valid (p : Option Str)
    (h : ∀ q ∈ p, q = strOf "arriving" ∨ q = strOf "leaving") :
    normProximity p true = .ok p := by
  cases p with
  | none => rfl
  | some q =>
    have hq := h q (by simp)
    simp [normProximity, hq]

theorem normNumField_true_bad (v : Option JNum) (b : JNum → Bool) (m : Str) (n : JNum)
    (hv : v = some n) (hb : b n = true) : normNumField v b m true = .error m := by
  subst hv
  simp [normNumField, hb]

theorem normProximity_true_bad (p : Option Str) (q : Str) (hv : p = some q)
    (hb : ¬(q = strOf "arriving" ∨ q = strOf "leaving")) :
    normProximity p true =
      .error (strOf "location.proximity must be arriving or leaving") := by
  subst hv
  simp [normProximity, hb]

theorem normalizeLocation_strict_ok (loc : ReminderLocation) (h : specStrictOk loc) :
    ∃ r, normalizeLocation (some loc) true = .ok r := by
  obtain ⟨h1, h2, h3, h4, h5⟩ := h
  have e1 := normNumField_true_valid loc.latitude badLat
    (strOf "location.latitude must be between -90 and 90")
    (fun n hn => (badLat_false_iff n).mpr (h1 n hn))
  have e2 := normNumField_true_valid loc.longitude badLng
    (strOf "location.longitude must be between -180 and 180")
    (fun n hn => (badLng_false_iff n).mpr (h2 n hn))
  have e3 := normNumField_true_valid loc.radiusMeters badRad
    (strOf "location.radiusMeters must be greater than 0")
    (fun n hn => (badRad_false_iff n).mpr (h3 n hn))
  have e4 := normProximity_true_valid loc.proximity h4
  simp only [normalizeLocation, e1, e2, e3, e4, bind, Except.bind]
  rw [if_neg (by simp [h5])]
  apply exists_ok_ite

theorem normalizeLocation_strict_err (loc : ReminderLocation)
    (h : ¬ specStrictOk loc) : ∃ e, normalizeLocation (some loc) true = .error e := by
  by_cases h1 : ∀ n ∈ loc.latitude, -90 ≤ n.toRat ∧ n.toRat ≤ 90
  case neg =>
    push_neg at h1
    obtain ⟨n, hn, hbad⟩ := h1
    have hb : badLat n = true := by
      cases hbb : badLat n with
      | false =>
        obtain ⟨hl, hr⟩ := (badLat_false_iff n).mp hbb
        exact absurd hr (not_le_of_lt (hbad hl))
      | true => rfl
    have e1 := normNumField_true_bad loc.latitude badLat
      (strOf "location.latitude must be between -90 and 90") n
      (Option.mem_def.mp hn) hb
    exact ⟨strOf "location.latitude must be between -90 and 90",
      by simp only [normalizeLocation, e1, bind, Except.bind]⟩
  case pos =>
  have e1 := normNumField_true_valid loc.latitude badLat
    (strOf "location.latitude must be between -90 and 90")
    (fun n hn => (badLat_false_iff n).mpr (h1 n hn))
  by_cases h2 : ∀ n ∈ loc.longitude, -180 ≤ n.toRat ∧ n.toRat ≤ 180
  case neg =>
    push_neg at h2
    obtain ⟨n, hn, hbad⟩ := h2
    have hb : badLng n = true := by
      cases hbb : badLng n with
      | false =>
        obtain ⟨hl, hr⟩ := (badLng_false_iff n).mp hbb
        exact absurd hr (not_le_of_lt (hbad hl))
      | true => rfl
    have e2 := normNumField_true_bad loc.longitude badLng
      (strOf "location.longitude must be between -180 and 180") n
      (Option.mem_def.mp hn) hb
    exact ⟨strOf "location.longitude must be between -180 and 180",
      by simp only [normalizeLocation, e1, e2, bind, Except.bind]⟩
  case pos =>
  have e2 := normNumField_true_valid loc.longitude badLng
    (strOf "location.longitude must be between -180 and 180")
    (fun n hn => (badLng_false_iff n).mpr (h2 n hn))
  by_cases h3 : ∀ n ∈ loc.radiusMeters, 0 < n.toRat
  case neg =>
    push_neg at h3
    obtain ⟨n, hn, hbad⟩ := h3
    have hb : badRad n = true := by
      cases hbb : badRad n with
      | false => exact absurd ((badRad_false_iff n).mp hbb) (by exact absurd · hbad.not_lt)
      | true => rfl
    have e3 := normNumField_true_bad loc.radiusMeters badRad
      (strOf "location.radiusMeters must be greater than 0") n
      (Option.mem_def.mp hn) hb
    exact ⟨strOf "location.radiusMeters must be greater than 0",
      by simp only [normalizeLocation, e1, e2, e3, bind, Except.bind]⟩
  case pos =>
  have e3 := normNumField_true_valid loc.radiusMeters badRad
    (strOf "location.radiusMeters must be greater than 0")
    (fun n hn => (badRad_false_iff n).mpr (h3 n hn))
  by_cases h4 : ∀ p ∈ loc.proximity, p = strOf "arriving" ∨ p = strOf "leaving"
  case neg =>
    push_neg at h4
    obtain ⟨q, hq, hbad1, hbad2⟩ := h4
    have e4 := normProximity_true_bad loc.proximity q (Option.mem_def.mp hq)
      (by
        rintro (hc | hc)
        · exact hbad1 hc
        · exact hbad2 hc)
    exact ⟨strOf "location.proximity must be arriving or leaving",
      by simp only [normalizeLocation, e1, e2, e3, e4, bind, Except.bind]⟩
  case pos =>
  have e4 := normProximity_true_valid loc.proximity h4
  have h5 : loc.latitude.isSome ≠ loc.longitude.isSome := by
    intro hc
    exact h ⟨h1, h2, h3, h4, hc⟩
  refine ⟨strOf "location.latitude and location.longitude must be provided together", ?_⟩
  simp only [normalizeLocation, e1, e2, e3, e4, bind, Except.bind]
  rw [if_pos ⟨by simp [h5], trivial⟩]

theorem normalizeLocation_ne_empty (loc : Option ReminderLocation) (strict : Bool)
    (r : ReminderLocation) (h : normalizeLocation loc strict = .ok (some r)) :
    r ≠ emptyLoc := by
  cases loc with
  | none => simp [normalizeLocation, pure, Except.pure] at h
  | some loc =>
    simp only [normalizeLocation, bind, Except.bind] at h
    cases e1 : normNumField loc.latitude badLat
        (strOf "location.latitude must be between -90 and 90") strict with
    | error m => simp only [e1] at h; exact absurd h (by simp)
    | ok la =>
    simp only [e1] at h
    cases e2 : normNumField loc.longitude badLng
        (strOf "location.longitude must be between -180 and 180") strict with
    | error m => simp only [e2] at h; exact absurd h (by simp)
    | ok lo =>
    simp only [e2] at h
    cases e3 : normNumField loc.radiusMeters badRad
        (strOf "location.radiusMeters must be greater than 0") strict with
    | error m => simp only [e3] at h; exact absurd h (by simp)
    | ok ra =>
    simp only [e3] at h
    cases e4 : normProximity loc.proximity strict with
    | error m => simp only [e4] at h; exact absurd h (by simp)
    | ok px =>
    simp only [e4, pure, Except.pure] at h
    repeat' split at h
    all_goals simp_all

/-- C8: `normalizeLocation` in strict mode succeeds exactly when every
present field is in range (latitude in −90..90, longitude in −180..180,
radius > 0, proximity recognized) and latitude/longitude appear together, and
raises otherwise; lenient mode never throws and returns exactly the
spec-modelled silent-drop normalization; a surviving result is never the
empty structure. -/
theorem C8_normalizeLocation :
    (∀ loc : ReminderLocation,
       (∃ r, normalizeLocation (some loc) true = Except.ok r) ↔ specStrictOk loc) ∧
    (∀ loc : ReminderLocation, ¬ specStrictOk loc →
       ∃ e, normalizeLocation (some loc) true = Except.error e) ∧
    (∀ loc : ReminderLocation,
       normalizeLocation (some loc) false = Except.ok (specLenientLocation loc)) ∧
    (∀ (loc : Option ReminderLocation) (strict : Bool) (r : ReminderLocation),
       normalizeLocation loc strict = Except.ok (some r) → r ≠ emptyLoc) := by
  refine ⟨?_, normalizeLocation_strict_err, normalizeLocation_lenient_spec,
    normalizeLocation_ne_empty⟩
  intro loc
  constructor
  · rintro ⟨r, hr⟩
    by_contra hno
    obtain ⟨e, he⟩ := normalizeLocation_strict_err loc hno
    rw [hr] at he
    exact absurd he (by simp)
  · exact normalizeLocation_strict_ok loc

/-- C8 witness: latitude 95 (out of range, unpaired) fails strict
normalization; a paired in-range location passes strict mode; lenient mode
returns the spec-modelled drop of the bad field; a surviving strict result is
not the empty structure. -/
theorem C8_witness :
    (∃ e, normalizeLocation
        (some ⟨none, some (JNum.ofInt 95), none, none, none⟩) true =
        Except.error e) ∧
    (∃ r, normalizeLocation
        (some ⟨none, some (JNum.ofInt 12), some (JNum.ofInt 5), none, none⟩) true =
        Except.ok r) ∧
    (normalizeLocation (some ⟨none, some (JNum.ofInt 95), none, none, none⟩) false =
      Except.ok (specLenientLocation ⟨none, some (JNum.ofInt 95), none, none, none⟩)) ∧
    ((⟨none, some (JNum.ofInt 12), some (JNum.ofInt 5), none, none⟩ :
        ReminderLocation) ≠ emptyLoc) :=
  ⟨C8_normalizeLocation.2.1 _ (by simp [specStrictOk, JNum.toRat, JNum.ofInt]),
   (C8_normalizeLocation.1 _).mpr
     (by simp [specStrictOk, JNum.toRat, JNum.ofInt]; norm_num),
   C8_normalizeLocation.2.2.1 _,
   C8_normalizeLocation.2.2.2
     (some ⟨none, some (JNum.ofInt 12), some (JNum.ofInt 5), none, none⟩) true _
     (by
       simp [normalizeLocation, normNumField, normProximity, badLat, badLng, badRad,
         JNum.toRat, JNum.ofInt, bind, Except.bind, emptyLoc, normTitle, pure,
         Except.pure]
       norm_num
       intro h
       simp at h)⟩

/-- C3: list resolution tries a case-insensitive exact match against the
store's real lists first (so a real list shadowing a smart-list name resolves
as Regular), otherwise consults the smart catalog — with "Smart: Today",
"today" and "SMART:TODAY" all resolving to the Today smart list — and
otherwise fails with an error naming the attempted list. -/
theorem C3_resolveListByName :
    (∀ (store : Store) (name : Str) (rl : RList),
       getRegularListByName store name = some rl →
       resolveListByName store name = .ok (.regular rl)) ∧
    (∀ (store : Store) (name : Str) (s : SmartList),
       getRegularListByName store name = none →
       getSmartListByName name = some s →
       resolveListByName store name = .ok (.smart s)) ∧
    (∀ store : Store, ∀ spelling ∈ [strOf "Smart: Today", strOf "today",
        strOf "SMART:TODAY"],
       getRegularListByName store spelling = none →
       resolveListByName store spelling = .ok (.smart .today)) ∧
    (∀ (store : Store) (name : Str),
       getRegularListByName store name = none →
       getSmartListByName name = none →
       resolveListByName store name =
           .error (strOf "List \"" ++ name ++ strOf "\" not found") ∧
         name <:+: (strOf "List \"" ++ name ++ strOf "\" not found")) := by
  refine ⟨?_, ?_, ?_, ?_⟩
  · intro store name rl h
    simp [resolveListByName, h]
  · intro store name s h hs
    simp [resolveListByName, h, hs]
  · intro store spelling hsp h
    have hsmart : getSmartListByName spelling = some .today := by
      simp only [List.mem_cons, List.not_mem_nil, or_false] at hsp
      rcases hsp with h1 | h1 | h1
      · rw [h1]; decide
      · rw [h1]; decide
      · rw [h1]; decide
    simp [resolveListByName, h, hsmart]
  · intro store name h hs
    refine ⟨by simp [resolveListByName, h, hs], ?_⟩
    exact ⟨strOf "List \"", strOf "\" not found", by simp⟩

/-- C3 witness: a real list literally named "Today" shadows the smart list;
on an empty store the three spellings resolve to the Today smart list and an
unknown name yields the not-found error. -/
theorem C3_witness :
    resolveListByName ⟨[⟨strOf "L1", strOf "Today"⟩], []⟩ (strOf "today") =
        .ok (.regular ⟨strOf "L1", strOf "Today"⟩) ∧
    resolveListByName ⟨[], []⟩ (strOf "Smart: Today") = .ok (.smart .today) ∧
    resolveListByName ⟨[], []⟩ (strOf "today") = .ok (.smart .today) ∧
    resolveListByName ⟨[], []⟩ (strOf "SMART:TODAY") = .ok (.smart .today) ∧
    resolveListByName ⟨[], []⟩ (strOf "Nonexistent List") =
      .error (strOf "List \"Nonexistent List\" not found") :=
  ⟨C3_resolveListByName.1 _ _ _ (by decide),
   C3_resolveListByName.2.2.1 _ _ (by decide) (by decide),
   C3_resolveListByName.2.2.1 _ _ (by decide) (by decide),
   C3_resolveListByName.2.2.1 _ _ (by decide) (by decide),
   (C3_resolveListByName.2.2.2 _ _ (by decide) (by decide)).1⟩

/-- Modelled from the spec (§aggregation): first occurrence across the merged
iteration order wins — an item is kept unless an earlier item of the merged
sequence carries the same string identifier; items without an identifier are
always kept. -/
def specKeep (prev : List RItem) (item : RItem) : Bool :=
  match item.id with
  | some i => !(prev.any fun p => p.id == some i)
  | none => true

/-- Modelled from the spec: the first-occurrence-wins filter over the merged
sequence, `prev` being the items already scanned. -/
def specDedup (prev : List RItem) : List RItem → List RItem
  | [] => []
  | item :: rest =>
    if specKeep prev item then item :: specDedup (prev ++ [item]) rest
    else specDedup (prev ++ [item]) rest

theorem dedupById_eq_specDedup :
    ∀ (l : List RItem) (seen : List Str) (prev : List RItem),
      (∀ i : Str, i ∈ seen ↔ ∃ p ∈ prev, p.id = some i) →
      dedupById seen l = specDedup prev l
  | [], _, _, _ => rfl
  | item :: rest, seen, prev, hinv => by
    rw [dedupById, specDedup]
    cases hid : item.id with
    | none =>
      dsimp only
      rw [if_pos (by simp [specKeep, hid])]
      rw [dedupById_eq_specDedup rest seen (prev ++ [item]) (fun i => by
        rw [hinv i]
        constructor
        · rintro ⟨p, hp, hpi⟩
          exact ⟨p, by simp [hp], hpi⟩
        · rintro ⟨p, hp, hpi⟩
          rcases List.mem_append.mp hp with hp | hp
          · exact ⟨p, hp, hpi⟩
          · rw [List.mem_singleton] at hp
            subst hp
            rw [hid] at hpi
            cases hpi)]
    | some i =>
      dsimp only
      by_cases hc : i ∈ seen
      · rw [if_pos (List.elem_iff.mpr hc)]
        have hkeepF : specKeep prev item = false := by
          obtain ⟨p, hp, hpi⟩ := (hinv i).mp hc
          simp only [specKeep, hid, Bool.not_eq_false']
          rw [List.any_eq_true]
          exact ⟨p, hp, by simp [hpi]⟩
        rw [if_neg (by simp [hkeepF])]
        exact dedupById_eq_specDedup rest seen (prev ++ [item]) (fun j => by
          rw [hinv j]
          constructor
          · rintro ⟨p, hp, hpi⟩
            exact ⟨p, by simp [hp], hpi⟩
          · rintro ⟨p, hp, hpi⟩
            rcases List.mem_append.mp hp with hp | hp
            · exact ⟨p, hp, hpi⟩
            · rw [List.mem_singleton] at hp
              subst hp
              rw [hid] at hpi
              rw [Option.some_inj] at hpi
              exact (hinv j).mp (hpi ▸ hc))
      · rw [if_neg (fun hcon => hc (List.elem_iff.mp hcon))]
        have hkeepT : specKeep prev item = true := by
          simp only [specKeep, hid, Bool.not_eq_true']
          rw [List.any_eq_false]
          intro p hp
          simp only [beq_iff_eq]
          intro hpi
          exact hc ((hinv i).mpr ⟨p, hp, hpi⟩)
        rw [if_pos hkeepT]
        rw [dedupById_eq_specDedup rest (i :: seen) (prev ++ [item]) (fun j => by
          constructor
          · intro hj
            rcases List.mem_cons.mp hj with hj | hj
            · exact ⟨item, by simp, by rw [hid, hj]⟩
            · obtain ⟨p, hp, hpi⟩ := (hinv j).mp hj
              exact ⟨p, by simp [hp], hpi⟩
          · rintro ⟨p, hp, hpi⟩
            rcases List.mem_append.mp hp with hp | hp
            · exact List.mem_cons_of_mem _ ((hinv j).mpr ⟨p, hp, hpi⟩)
            · rw [List.mem_singleton] at hp
              subst hp
              rw [hid] at hpi
              rw [Option.some_inj] at hpi
              subst hpi
              exact List.mem_cons_self _ _)]

theorem dedupById_ids_nodup :
    ∀ (l : List RItem) (seen : List Str),
      ((dedupById seen l).filterMap (fun item => item.id)).Nodup ∧
      (∀ i ∈ (dedupById seen l).filterMap (fun item => item.id), i ∉ seen)
  | [], _ => ⟨List.nodup_nil, by simp [dedupById]⟩
  | item :: rest, seen => by
    rw [dedupById]
    cases hid : item.id with
    | none =>
      dsimp only
      obtain ⟨h1, h2⟩ := dedupById_ids_nodup rest seen
      exact ⟨by simpa [List.filterMap_cons, hid] using h1,
        by simpa [List.filterMap_cons, hid] using h2⟩
    | some i =>
      dsimp only
      by_cases hc : i ∈ seen
      · rw [if_pos (List.elem_iff.mpr hc)]
        exact dedupById_ids_nodup rest seen
      · rw [if_neg (fun hcon => hc (List.elem_iff.mp hcon))]
        obtain ⟨h1, h2⟩ := dedupById_ids_nodup rest (i :: seen)
        refine ⟨?_, ?_⟩
        · rw [List.filterMap_cons, hid]
          exact List.nodup_cons.mpr
            ⟨fun hmem => (h2 i hmem) (List.mem_cons_self _ _), h1⟩
        · intro j hj
          rw [List.filterMap_cons, hid] at hj
          rcases List.mem_cons.mp hj with hj | hj
          · subst hj
            exact hc
          · exact fun hjs => (h2 j hj) (List.mem_cons_of_mem _ hjs)

/-- C5: the aggregated collection never contains two items with the same
native identifier, and it equals the spec-modelled first-occurrence-wins
filter of the merged real-list iteration order (later duplicates dropped). -/
theorem C5_fetchAllReminders_dedup :
    (∀ store : Store,
       ((fetchAllReminders store).filterMap (fun item => item.id)).Nodup) ∧
    (∀ store : Store,
       fetchAllReminders store =
         specDedup [] (store.lists.flatMap fun list => store.getReminders list.id)) :=
  ⟨fun store => (dedupById_ids_nodup _ []).1,
   fun store => dedupById_eq_specDedup _ [] [] (fun i => by simp)⟩

/-- Modelled from the spec (§smart lists): the six predicates as the spec
sentence states them — All always true, Today = not completed and due today
in the local calendar, Scheduled = not completed with a due date, Flagged =
not completed and flagged, Completed = completed, Overdue = not completed
with a due date strictly before now. -/
def specPredicate : SmartList → Env → RItem → Bool
  | .all, _, _ => true
  | .today, env, item =>
    !isCompleted item &&
      (dueDateOf item).any fun d =>
        d.year == env.nowYear && d.month == env.nowMonth && d.day == env.nowDay
  | .scheduled, _, item => !isCompleted item && (dueDateOf item).isSome
  | .flagged, _, item => !isCompleted item && isFlagged item
  | .completed, _, item => isCompleted item
  | .overdue, env, item =>
    !isCompleted item &&
      (dueDateOf item).any fun d => decide (d.epochMs < env.nowEpochMs)

/-- The scenario clock: local date 2024-05-15, epoch-milliseconds 1000. -/
def scenarioEnv : Env := ⟨1000, 2024, 5, 15⟩

/-- Scenario item: uncompleted, due yesterday (epoch 500 < now). -/
def yestItem : RItem :=
  ⟨some (strOf "1"), some (strOf "Yesterday"), none, some false,
    some ⟨500, 2024, 5, 14⟩, none, none⟩

/-- Scenario item: uncompleted, due today (epoch 1500 ≥ now). -/
def todayItem : RItem :=
  ⟨some (strOf "2"), some (strOf "Today item"), none, some false,
    some ⟨1500, 2024, 5, 15⟩, none, none⟩

/-- Scenario item: completed, past due date. -/
def doneItem : RItem :=
  ⟨some (strOf "3"), some (strOf "Done"), none, some true,
    some ⟨400, 2024, 5, 13⟩, none, none⟩

/-- The scenario store: one real list "Work" holding the three items. -/
def scenarioStore : Store :=
  ⟨[⟨strOf "W", strOf "Work"⟩],
   [(strOf "W", [yestItem, todayItem, doneItem])]⟩

/-- C6: every smart-list predicate agrees with the spec-modelled definition,
and on the three-item scenario Overdue returns exactly the yesterday item,
Today exactly the today item, Completed exactly the completed item, and All
all three. -/
theorem C6_smart_predicates :
    (∀ (sl : SmartList) (env : Env) (item : RItem),
       sl.predicate env item = specPredicate sl env item) ∧
    fetchRemindersForList scenarioEnv scenarioStore (strOf "Smart: Overdue") =
      .ok [yestItem] ∧
    fetchRemindersForList scenarioEnv scenarioStore (strOf "Smart: Today") =
      .ok [todayItem] ∧
    fetchRemindersForList scenarioEnv scenarioStore (strOf "Smart: Completed") =
      .ok [doneItem] ∧
    fetchRemindersForList scenarioEnv scenarioStore (strOf "Smart: All") =
      .ok [yestItem, todayItem, doneItem] := by
  refine ⟨?_, by rfl, by rfl, by rfl, by rfl⟩
  intro sl env item
  cases sl <;> simp only [SmartList.predicate, specPredicate] <;> try rfl
  · cases hd : dueDateOf item <;> simp [isDueToday, hd]
  · cases hd : dueDateOf item <;> cases hcomp : isCompleted item <;>
      simp [isOverdue, hd, hcomp]

/-- C4: when the target name resolves to a smart list, `createReminder`
fails with the distinct smart-list error naming that list, and no create call
is issued to the store (no `(listId, payload)` pair is ever produced). -/
theorem C4_createReminder_smart :
    ∀ (store : Store) (listName : Str) (s : SmartList) (title : Str)
      (dueDate : Option DueInput) (notes : Option Str) (flagged : Option Bool)
      (priority : Option Int) (tags : Option (List Str))
      (location : Option ReminderLocation),
      resolveListByName store listName = .ok (.smart s) →
      createReminder store listName title dueDate notes flagged priority tags
          location =
        .error (strOf "Failed to create reminder: " ++
          (strOf "Cannot create reminders in smart list \"" ++ listName ++
            strOf "\". Select a regular reminder list.")) ∧
      listName <:+:
        (strOf "Failed to create reminder: " ++
          (strOf "Cannot create reminders in smart list \"" ++ listName ++
            strOf "\". Select a regular reminder list.")) ∧
      (∀ r, createReminder store listName title dueDate notes flagged priority
          tags location ≠ .ok r) := by
  intro store listName s title dueDate notes flagged priority tags location hres
  have hcore : createReminderCore store listName title dueDate notes flagged
      priority tags location =
      .error (strOf "Cannot create reminders in smart list \"" ++ listName ++
        strOf "\". Select a regular reminder list.") := by
    simp only [createReminderCore, hres, bind, Except.bind]
  have hmain : createReminder store listName title dueDate notes flagged
      priority tags location =
      .error (strOf "Failed to create reminder: " ++
        (strOf "Cannot create reminders in smart list \"" ++ listName ++
          strOf "\". Select a regular reminder list.")) := by
    simp only [createReminder, hcore]
  refine ⟨hmain, ?_, ?_⟩
  · exact ⟨strOf "Failed to create reminder: " ++
      strOf "Cannot create reminders in smart list \"",
      strOf "\". Select a regular reminder list.", by simp⟩
  · intro r hc
    rw [hmain] at hc
    cases hc

/-- C4 witness: creating in "Smart: Today" on an empty store fails with the
smart-list error and never yields a create call. -/
theorem C4_witness :
    createReminder ⟨[], []⟩ (strOf "Smart: Today") (strOf "T") none none none
        none none none =
      .error (strOf "Failed to create reminder: " ++
        (strOf "Cannot create reminders in smart list \"" ++
          strOf "Smart: Today" ++
          strOf "\". Select a regular reminder list.")) ∧
    (∀ r, createReminder ⟨[], []⟩ (strOf "Smart: Today") (strOf "T") none none
        none none none none ≠ .ok r) :=
  ⟨(C4_createReminder_smart ⟨[], []⟩ (strOf "Smart: Today") .today (strOf "T")
      none none none none none none (by rfl)).1,
   (C4_createReminder_smart ⟨[], []⟩ (strOf "Smart: Today") .today (strOf "T")
      none none none none none none (by rfl)).2.2⟩

/-- C2: when the trailing metadata marker of a non-empty body carries a
token whose decode chain fails (malformed base64/UTF-8/JSON payload or
non-extractable fields), `parseReminderBody` does not fail: it returns the
entire original body as the notes with empty metadata. -/
theorem C2_decode_failure_fallback (b : Str) (idx : Nat) (tok : Str)
    (hne : b ≠ []) (hfind : findMarker b = some (idx, tok))
    (hbad : decodeMetadataToken tok = none) :
    parseReminderBody (some b) = ⟨some b, {}⟩ := by
  simp [parseReminderBody, hne, hfind, hbad]

/-- The token "AAAA" is base64url-valid but its bytes are not JSON, so the
decode chain fails on it. -/
theorem decodeToken_AAAA_none : decodeMetadataToken (strOf "AAAA") = none := by
  have hu : utf8DecodeR ([0, 0, 0] : List Nat) =
      [Char.ofNat 0, Char.ofNat 0, Char.ofNat 0] := by
    rw [utf8DecodeR_cons,
      show utf8Dec1 0 [0, 0] = (Char.ofNat 0, [0, 0]) from rfl]
    rw [utf8DecodeR_cons,
      show utf8Dec1 0 [0] = (Char.ofNat 0, [0]) from rfl]
    rw [utf8DecodeR_cons,
      show utf8Dec1 0 ([] : List Nat) = (Char.ofNat 0, []) from rfl]
    rw [utf8DecodeR_nil]
  simp only [decodeMetadataToken,
    show b64Decode (strOf "AAAA") = some [0, 0, 0] from rfl, hu]
  rfl

/-- C2 witness: a body whose marker token "AAAA" decodes to bytes that are
not JSON falls back to the whole body as notes with empty metadata. -/
theorem C2_witness :
    parseReminderBody (some (strOf "note [[mcp-reminder-meta:AAAA]]")) =
      ⟨some (strOf "note [[mcp-reminder-meta:AAAA]]"), {}⟩ :=
  C2_decode_failure_fallback (strOf "note [[mcp-reminder-meta:AAAA]]") 4
    (strOf "AAAA") (by decide) (by rfl) decodeToken_AAAA_none

theorem mark_chars_not_ws : ∀ c ∈ METADATA_MARK, isJsWs c = false := by decide

theorem mark_ne_nil : METADATA_MARK ≠ [] := by decide

theorem mark_not_prefix_ws_boundary (d t : Str) (c : Char)
    (hlen : d.length < METADATA_MARK.length)
    (hthead : t.head? = some c) (hws : isJsWs c = true) :
    METADATA_MARK.isPrefixOf (d ++ t) = false := by
  cases t with
  | nil => cases hthead
  | cons c0 t' =>
    have hc0 : c0 = c := by simpa using hthead
    subst hc0
    by_contra hcon
    rw [Bool.not_eq_false] at hcon
    have hp : METADATA_MARK <+: d ++ c0 :: t' := List.isPrefixOf_iff_prefix.mp hcon
    have hget := hp.getElem hlen
    rw [List.getElem_append_right (Nat.le_refl d.length)] at hget
    simp only [Nat.sub_self, List.getElem_cons_zero] at hget
    have hmem : METADATA_MARK[d.length] ∈ METADATA_MARK := List.getElem_mem hlen
    have := mark_chars_not_ws _ hmem
    rw [hget, hws] at this
    cases this

theorem mark_prefix_of_long (d t : Str)
    (hpre : METADATA_MARK.isPrefixOf (d ++ t) = true)
    (hge : METADATA_MARK.length ≤ d.length) :
    METADATA_MARK <+: d := by
  have hp : METADATA_MARK <+: d ++ t := List.isPrefixOf_iff_prefix.mp hpre
  have htake := List.prefix_iff_eq_take.mp hp
  rw [List.take_append_of_le_length hge] at htake
  rw [htake]
  exact List.take_prefix _ _

theorem matchFull_none_sub (n l : Str)
    (hnomark : ¬ METADATA_MARK <:+: n) (hinf : l <:+: n) :
    matchFull l = none := by
  rw [matchFull]
  cases hpre : METADATA_MARK.isPrefixOf (l.dropWhile isJsWs) with
  | false => simp [hpre]
  | true =>
    exfalso
    have hd : l.dropWhile isJsWs <:+: n :=
      ((List.dropWhile_suffix _).isInfix).trans hinf
    exact hnomark
      (((List.isPrefixOf_iff_prefix.mp hpre).isInfix).trans hd)

theorem matchFull_none_of_nonws (n u t : Str) (c : Char)
    (hnomark : ¬ METADATA_MARK <:+: n)
    (hu : u <:+: n) (hdne : u.dropWhile isJsWs ≠ [])
    (hthead : t.head? = some c) (hws : isJsWs c = true) :
    matchFull (u ++ t) = none := by
  rw [matchFull]
  have hsplit : (u ++ t).dropWhile isJsWs = u.dropWhile isJsWs ++ t := by
    rw [List.dropWhile_append]
    rw [if_neg]
    simp [List.isEmpty_iff, hdne]
  rw [hsplit]
  have hdn : u.dropWhile isJsWs <:+: n :=
    ((List.dropWhile_suffix _).isInfix).trans hu
  rcases Nat.lt_or_ge (u.dropWhile isJsWs).length METADATA_MARK.length with hlt | hge
  · rw [mark_not_prefix_ws_boundary _ t c hlt hthead hws]
    simp
  · cases hpre : METADATA_MARK.isPrefixOf (u.dropWhile isJsWs ++ t) with
    | false => simp
    | true =>
      exact absurd
        (((mark_prefix_of_long _ t hpre hge).isInfix).trans hdn) hnomark

theorem takeWhile_all_append (p : Char → Bool) (l t : Str)
    (hl : ∀ c ∈ l, p c = true) :
    (l ++ t).takeWhile p = l ++ t.takeWhile p := by
  induction l with
  | nil => simp
  | cons c l ih =>
    rw [List.cons_append, List.takeWhile_cons, if_pos (hl c (by simp))]
    rw [ih (fun x hx => hl x (by simp [hx]))]
    rfl

theorem dropWhile_all_append (p : Char → Bool) (l t : Str)
    (hl : ∀ c ∈ l, p c = true) :
    (l ++ t).dropWhile p = t.dropWhile p := by
  induction l with
  | nil => simp
  | cons c l ih =>
    rw [List.cons_append, List.dropWhile_cons, if_pos (hl c (by simp))]
    exact ih (fun x hx => hl x (by simp [hx]))

theorem matchFull_at_marker (w tok : Str)
    (hw : ∀ c ∈ w, isJsWs c = true) (htok : tok ≠ [])
    (htokchars : ∀ c ∈ tok, isTokenChar c = true) :
    matchFull (w ++ markerOf tok) = some tok := by
  rw [matchFull, markerOf]
  have hmark : METADATA_MARK = '[' :: strOf "[mcp-reminder-meta:" := by decide
  have hpast : (w ++ (METADATA_MARK ++ tok ++ METADATA_TAIL)).dropWhile isJsWs =
      METADATA_MARK ++ tok ++ METADATA_TAIL := by
    rw [dropWhile_all_append isJsWs w _ hw]
    rw [List.append_assoc, hmark, List.cons_append]
    rw [List.dropWhile_cons, if_neg (by decide)]
  rw [hpast]
  have hpre : METADATA_MARK.isPrefixOf (METADATA_MARK ++ tok ++ METADATA_TAIL) =
      true := by
    rw [List.isPrefixOf_iff_prefix, List.append_assoc]
    exact List.prefix_append _ _
  rw [if_pos hpre]
  have hafter : (METADATA_MARK ++ tok ++ METADATA_TAIL).drop METADATA_MARK.length =
      tok ++ METADATA_TAIL := by
    rw [List.append_assoc]
    exact List.drop_left _ _
  rw [hafter]
  have htake : (tok ++ METADATA_TAIL).takeWhile isTokenChar = tok := by
    rw [takeWhile_all_append isTokenChar tok _ htokchars]
    rw [show METADATA_TAIL.takeWhile isTokenChar = [] from by decide]
    exact List.append_nil tok
  have hdrop : (tok ++ METADATA_TAIL).drop tok.length = METADATA_TAIL :=
    List.drop_left _ _
  simp only [htake, hdrop]
  rw [if_pos ⟨htok, by decide, by decide⟩]

theorem findMarkerGo_cons_none (i : Nat) (c : Char) (rest : Str)
    (h : matchFull (c :: rest) = none) :
    findMarkerGo i (c :: rest) = findMarkerGo (i + 1) rest := by
  rw [findMarkerGo]
  simp only [fmStep, h]

theorem findMarkerGo_cons_some (i : Nat) (c : Char) (rest tok : Str)
    (h : matchFull (c :: rest) = some tok) :
    findMarkerGo i (c :: rest) = some (i, tok) := by
  rw [findMarkerGo]
  simp only [fmStep, h]

theorem findMarkerGo_at_marker (i : Nat) (w tok : Str)
    (hw : ∀ c ∈ w, isJsWs c = true) (htok : tok ≠ [])
    (htokchars : ∀ c ∈ tok, isTokenChar c = true) :
    findMarkerGo i (w ++ markerOf tok) = some (i, tok) := by
  have hm := matchFull_at_marker w tok hw htok htokchars
  have hne : w ++ markerOf tok ≠ [] := by
    intro hcon
    rcases List.append_eq_nil.mp hcon with ⟨-, hmk⟩
    rw [markerOf, List.append_assoc] at hmk
    rcases List.append_eq_nil.mp hmk with ⟨hmk2, -⟩
    exact mark_ne_nil hmk2
  obtain ⟨c, rest, hshape⟩ := List.exists_cons_of_ne_nil hne
  rw [hshape] at hm ⊢
  exact findMarkerGo_cons_some i c rest tok hm

theorem findMarkerGo_skip (n : Str) (hnomark : ¬ METADATA_MARK <:+: n)
    (t : Str) (c0 : Char) (hthead : t.head? = some c0) (hws : isJsWs c0 = true) :
    ∀ (u : Str) (i : Nat), u <:+: n →
      (∀ c, u.getLast? = some c → isJsWs c = false) →
      findMarkerGo i (u ++ t) = findMarkerGo (i + u.length) t
  | [], i, _, _ => by simp
  | c :: u', i, hu, hlast => by
    have hdne : (c :: u').dropWhile isJsWs ≠ [] := by
      intro hcon
      rw [List.dropWhile_eq_nil_iff] at hcon
      obtain ⟨a, ha⟩ := Option.isSome_iff_exists.mp
        (List.getLast?_isSome.mpr (List.cons_ne_nil c u'))
      obtain ⟨hne2, hx⟩ := List.mem_getLast?_eq_getLast (Option.mem_def.mpr ha)
      have hmem : a ∈ c :: u' := hx ▸ List.getLast_mem hne2
      have := hlast a ha
      rw [hcon a hmem] at this
      cases this
    have hmf := matchFull_none_of_nonws n (c :: u') t c0 hnomark hu hdne hthead hws
    rw [List.cons_append]
    rw [findMarkerGo_cons_none i c (u' ++ t) (by rw [← List.cons_append]; exact hmf)]
    have hrec := findMarkerGo_skip n hnomark t c0 hthead hws u' (i + 1)
      (((List.suffix_cons c u').isInfix).trans hu)
      (fun a ha => hlast a (by
        cases u' with
        | nil => cases ha
        | cons b u'' => rw [List.getLast?_cons_cons]; exact ha))
    rw [hrec]
    congr 1
    simp [List.length_cons]
    omega

theorem trimEnd_decomp (n : Str) :
    n = jsTrimEnd n ++ n.drop (jsTrimEnd n).length ∧
    (∀ c ∈ n.drop (jsTrimEnd n).length, isJsWs c = true) ∧
    (∀ c, (jsTrimEnd n).getLast? = some c → isJsWs c = false) := by
  have hsplit : n.reverse = n.reverse.takeWhile isJsWs ++ n.reverse.dropWhile isJsWs :=
    (List.takeWhile_append_dropWhile ..).symm
  have hn : n = jsTrimEnd n ++ (n.reverse.takeWhile isJsWs).reverse := by
    rw [jsTrimEnd]
    conv_lhs => rw [← List.reverse_reverse n]
    conv_lhs => rw [hsplit]
    rw [List.reverse_append]
  have htake : jsTrimEnd n = n.take (jsTrimEnd n).length :=
    List.prefix_iff_eq_take.mp ⟨_, hn.symm⟩
  have hdropn : n.drop (jsTrimEnd n).length = (n.reverse.takeWhile isJsWs).reverse := by
    have hcancel : jsTrimEnd n ++ n.drop (jsTrimEnd n).length =
        jsTrimEnd n ++ (n.reverse.takeWhile isJsWs).reverse := by
      calc jsTrimEnd n ++ n.drop (jsTrimEnd n).length
          = n.take (jsTrimEnd n).length ++ n.drop (jsTrimEnd n).length := by
            rw [← htake]
        _ = n := List.take_append_drop ..
        _ = jsTrimEnd n ++ (n.reverse.takeWhile isJsWs).reverse := hn
    exact List.append_cancel_left hcancel
  refine ⟨?_, ?_, ?_⟩
  · rw [hdropn]
    exact hn
  · intro c hc
    rw [hdropn, List.mem_reverse] at hc
    exact List.mem_takeWhile_imp hc
  · intro c hc
    rw [jsTrimEnd, List.getLast?_reverse] at hc
    exact head_dropWhile_not isJsWs _ c hc

theorem findMarker_compose (n tok : Str)
    (hnomark : ¬ METADATA_MARK <:+: n)
    (htok : tok ≠ []) (htokchars : ∀ c ∈ tok, isTokenChar c = true) :
    findMarker (n ++ strOf "\n\n" ++ markerOf tok) =
      some ((jsTrimEnd n).length, tok) := by
  obtain ⟨hdec, hws, hlast⟩ := trimEnd_decomp n
  have hw2 : ∀ c ∈ n.drop (jsTrimEnd n).length ++ strOf "\n\n", isJsWs c = true := by
    intro c hc
    rcases List.mem_append.mp hc with hc | hc
    · exact hws c hc
    · rw [show strOf "\n\n" = [Char.ofNat 10, Char.ofNat 10] from rfl] at hc
      simp at hc
      rw [hc]
      rfl
  have hbody : n ++ strOf "\n\n" ++ markerOf tok =
      jsTrimEnd n ++
        ((n.drop (jsTrimEnd n).length ++ strOf "\n\n") ++ markerOf tok) := by
    conv_lhs => rw [hdec]
    simp [List.append_assoc]
  obtain ⟨c0, w2', hw2shape⟩ :=
    List.exists_cons_of_ne_nil
      (show n.drop (jsTrimEnd n).length ++ strOf "\n\n" ≠ [] by
        intro hcon
        rcases List.append_eq_nil.mp hcon with ⟨-, h2⟩
        cases h2)
  have hthead : ((n.drop (jsTrimEnd n).length ++ strOf "\n\n") ++ markerOf tok).head? =
      some c0 := by
    rw [hw2shape, List.cons_append, List.head?_cons]
  have hws0 : isJsWs c0 = true := hw2 c0 (by rw [hw2shape]; simp)
  rw [findMarker, hbody]
  have hskip := findMarkerGo_skip n hnomark
    ((n.drop (jsTrimEnd n).length ++ strOf "\n\n") ++ markerOf tok) c0 hthead hws0
    (jsTrimEnd n) 0 ⟨[], n.drop (jsTrimEnd n).length, by simpa using hdec.symm⟩
    hlast
  rw [hskip]
  rw [Nat.zero_add]
  exact findMarkerGo_at_marker (jsTrimEnd n).length
    (n.drop (jsTrimEnd n).length ++ strOf "\n\n") tok hw2 htok htokchars

theorem findMarker_none_of_no_mark (n : Str) (hnomark : ¬ METADATA_MARK <:+: n) :
    findMarker n = none := by
  suffices h : ∀ (l : Str) (i : Nat), l <:+: n → findMarkerGo i l = none by
    exact h n 0 (List.infix_refl n)
  intro l
  induction l with
  | nil =>
    intro i _
    rw [findMarkerGo]
    simp [fmStep, matchFull]
  | cons c rest ih =>
    intro i hl
    rw [findMarkerGo_cons_none i c rest
      (matchFull_none_sub n (c :: rest) hnomark hl)]
    exact ih (i + 1) (((List.suffix_cons c rest).isInfix).trans hl)

theorem jsTrimEnd_eq_self (z : Str)
    (h : ∀ c, z.getLast? = some c → isJsWs c = false) : jsTrimEnd z = z := by
  rw [jsTrimEnd]
  have hrev : z.reverse.dropWhile isJsWs = z.reverse := by
    cases hz : z.reverse with
    | nil => rfl
    | cons c t =>
      rw [List.dropWhile_cons, if_neg]
      have hc : z.getLast? = some c := by
        rw [← List.head?_reverse, hz, List.head?_cons]
      rw [h c hc]
      exact Bool.false_ne_true
  rw [hrev, List.reverse_reverse]

theorem jsTrimStart_eq_self (z : Str)
    (h : ∀ c, z.head? = some c → isJsWs c = false) : jsTrimStart z = z := by
  rw [jsTrimStart]
  cases hz : z with
  | nil => rfl
  | cons c t =>
    rw [List.dropWhile_cons, if_neg]
    rw [h c (by rw [hz, List.head?_cons])]
    exact Bool.false_ne_true

theorem jsTrim_last (s : Str) :
    ∀ c, (jsTrim s).getLast? = some c → isJsWs c = false := by
  intro c hc
  rw [jsTrim] at hc
  exact (trimEnd_decomp (jsTrimStart s)).2.2 c hc

theorem jsTrim_head (s : Str) :
    ∀ c, (jsTrim s).head? = some c → isJsWs c = false := by
  intro c hc
  rw [jsTrim, jsTrimEnd] at hc
  have hmem : c ∈ ((jsTrimStart s).reverse.dropWhile isJsWs).reverse :=
    List.mem_of_mem_head? hc
  rw [List.mem_reverse] at hmem
  have hpre : ((jsTrimStart s).reverse.dropWhile isJsWs).reverse <+: jsTrimStart s := by
    have hsuf : (jsTrimStart s).reverse.dropWhile isJsWs <:+ (jsTrimStart s).reverse :=
      List.dropWhile_suffix _
    obtain ⟨w, hw⟩ := hsuf
    refine ⟨w.reverse, ?_⟩
    have hrw := congrArg List.reverse hw
    rw [List.reverse_append, List.reverse_reverse] at hrw
    exact hrw
  obtain ⟨w, hw⟩ := hpre
  have hheadJ : (jsTrimStart s).head? = some c := by
    rw [← hw]
    cases hz : ((jsTrimStart s).reverse.dropWhile isJsWs).reverse with
    | nil => rw [hz] at hc; cases hc
    | cons a t =>
      rw [hz] at hc
      rw [List.cons_append, List.head?_cons]
      rw [List.head?_cons] at hc
      exact hc
  exact head_dropWhile_not isJsWs s c hheadJ

theorem jsTrim_idem (s : Str) : jsTrim (jsTrim s) = jsTrim s := by
  conv_lhs => rw [jsTrim]
  rw [jsTrimStart_eq_self _ (jsTrim_head s)]
  rw [jsTrimEnd_eq_self _ (jsTrim_last s)]

theorem b64Encode_ne_nil : ∀ l : List Nat, l ≠ [] → b64Encode l ≠ []
  | [], h, _ => h rfl
  | [a], _, h => by cases h
  | [a, b], _, h => by cases h
  | a :: b :: c :: rest, _, h => by cases h

theorem jGetLast_append (a b : List (Str × JValue)) (k : Str) :
    jGetLast (a ++ b) k = (jGetLast b k).or (jGetLast a k) := by
  rw [jGetLast, jGetLast, jGetLast, List.reverse_append, List.find?_append]
  cases hb : b.reverse.find? (fun f => f.1 == k) with
  | none => cases ha : a.reverse.find? (fun f => f.1 == k) <;>
      simp [Option.or, hb, ha]
  | some f => simp [Option.or, hb]

theorem jGetLast_toList_same {α : Type} (k : Str) (g : α → JValue) (o : Option α) :
    jGetLast ((o.map fun x => (k, g x)).toList) k = o.map g := by
  cases o with
  | none => rfl
  | some x => simp [jGetLast]

theorem jGetLast_toList_other {α : Type} (k k2 : Str) (hkk : (k == k2) = false)
    (g : α → JValue) (o : Option α) :
    jGetLast ((o.map fun x => (k, g x)).toList) k2 = none := by
  cases o with
  | none => rfl
  | some x => simp [jGetLast, hkk]

theorem bind_asStr_map (o : Option Str) : (o.map JValue.str).bind asStr = o := by
  cases o <;> rfl

theorem bind_asNum_map (o : Option JNum) : (o.map JValue.num).bind asNum = o := by
  cases o <;> rfl

theorem jvalueToLocation_obj (fs : List (Str × JValue)) :
    jvalueToLocation (some (JValue.obj fs)) =
      some { title := (jGetLast fs (strOf "title")).bind asStr
             latitude := (jGetLast fs (strOf "latitude")).bind asNum
             longitude := (jGetLast fs (strOf "longitude")).bind asNum
             radiusMeters := (jGetLast fs (strOf "radiusMeters")).bind asNum
             proximity := (jGetLast fs (strOf "proximity")).bind asStr } := rfl

theorem jvalueToLocation_roundtrip (l : ReminderLocation) :
    jvalueToLocation (some (locationToJValue l)) = some l := by
  rw [locationToJValue, jvalueToLocation_obj]
  simp only [jGetLast_append,
    jGetLast_toList_same,
    jGetLast_toList_other (strOf "proximity") (strOf "title") (by decide),
    jGetLast_toList_other (strOf "radiusMeters") (strOf "title") (by decide),
    jGetLast_toList_other (strOf "longitude") (strOf "title") (by decide),
    jGetLast_toList_other (strOf "latitude") (strOf "title") (by decide),
    jGetLast_toList_other (strOf "proximity") (strOf "latitude") (by decide),
    jGetLast_toList_other (strOf "radiusMeters") (strOf "latitude") (by decide),
    jGetLast_toList_other (strOf "longitude") (strOf "latitude") (by decide),
    jGetLast_toList_other (strOf "title") (strOf "latitude") (by decide),
    jGetLast_toList_other (strOf "proximity") (strOf "longitude") (by decide),
    jGetLast_toList_other (strOf "radiusMeters") (strOf "longitude") (by decide),
    jGetLast_toList_other (strOf "latitude") (strOf "longitude") (by decide),
    jGetLast_toList_other (strOf "title") (strOf "longitude") (by decide),
    jGetLast_toList_other (strOf "proximity") (strOf "radiusMeters") (by decide),
    jGetLast_toList_other (strOf "longitude") (strOf "radiusMeters") (by decide),
    jGetLast_toList_other (strOf "latitude") (strOf "radiusMeters") (by decide),
    jGetLast_toList_other (strOf "title") (strOf "radiusMeters") (by decide),
    jGetLast_toList_other (strOf "radiusMeters") (strOf "proximity") (by decide),
    jGetLast_toList_other (strOf "longitude") (strOf "proximity") (by decide),
    jGetLast_toList_other (strOf "latitude") (strOf "proximity") (by decide),
    jGetLast_toList_other (strOf "title") (strOf "proximity") (by decide),
    Option.or_none, Option.none_or, bind_asStr_map, bind_asNum_map]

theorem extractMetadata_obj (fs : List (Str × JValue)) :
    extractMetadata (JValue.obj fs) =
      (match extractTagsArg (jGetLast fs (strOf "tags")) with
       | none => none
       | some targ =>
         some ⟨some (normalizeTags targ),
           lenientLoc (jvalueToLocation (jGetLast fs (strOf "location")))⟩) := rfl

theorem extractTagsArg_arr (xs : List JValue) :
    extractTagsArg (some (JValue.arr xs)) =
      (if xs.all (fun x => (asStr x).isSome) then some (some (xs.filterMap asStr))
       else none) := rfl

theorem extractTagsArg_strArr (l : List Str) :
    extractTagsArg (some (JValue.arr (l.map JValue.str))) = some (some l) := by
  rw [extractTagsArg_arr]
  rw [if_pos (by simp [List.all_map, Function.comp, asStr])]
  rw [List.filterMap_map]
  have : (asStr ∘ JValue.str) = some := by
    funext x
    rfl
  rw [this, List.filterMap_some]

theorem extractMetadata_roundtrip (tags : List Str) (loc : Option ReminderLocation) :
    extractMetadata (metadataToJValue tags loc) =
      some ⟨some (normalizeTags (some tags)), lenientLoc loc⟩ := by
  rw [metadataToJValue.eq_def, extractMetadata_obj]
  by_cases htags : tags = []
  · subst htags
    rw [if_pos rfl, List.nil_append]
    cases loc with
    | none =>
      simp [jGetLast, extractTagsArg, jvalueToLocation, normalizeTags,
        normalizeTagsGo]
    | some l =>
      rw [show jGetLast [(strOf "location", locationToJValue l)] (strOf "tags") =
          none from by simp +decide [jGetLast]]
      rw [show jGetLast [(strOf "location", locationToJValue l)] (strOf "location") =
          some (locationToJValue l) from by simp +decide [jGetLast]]
      rw [jvalueToLocation_roundtrip]
      simp [extractTagsArg, normalizeTags, normalizeTagsGo]
  · rw [if_neg htags]
    cases loc with
    | none =>
      rw [List.append_nil]
      rw [show jGetLast [(strOf "tags", JValue.arr (tags.map JValue.str))]
          (strOf "tags") = some (JValue.arr (tags.map JValue.str)) from by
        simp +decide [jGetLast]]
      rw [show jGetLast [(strOf "tags", JValue.arr (tags.map JValue.str))]
          (strOf "location") = none from by simp +decide [jGetLast]]
      rw [extractTagsArg_strArr]
      rfl
    | some l =>
      rw [jGetLast_append, jGetLast_append]
      rw [show jGetLast [(strOf "location", locationToJValue l)] (strOf "tags") =
          none from by simp +decide [jGetLast]]
      rw [show jGetLast [(strOf "tags", JValue.arr (tags.map JValue.str))]
          (strOf "tags") = some (JValue.arr (tags.map JValue.str)) from by
        simp +decide [jGetLast]]
      rw [show jGetLast [(strOf "location", locationToJValue l)]
          (strOf "location") = some (locationToJValue l) from by simp +decide [jGetLast]]
      simp only [Option.none_or, Option.or_some]
      rw [extractTagsArg_strArr]
      rw [jvalueToLocation_roundtrip]

/-- The shape of a leniently-normalized location: every present field is
well-formed and latitude/longitude are paired. -/
def locNormal (l : ReminderLocation) : Prop :=
  (∀ t, l.title = some t → jsTrim t = t ∧ t ≠ []) ∧
  (∀ n, l.latitude = some n → -90 ≤ n.toRat ∧ n.toRat ≤ 90) ∧
  (∀ n, l.longitude = some n → -180 ≤ n.toRat ∧ n.toRat ≤ 180) ∧
  (∀ n, l.radiusMeters = some n → 0 < n.toRat) ∧
  (∀ p, l.proximity = some p → p = strOf "arriving" ∨ p = strOf "leaving") ∧
  l.latitude.isSome = l.longitude.isSome

theorem specLenientLocation_normal (loc l : ReminderLocation)
    (h : specLenientLocation loc = some l) : locNormal l ∧ l ≠ emptyLoc := by
  rw [specLenientLocation, ite_eq_iff] at h
  rcases h with ⟨-, h⟩ | ⟨hne, h⟩
  · cases h
  · rw [Option.some_inj] at h
    subst h
    refine ⟨⟨?_, ?_, ?_, ?_, ?_, ?_⟩, hne⟩
    · intro t ht
      cases hlt : loc.title with
      | none => rw [hlt] at ht; cases ht
      | some t0 =>
        rw [hlt] at ht
        dsimp only at ht
        split at ht
        · cases ht
        · rename_i hnem
          rw [Option.some_inj] at ht
          subst ht
          exact ⟨jsTrim_idem t0, hnem⟩
    · intro n hn
      dsimp only at hn
      split at hn
      · cases hla : loc.latitude with
        | none => rw [hla] at hn; cases hn
        | some n0 =>
          rw [hla] at hn
          dsimp only at hn
          split at hn
          · rename_i hr
            rw [Option.some_inj] at hn
            subst hn
            exact hr
          · cases hn
      · cases hn
    · intro n hn
      dsimp only at hn
      split at hn
      · cases hlo : loc.longitude with
        | none => rw [hlo] at hn; cases hn
        | some n0 =>
          rw [hlo] at hn
          dsimp only at hn
          split at hn
          · rename_i hr
            rw [Option.some_inj] at hn
            subst hn
            exact hr
          · cases hn
      · cases hn
    · intro n hn
      dsimp only at hn
      cases hra : loc.radiusMeters with
      | none => rw [hra] at hn; cases hn
      | some n0 =>
        rw [hra] at hn
        dsimp only at hn
        split at hn
        · rename_i hr
          rw [Option.some_inj] at hn
          subst hn
          exact hr
        · cases hn
    · intro p hp
      dsimp only at hp
      cases hpx : loc.proximity with
      | none => rw [hpx] at hp; cases hp
      | some p0 =>
        rw [hpx] at hp
        dsimp only at hp
        split at hp
        · rename_i hr
          rw [Option.some_inj] at hp
          subst hp
          exact hr
        · cases hp
    · dsimp only
      split
      · assumption
      · rfl

theorem specLenientLocation_of_normal (l : ReminderLocation)
    (hnorm : locNormal l) (hne : l ≠ emptyLoc) :
    specLenientLocation l = some l := by
  obtain ⟨hT, hLa, hLo, hRa, hPx, hPair⟩ := hnorm
  rw [specLenientLocation]
  have ht : (match l.title with
             | some t => if jsTrim t = [] then none else some (jsTrim t)
             | none => none) = l.title := by
    cases hlt : l.title with
    | none => rfl
    | some t =>
      obtain ⟨h1, h2⟩ := hT t hlt
      dsimp only
      rw [h1, if_neg h2]
  have hla : (match l.latitude with
              | some n => if -90 ≤ n.toRat ∧ n.toRat ≤ 90 then some n else none
              | none => none) = l.latitude := by
    cases hl : l.latitude with
    | none => rfl
    | some n =>
      dsimp only
      rw [if_pos (hLa n hl)]
  have hlo : (match l.longitude with
              | some n => if -180 ≤ n.toRat ∧ n.toRat ≤ 180 then some n else none
              | none => none) = l.longitude := by
    cases hl : l.longitude with
    | none => rfl
    | some n =>
      dsimp only
      rw [if_pos (hLo n hl)]
  have hra : (match l.radiusMeters with
              | some n => if 0 < n.toRat then some n else none
              | none => none) = l.radiusMeters := by
    cases hl : l.radiusMeters with
    | none => rfl
    | some n =>
      dsimp only
      rw [if_pos (hRa n hl)]
  have hpx : (match l.proximity with
              | some p =>
                if p = strOf "arriving" ∨ p = strOf "leaving" then some p else none
              | none => none) = l.proximity := by
    cases hl : l.proximity with
    | none => rfl
    | some p =>
      dsimp only
      rw [if_pos (hPx p hl)]
  rw [ht, hla, hlo, hra, hpx]
  simp only [if_pos hPair]
  show (if l = emptyLoc then (none : Option ReminderLocation) else some l) = some l
  rw [if_neg hne]

theorem lenientLoc_some (loc : ReminderLocation) :
    lenientLoc (some loc) = specLenientLocation loc := by
  rw [lenientLoc, normalizeLocation_lenient_spec]

theorem lenientLoc_idem (x : Option ReminderLocation) :
    lenientLoc (lenientLoc x) = lenientLoc x := by
  cases x with
  | none => rfl
  | some loc =>
    rw [lenientLoc_some]
    cases h : specLenientLocation loc with
    | none => rfl
    | some l =>
      obtain ⟨hnorm, hne⟩ := specLenientLocation_normal loc l h
      rw [lenientLoc_some]
      exact specLenientLocation_of_normal l hnorm hne

theorem decodeMetadataToken_encode (md : ReminderMetadata) (tok : Str)
    (henc : encodeMetadata md = some tok) :
    decodeMetadataToken tok =
      some ⟨some (normalizeTags (some (normalizeTags md.tags))),
        lenientLoc md.location⟩ := by
  rw [encodeMetadata, ite_eq_iff] at henc
  rcases henc with ⟨-, henc⟩ | ⟨-, henc⟩
  · cases henc
  · rw [Option.some_inj] at henc
    subst henc
    have h1 := b64Encode_decode
      (utf8Encode (renderJValue
        (metadataToJValue (normalizeTags md.tags) (lenientLoc md.location))))
      (utf8Encode_lt_256 _)
    simp only [decodeMetadataToken, h1, utf8DecodeR_encode, jsonParse_render,
      extractMetadata_roundtrip, lenientLoc_idem]

theorem utf8EncodeChar_ne_nil (c : Char) : utf8EncodeChar c ≠ [] := by
  rw [utf8EncodeChar]
  split_ifs <;> simp

theorem utf8Encode_ne_nil (s : Str) (h : s ≠ []) : utf8Encode s ≠ [] := by
  cases s with
  | nil => exact absurd rfl h
  | cons c rest =>
    rw [utf8Encode, List.flatMap_cons]
    intro hcon
    rcases List.append_eq_nil.mp hcon with ⟨h1, -⟩
    exact utf8EncodeChar_ne_nil c h1

theorem markerOf_ne_nil (tok : Str) : markerOf tok ≠ [] := by
  rw [markerOf]
  intro hcon
  rcases List.append_eq_nil.mp hcon with ⟨h1, -⟩
  rcases List.append_eq_nil.mp h1 with ⟨h2, -⟩
  exact mark_ne_nil h2

theorem encodeMetadata_tok (md : ReminderMetadata) (tok : Str)
    (henc : encodeMetadata md = some tok) :
    tok ≠ [] ∧ ∀ c ∈ tok, isTokenChar c = true := by
  rw [encodeMetadata, ite_eq_iff] at henc
  rcases henc with ⟨-, henc⟩ | ⟨-, henc⟩
  · cases henc
  · rw [Option.some_inj] at henc
    subst henc
    refine ⟨?_, fun c hc => b64Encode_tokenChars _ c hc⟩
    apply b64Encode_ne_nil
    apply utf8Encode_ne_nil
    obtain ⟨c, t, heq, -, -⟩ := renderJValue_head
      (metadataToJValue (normalizeTags md.tags) (lenientLoc md.location))
    rw [heq]
    exact List.cons_ne_nil c t

theorem trimEnd_nil_all_ws (n : Str) (h : jsTrimEnd n = []) :
    ∀ c ∈ n, isJsWs c = true := by
  obtain ⟨hdec, hws, -⟩ := trimEnd_decomp n
  intro c hc
  rw [hdec] at hc
  rcases List.mem_append.mp hc with hc | hc
  · rw [h] at hc
    cases hc
  · exact hws c hc

theorem hasNotes_trimEnd_ne (n : Str) (h : hasNotes (some n) = true) :
    jsTrimEnd n ≠ [] := by
  intro hcon
  have hall := trimEnd_nil_all_ws n hcon
  rw [hasNotes] at h
  have hstart : jsTrimStart n = [] := by
    rw [jsTrimStart, List.dropWhile_eq_nil_iff]
    exact fun x hx => hall x hx
  rw [jsTrim, hstart] at h
  rw [show jsTrimEnd [] = [] from rfl] at h
  cases h

/-- Modelled from the spec: the metadata recovered by a decode of a freshly
composed body — tags re-normalized once more by the decoder, location in its
leniently-normalized form. -/
def specDecodedMeta (md : ReminderMetadata) : ReminderMetadata :=
  ⟨some (normalizeTags (some (normalizeTags md.tags))), lenientLoc md.location⟩

/-- Modelled from the spec (round-trip law, as corrected): the decoded parts
of a composed body — notes passed through verbatim when there is no metadata,
trailing-whitespace-trimmed when a marker follows them, absent when blank;
metadata decoded to the spec-modelled normal form. -/
def specComposeParse (notes : Option Str) (md : ReminderMetadata) :
    ReminderBodyParts :=
  if hasNotes notes then
    match encodeMetadata md with
    | none => ⟨notes, {}⟩
    | some _ => ⟨some (jsTrimEnd (notes.getD [])), specDecodedMeta md⟩
  else
    match encodeMetadata md with
    | none => ⟨none, {}⟩
    | some _ => ⟨none, specDecodedMeta md⟩

theorem parse_compose (notes : Option Str) (md : ReminderMetadata)
    (hnomark : ∀ n, notes = some n → ¬ METADATA_MARK <:+: n) :
    parseReminderBody (composeReminderBody notes md) = specComposeParse notes md := by
  cases henc : encodeMetadata md with
  | none =>
    rw [specComposeParse]
    simp only [composeReminderBody, henc]
    cases hhn : hasNotes notes with
    | false =>
      simp only [Bool.false_eq_true, if_false]
      rfl
    | true =>
      simp only [eq_self_iff_true, if_true]
      cases notes with
      | none => exact absurd hhn (by decide)
      | some n =>
        rw [parseReminderBody]
        have hne : n ≠ [] := by
          intro hcon
          subst hcon
          exact absurd hhn (by decide)
        rw [if_neg hne]
        rw [findMarker_none_of_no_mark n (hnomark n rfl)]
  | some tok =>
    obtain ⟨htokne, htokchars⟩ := encodeMetadata_tok md tok henc
    have hdec := decodeMetadataToken_encode md tok henc
    rw [specComposeParse]
    simp only [composeReminderBody, henc]
    cases hhn : hasNotes notes with
    | false =>
      simp only [Bool.false_eq_true, if_false]
      rw [parseReminderBody]
      rw [if_neg (markerOf_ne_nil tok)]
      have hfm : findMarker (markerOf tok) = some (0, tok) := by
        rw [findMarker]
        have h0 := findMarkerGo_at_marker 0 [] tok (by simp) htokne htokchars
        rw [List.nil_append] at h0
        exact h0
      simp only [hfm, hdec]
      simp [specDecodedMeta]
      rfl
    | true =>
      simp only [eq_self_iff_true, if_true]
      cases notes with
      | none => exact absurd hhn (by decide)
      | some n =>
        rw [parseReminderBody]
        have hbne : (some n).getD [] ++ strOf "\n\n" ++ markerOf tok ≠ [] := by
          intro hcon
          rcases List.append_eq_nil.mp hcon with ⟨-, h2⟩
          exact markerOf_ne_nil tok h2
        rw [if_neg hbne]
        have hget : ((some n).getD []) = n := rfl
        rw [hget]
        rw [findMarker_compose n tok (hnomark n rfl) htokne htokchars]
        have hpre : jsTrimEnd n <+: n := ⟨_, ((trimEnd_decomp n).1).symm⟩
        have htk : (n ++ strOf "\n\n" ++ markerOf tok).take (jsTrimEnd n).length =
            jsTrimEnd n := by
          rw [List.append_assoc]
          rw [List.take_append_of_le_length hpre.length_le]
          exact (List.prefix_iff_eq_take.mp hpre).symm
        simp only [hdec, htk]
        rw [jsTrimEnd_eq_self _ (trimEnd_decomp n).2.2]
        rw [if_neg (hasNotes_trimEnd_ne n hhn)]
        rfl

/-- C1 counterexample: with notes "a " (trailing blank) and tags ["# a"],
the decoded notes are trimmed (not recovered unchanged) and the decoded tags
are the twice-normalized ["a"], not the singly-normalized [" a"]. -/
theorem C1_counterexample :
    ¬ ((parseReminderBody (composeReminderBody (some (strOf "a "))
          ⟨some [strOf "# a"], none⟩)).notes = some (strOf "a ") ∧
       (parseReminderBody (composeReminderBody (some (strOf "a "))
          ⟨some [strOf "# a"], none⟩)).metadata.tags =
         some (normalizeTags (some [strOf "# a"]))) := by
  have h := parse_compose (some (strOf "a ")) ⟨some [strOf "# a"], none⟩
    (by
      intro n hn
      injection hn with hn
      subst hn
      decide)
  rw [h]
  decide

/-- C1 (amended): decoding a freshly composed body recovers the notes
trailing-whitespace-trimmed (verbatim when no metadata survives, absent when
blank), the tags re-normalized once more by the decoder, and the location in
its leniently-normalized form — exactly the spec-modelled outcome
`specComposeParse`. -/
theorem C1_roundTrip :
    ∀ (notes : Option Str) (md : ReminderMetadata),
      (∀ n, notes = some n → ¬ METADATA_MARK <:+: n) →
      parseReminderBody (composeReminderBody notes md) = specComposeParse notes md ∧
      (specComposeParse notes md).metadata =
        (if encodeMetadata md = none then {} else specDecodedMeta md) ∧
      (specDecodedMeta md).location = lenientLoc md.location ∧
      (specDecodedMeta md).tags =
        some (normalizeTags (some (normalizeTags md.tags))) := by
  intro notes md hnomark
  refine ⟨parse_compose notes md hnomark, ?_, rfl, rfl⟩
  rw [specComposeParse]
  cases henc : encodeMetadata md <;> cases hasNotes notes <;> simp [henc]

/-- C1 witness: the round trip applied at a concrete notes/tags/location
triple without sentinel substring. -/
theorem C1_witness :
    parseReminderBody (composeReminderBody (some (strOf "hello world"))
        ⟨some [strOf "work", strOf "#A", strOf "a"], none⟩) =
      specComposeParse (some (strOf "hello world"))
        ⟨some [strOf "work", strOf "#A", strOf "a"], none⟩ :=
  (C1_roundTrip (some (strOf "hello world"))
    ⟨some [strOf "work", strOf "#A", strOf "a"], none⟩
    (by
      intro n hn
      injection hn with hn
      subst hn
      decide)).1

theorem setAttrs_noop (env : Env) (store : Store) (listName reminderName : Str)
    (item : RItem)
    (hfind : getReminderByName env store listName reminderName = .ok (some item)) :
    setReminderAttributes env store listName reminderName ⟨none, none, none, none⟩ =
      .ok .noop := by
  rw [setReminderAttributes]
  have hcore : setReminderAttributesCore env store listName reminderName
      ⟨none, none, none, none⟩ = .ok .noop := by
    rw [setReminderAttributesCore]
    simp only [hfind, bind, Except.bind]
    rfl
  rw [hcore]

theorem setAttrs_flags (env : Env) (store : Store) (listName reminderName : Str)
    (item : RItem) (fl : Option Bool) (pr : Option Int)
    (hfind : getReminderByName env store listName reminderName = .ok (some item))
    (hsome : ¬(fl = none ∧ pr = none)) :
    setReminderAttributes env store listName reminderName ⟨fl, pr, none, none⟩ =
      .ok (.updated (item.id.getD []) ⟨fl, pr, none⟩) := by
  rw [setReminderAttributes]
  have hcore : setReminderAttributesCore env store listName reminderName
      ⟨fl, pr, none, none⟩ = .ok (.updated (item.id.getD []) ⟨fl, pr, none⟩) := by
    rw [setReminderAttributesCore]
    simp only [hfind, bind, Except.bind]
    simp only [Option.isSome_none, Bool.or_false, Bool.false_eq_true, if_false]
    rw [if_neg hsome]
    rfl
  rw [hcore]

theorem setAttrs_update (env : Env) (store : Store) (listName reminderName : Str)
    (item : RItem) (attrs : ReminderAttributesUpdate)
    (nextLoc : Option ReminderLocation)
    (hfind : getReminderByName env store listName reminderName = .ok (some item))
    (hsupplied : (attrs.tags.isSome || attrs.location.isSome) = true)
    (hloc : (match attrs.location with
             | some (some loc) => normalizeLocation (some loc) true
             | some none => Except.ok none
             | none =>
               Except.ok (parseReminderBody item.body).metadata.location) =
             Except.ok nextLoc) :
    setReminderAttributes env store listName reminderName attrs =
      .ok (.updated (item.id.getD [])
        ⟨attrs.flagged, attrs.priority,
         some ((composeReminderBody (parseReminderBody item.body).notes
           ⟨(match attrs.tags with
             | some ts =>
               if normalizeTags (some ts) = [] then none
               else some (normalizeTags (some ts))
             | none => (parseReminderBody item.body).metadata.tags),
            nextLoc⟩).getD [])⟩) := by
  rw [setReminderAttributes]
  have hcore : setReminderAttributesCore env store listName reminderName attrs =
      .ok (.updated (item.id.getD [])
        ⟨attrs.flagged, attrs.priority,
         some ((composeReminderBody (parseReminderBody item.body).notes
           ⟨(match attrs.tags with
             | some ts =>
               if normalizeTags (some ts) = [] then none
               else some (normalizeTags (some ts))
             | none => (parseReminderBody item.body).metadata.tags),
            nextLoc⟩).getD [])⟩) := by
    rw [setReminderAttributesCore]
    simp only [hfind, bind, Except.bind]
    rw [if_pos hsupplied]
    cases hal : attrs.location with
    | none =>
      rw [hal] at hloc
      simp only [hal]
      rw [Except.ok.injEq] at hloc
      simp only [bind, Except.bind, pure, Except.pure, hloc]
    | some locOrNull =>
      cases locOrNull with
      | none =>
        rw [hal] at hloc
        simp only [hal]
        rw [Except.ok.injEq] at hloc
        simp only [bind, Except.bind, pure, Except.pure, hloc]
      | some loc =>
        rw [hal] at hloc
        dsimp only at hloc
        simp only [hal]
        simp only [bind, Except.bind, pure, Except.pure, hloc]
  rw [hcore]

/-- C9 (amended): with an existing target, no supplied attribute is a
successful no-op; flag/priority-only updates leave the body unwritten;
`tags: []` clears the stored tags and passes the decoded location through to
the re-encoder; `location: null` clears the stored location and passes the
decoded tags through to the re-encoder (so an absent field is preserved only
up to the re-encoder's re-normalization, not byte-for-byte). -/
theorem C9_setReminderAttributes :
    ∀ (env : Env) (store : Store) (listName reminderName : Str) (item : RItem),
      getReminderByName env store listName reminderName = .ok (some item) →
      (setReminderAttributes env store listName reminderName
          ⟨none, none, none, none⟩ = .ok .noop) ∧
      (∀ (fl : Option Bool) (pr : Option Int), ¬(fl = none ∧ pr = none) →
        setReminderAttributes env store listName reminderName ⟨fl, pr, none, none⟩ =
          .ok (.updated (item.id.getD []) ⟨fl, pr, none⟩)) ∧
      (setReminderAttributes env store listName reminderName
          ⟨none, none, some [], none⟩ =
        .ok (.updated (item.id.getD [])
          ⟨none, none,
           some ((composeReminderBody (parseReminderBody item.body).notes
             ⟨none, (parseReminderBody item.body).metadata.location⟩).getD [])⟩)) ∧
      (setReminderAttributes env store listName reminderName
          ⟨none, none, none, some none⟩ =
        .ok (.updated (item.id.getD [])
          ⟨none, none,
           some ((composeReminderBody (parseReminderBody item.body).notes
             ⟨(parseReminderBody item.body).metadata.tags, none⟩).getD [])⟩)) := by
  intro env store listName reminderName item hfind
  refine ⟨setAttrs_noop env store listName reminderName item hfind,
    fun fl pr h => setAttrs_flags env store listName reminderName item fl pr hfind h,
    ?_, ?_⟩
  · exact setAttrs_update env store listName reminderName item
      ⟨none, none, some [], none⟩
      ((parseReminderBody item.body).metadata.location) hfind rfl rfl
  · exact setAttrs_update env store listName reminderName item
      ⟨none, none, none, some none⟩ none hfind rfl rfl

/-- The C9 counterexample's stored metadata: one raw tag whose normal form
keeps interior whitespace behind a stripped `#`. -/
def c9Meta : ReminderMetadata := ⟨some [strOf "# # a"], none⟩

/-- The C9 counterexample's stored body. -/
def c9Body : Str := (composeReminderBody none c9Meta).getD []

/-- The C9 counterexample's stored reminder row. -/
def c9Item : RItem :=
  ⟨some (strOf "I1"), some (strOf "R"), some c9Body, none, none, none, none⟩

/-- The C9 counterexample's store. -/
def c9Store : Store := ⟨[⟨strOf "L1", strOf "Work"⟩], [(strOf "L1", [c9Item])]⟩

/-- The C9 counterexample's clock (unused by the update path). -/
def c9Env : Env := ⟨0, 0, 0, 0⟩

/-- The body the update writes back. -/
def c9NewBody : Str := (composeReminderBody none ⟨some [strOf " a"], none⟩).getD []

/-- C9 counterexample: a `location: null` update with tags absent from the
request still changes the stored tags: the old body decodes to tags
`[" a"]`, the rewritten body decodes to `["a"]`. -/
theorem C9_counterexample :
    setReminderAttributes c9Env c9Store (strOf "Work") (strOf "R")
        ⟨none, none, none, some none⟩ =
      .ok (.updated (strOf "I1") ⟨none, none, some c9NewBody⟩) ∧
    (parseReminderBody c9Item.body).metadata.tags = some [strOf " a"] ∧
    (parseReminderBody (some c9NewBody)).metadata.tags = some [strOf "a"] := by
  have hfind : getReminderByName c9Env c9Store (strOf "Work") (strOf "R") =
      .ok (some c9Item) := by rfl
  have hcompose : composeReminderBody none c9Meta = some c9Body := by rfl
  have hparse_old : parseReminderBody (some c9Body) =
      ⟨none, ⟨some [strOf " a"], none⟩⟩ := by
    have h := parse_compose none c9Meta (by intro n hn; cases hn)
    rw [hcompose] at h
    rw [h]
    rfl
  have hcompose2 : composeReminderBody none
      (⟨some [strOf " a"], none⟩ : ReminderMetadata) = some c9NewBody := by rfl
  have hparse_new : parseReminderBody (some c9NewBody) =
      ⟨none, ⟨some [strOf "a"], none⟩⟩ := by
    have h := parse_compose none ⟨some [strOf " a"], none⟩ (by intro n hn; cases hn)
    rw [hcompose2] at h
    rw [h]
    rfl
  refine ⟨?_, ?_, ?_⟩
  · have hup := setAttrs_update c9Env c9Store (strOf "Work") (strOf "R") c9Item
      ⟨none, none, none, some none⟩ none hfind rfl rfl
    rw [show c9Item.body = some c9Body from rfl, hparse_old] at hup
    rw [hup]
    rfl
  · rw [show c9Item.body = some c9Body from rfl, hparse_old]
  · rw [hparse_new]

/-- C9 witness: the theorem applied at the counterexample's store, whose
target lookup succeeds. -/
theorem C9_witness :
    setReminderAttributes c9Env c9Store (strOf "Work") (strOf "R")
        ⟨none, none, none, none⟩ = .ok .noop ∧
    setReminderAttributes c9Env c9Store (strOf "Work") (strOf "R")
        ⟨some true, none, none, none⟩ =
      .ok (.updated (c9Item.id.getD []) ⟨some true, none, none⟩) :=
  ⟨(C9_setReminderAttributes c9Env c9Store (strOf "Work") (strOf "R") c9Item
      (by rfl)).1,
   (C9_setReminderAttributes c9Env c9Store (strOf "Work") (strOf "R") c9Item
      (by rfl)).2.1 (some true) none (by simp)⟩

/-- Notes up to trailing-whitespace trimming: the canonical representative
the decoder can ever return for a given human-notes portion. -/
def notesCanon (o : Option Str) : Option Str :=
  match o with
  | some n => if jsTrimEnd n = [] then none else some (jsTrimEnd n)
  | none => none

theorem trim_nil_iff (n : Str) : jsTrim n = [] ↔ jsTrimEnd n = [] := by
  constructor
  · intro h
    have hall : ∀ c ∈ n, isJsWs c = true := by
      rw [jsTrim] at h
      have hallS := trimEnd_nil_all_ws (jsTrimStart n) h
      have hstart : jsTrimStart n = [] := by
        cases hz : jsTrimStart n with
        | nil => rfl
        | cons c t =>
          have hhead : (jsTrimStart n).head? = some c := by
            rw [hz, List.head?_cons]
          have h1 := head_dropWhile_not isJsWs n c hhead
          have h2 := hallS c (by rw [hz]; simp)
          rw [h1] at h2
          cases h2
      rw [jsTrimStart, List.dropWhile_eq_nil_iff] at hstart
      exact hstart
    rw [jsTrimEnd]
    have : n.reverse.dropWhile isJsWs = [] := by
      rw [List.dropWhile_eq_nil_iff]
      intro x hx
      exact hall x (List.mem_reverse.mp hx)
    rw [this]
    rfl
  · intro h
    have hall := trimEnd_nil_all_ws n h
    have hstart : jsTrimStart n = [] := by
      rw [jsTrimStart, List.dropWhile_eq_nil_iff]
      exact hall
    rw [jsTrim, hstart]
    rfl

theorem hasNotes_false_canon (o : Option Str) (h : hasNotes o = false) :
    notesCanon o = none := by
  cases o with
  | none => rfl
  | some n =>
    rw [hasNotes] at h
    have h1 : jsTrim n = [] := by
      rw [← List.isEmpty_iff]
      simpa using h
    have h2 : jsTrimEnd n = [] := (trim_nil_iff n).mp h1
    rw [notesCanon]
    rw [if_pos h2]

theorem getLast?_append_right (p v : Str) (hv : v ≠ []) :
    (p ++ v).getLast? = v.getLast? := by
  rw [← List.head?_reverse, List.reverse_append]
  cases hvr : v.reverse with
  | nil =>
    exact absurd (by rwa [List.reverse_eq_nil_iff] at hvr) hv
  | cons c r =>
    rw [List.cons_append, List.head?_cons, ← List.head?_reverse, hvr,
      List.head?_cons]

theorem matchFull_some_shape (l t : Str) (h : matchFull l = some t) :
    ∃ w1 w2, l = w1 ++ markerOf t ++ w2 ∧ (∀ c ∈ w1, isJsWs c = true) ∧
      (∀ c ∈ w2, isJsWs c = true) ∧ t ≠ [] ∧ ∀ c ∈ t, isTokenChar c = true := by
  rw [matchFull] at h
  by_cases hpre : METADATA_MARK.isPrefixOf (l.dropWhile isJsWs) = true
  case neg =>
    rw [if_neg hpre] at h
    cases h
  case pos =>
    rw [if_pos hpre] at h
    rw [ite_eq_iff] at h
    rcases h with ⟨⟨htne, htail, hws2⟩, hsome⟩ | ⟨-, hnone⟩
    case inr => cases hnone
    case inl =>
    rw [Option.some_inj] at hsome
    subst hsome
    have hsplit1 : l = l.takeWhile isJsWs ++ l.dropWhile isJsWs :=
      (List.takeWhile_append_dropWhile ..).symm
    have hmarkpre : METADATA_MARK <+: l.dropWhile isJsWs :=
      List.isPrefixOf_iff_prefix.mp hpre
    have hsplit2 : l.dropWhile isJsWs =
        METADATA_MARK ++ (l.dropWhile isJsWs).drop METADATA_MARK.length := by
      conv_lhs => rw [← List.take_append_drop METADATA_MARK.length
        (l.dropWhile isJsWs)]
      rw [← List.prefix_iff_eq_take.mp hmarkpre]
    have htokpre := List.takeWhile_prefix
      (l := (l.dropWhile isJsWs).drop METADATA_MARK.length) (p := isTokenChar)
    obtain ⟨r, hr⟩ := htokpre
    have hrdrop : r = ((l.dropWhile isJsWs).drop METADATA_MARK.length).drop
        (((l.dropWhile isJsWs).drop METADATA_MARK.length).takeWhile
          isTokenChar).length := by
      have := congrArg (List.drop
        ((((l.dropWhile isJsWs).drop METADATA_MARK.length).takeWhile
          isTokenChar)).length) hr
      rw [List.drop_left] at this
      exact this
    have hsplit3 : (l.dropWhile isJsWs).drop METADATA_MARK.length =
        ((l.dropWhile isJsWs).drop METADATA_MARK.length).takeWhile isTokenChar ++
          r := hr.symm
    have hsplit4 : r = METADATA_TAIL ++ r.drop 2 := by
      conv_lhs => rw [← List.take_append_drop 2 r]
      rw [← hrdrop] at htail
      rw [htail]
    refine ⟨l.takeWhile isJsWs, r.drop 2, ?_, ?_, ?_, htne, ?_⟩
    · conv_lhs => rw [hsplit1]
      conv_lhs => rw [hsplit2]
      conv_lhs => rw [hsplit3]
      conv_lhs => rw [hsplit4]
      simp [markerOf, List.append_assoc]
    · intro c hc
      exact List.mem_takeWhile_imp hc
    · intro c hc
      rw [← hrdrop] at hws2
      rw [List.all_eq_true] at hws2
      exact hws2 c hc
    · intro c hc
      exact List.mem_takeWhile_imp hc

theorem marker_body_match (u tok t : Str) (htok : tok ≠ [])
    (htokchars : ∀ c ∈ tok, isTokenChar c = true)
    (h : matchFull (u ++ markerOf tok) = some t) :
    (∀ c ∈ u, isJsWs c = true) ∧ t = tok := by
  obtain ⟨w1, w2, heq, hw1, hw2, htne, htchars⟩ := matchFull_some_shape _ _ h
  have hw2nil : w2 = [] := by
    cases hw2c : w2 with
    | nil => rfl
    | cons c0 w2t =>
      exfalso
      have hl : (u ++ markerOf tok).getLast? = some ']' := by
        rw [getLast?_append_right _ _ (markerOf_ne_nil tok)]
        rw [markerOf]
        rw [getLast?_append_right _ _ (by decide : METADATA_TAIL ≠ [])]
        rfl
      have hr : (w1 ++ markerOf t ++ w2).getLast? = w2.getLast? := by
        rw [List.append_assoc]
        rw [getLast?_append_right _ _ (by rw [hw2c]; simp)]
        rw [getLast?_append_right _ _ (by rw [hw2c]; simp)]
      rw [heq, hr] at hl
      obtain ⟨hne2, hx⟩ := List.mem_getLast?_eq_getLast (Option.mem_def.mpr hl)
      have hmem : ']' ∈ w2 := hx ▸ List.getLast_mem hne2
      have := hw2 ']' hmem
      cases this
  subst hw2nil
  rw [List.append_nil] at heq
  rw [markerOf, markerOf] at heq
  have hrev := congrArg List.reverse heq
  simp only [List.reverse_append, List.append_assoc] at hrev
  rw [show METADATA_TAIL.reverse = [']', ']'] from by decide] at hrev
  rw [show METADATA_MARK.reverse = ':' :: strOf "atem-rednimer-pcm[[" from
    by decide] at hrev
  simp only [List.cons_append, List.nil_append] at hrev
  rw [List.cons.injEq] at hrev
  rw [List.cons.injEq] at hrev
  obtain ⟨-, -, hcore⟩ := hrev
  have hp1 : tok.reverse <+: tok.reverse ++
      (':' :: (strOf "atem-rednimer-pcm[[" ++ u.reverse)) :=
    List.prefix_append _ _
  have hp2 : t.reverse <+: tok.reverse ++
      (':' :: (strOf "atem-rednimer-pcm[[" ++ u.reverse)) := by
    rw [hcore]
    exact List.prefix_append _ _
  have hteq : t = tok := by
    rcases List.prefix_or_prefix_of_prefix hp1 hp2 with hp | hp
    · obtain ⟨d, hd⟩ := hp
      cases d with
      | nil =>
        rw [List.append_nil] at hd
        exact (List.reverse_injective hd).symm
      | cons c0 dt =>
        exfalso
        rw [← hd, List.append_assoc] at hcore
        have hcanc := List.append_cancel_left hcore
        rw [List.cons_append] at hcanc
        rw [List.cons.injEq] at hcanc
        have hc0 : c0 = ':' := hcanc.1.symm
        have hc0mem : c0 ∈ t.reverse := by
          rw [← hd]
          exact List.mem_append_right _ (by simp)
        rw [List.mem_reverse] at hc0mem
        have := htchars c0 hc0mem
        rw [hc0] at this
        cases this
    · obtain ⟨d, hd⟩ := hp
      cases d with
      | nil =>
        rw [List.append_nil] at hd
        exact List.reverse_injective hd
      | cons c0 dt =>
        exfalso
        rw [← hd, List.append_assoc] at hcore
        have hcanc := (List.append_cancel_left hcore.symm)
        rw [List.cons_append] at hcanc
        rw [List.cons.injEq] at hcanc
        have hc0 : c0 = ':' := hcanc.1.symm
        have hc0mem : c0 ∈ tok.reverse := by
          rw [← hd]
          exact List.mem_append_right _ (by simp)
        rw [List.mem_reverse] at hc0mem
        have := htokchars c0 hc0mem
        rw [hc0] at this
        cases this
  subst hteq
  have hueq : u = w1 := List.append_cancel_right heq
  refine ⟨?_, rfl⟩
  intro c hc
  exact hw1 c (hueq ▸ hc)

theorem findMarkerGo_none_before :
    ∀ (u : Str) (t : Str) (i : Nat),
      (∀ v : Str, v ≠ [] → v <:+ u → matchFull (v ++ t) = none) →
      findMarkerGo i (u ++ t) = findMarkerGo (i + u.length) t
  | [], t, i, _ => by simp
  | c :: u', t, i, hfail => by
    rw [List.cons_append]
    rw [findMarkerGo_cons_none i c (u' ++ t)
      (by
        rw [← List.cons_append]
        exact hfail (c :: u') (List.cons_ne_nil c u') (List.suffix_refl _))]
    rw [findMarkerGo_none_before u' t (i + 1)
      (fun v hv hvs => hfail v hv (hvs.trans (List.suffix_cons c u')))]
    congr 1
    simp [List.length_cons]
    omega

theorem findMarker_compose_all (n tok : Str) (htok : tok ≠ [])
    (htokchars : ∀ c ∈ tok, isTokenChar c = true) :
    findMarker (n ++ strOf "\n\n" ++ markerOf tok) =
      some ((jsTrimEnd n).length, tok) := by
  obtain ⟨hdec, hws, hlast⟩ := trimEnd_decomp n
  have hw2 : ∀ c ∈ n.drop (jsTrimEnd n).length ++ strOf "\n\n", isJsWs c = true := by
    intro c hc
    rcases List.mem_append.mp hc with hc | hc
    · exact hws c hc
    · rw [show strOf "\n\n" = [Char.ofNat 10, Char.ofNat 10] from rfl] at hc
      simp at hc
      rw [hc]
      rfl
  have hbody : n ++ strOf "\n\n" ++ markerOf tok =
      jsTrimEnd n ++
        ((n.drop (jsTrimEnd n).length ++ strOf "\n\n") ++ markerOf tok) := by
    conv_lhs => rw [hdec]
    simp [List.append_assoc]
  rw [findMarker, hbody]
  rw [findMarkerGo_none_before (jsTrimEnd n)
    ((n.drop (jsTrimEnd n).length ++ strOf "\n\n") ++ markerOf tok) 0
    (by
      intro v hv hvs
      cases hmf : matchFull
          (v ++ ((n.drop (jsTrimEnd n).length ++ strOf "\n\n") ++ markerOf tok))
          with
      | none => rfl
      | some t2 =>
        exfalso
        have h2 : matchFull
            ((v ++ (n.drop (jsTrimEnd n).length ++ strOf "\n\n")) ++
              markerOf tok) = some t2 := by
          rw [List.append_assoc]
          exact hmf
        obtain ⟨hall, -⟩ := marker_body_match _ tok t2 htok htokchars h2
        obtain ⟨c, hc⟩ : ∃ c, v.getLast? = some c :=
          Option.isSome_iff_exists.mp (List.getLast?_isSome.mpr hv)
        obtain ⟨p, hp⟩ := hvs
        have hcm : (jsTrimEnd n).getLast? = some c := by
          rw [← hp, getLast?_append_right p v hv]
          exact hc
        have hcws : isJsWs c = false := hlast c hcm
        obtain ⟨hne2, hx⟩ := List.mem_getLast?_eq_getLast (Option.mem_def.mpr hc)
        have hmem : c ∈ v := hx ▸ List.getLast_mem hne2
        have := hall c (List.mem_append_left _ hmem)
        rw [hcws] at this
        cases this)]
  rw [Nat.zero_add]
  exact findMarkerGo_at_marker (jsTrimEnd n).length
    (n.drop (jsTrimEnd n).length ++ strOf "\n\n") tok hw2 htok htokchars

theorem parse_compose_some (notes : Option Str) (md : ReminderMetadata)
    (tok : Str) (henc : encodeMetadata md = some tok) :
    parseReminderBody (composeReminderBody notes md) =
      specComposeParse notes md := by
  obtain ⟨htokne, htokchars⟩ := encodeMetadata_tok md tok henc
  have hdec := decodeMetadataToken_encode md tok henc
  rw [specComposeParse]
  simp only [composeReminderBody, henc]
  cases hhn : hasNotes notes with
  | false =>
    simp only [Bool.false_eq_true, if_false]
    rw [parseReminderBody]
    rw [if_neg (markerOf_ne_nil tok)]
    have hfm : findMarker (markerOf tok) = some (0, tok) := by
      rw [findMarker]
      have h0 := findMarkerGo_at_marker 0 [] tok (by simp) htokne htokchars
      rw [List.nil_append] at h0
      exact h0
    simp only [hfm, hdec]
    simp [specDecodedMeta]
    rfl
  | true =>
    simp only [eq_self_iff_true, if_true]
    cases notes with
    | none => exact absurd hhn (by decide)
    | some n =>
      rw [parseReminderBody]
      have hbne : (some n).getD [] ++ strOf "\n\n" ++ markerOf tok ≠ [] := by
        intro hcon
        rcases List.append_eq_nil.mp hcon with ⟨-, h2⟩
        exact markerOf_ne_nil tok h2
      rw [if_neg hbne]
      have hget : ((some n).getD []) = n := rfl
      rw [hget]
      rw [findMarker_compose_all n tok htokne htokchars]
      have hpre : jsTrimEnd n <+: n := ⟨_, ((trimEnd_decomp n).1).symm⟩
      have htk : (n ++ strOf "\n\n" ++ markerOf tok).take (jsTrimEnd n).length =
          jsTrimEnd n := by
        rw [List.append_assoc]
        rw [List.take_append_of_le_length hpre.length_le]
        exact (List.prefix_iff_eq_take.mp hpre).symm
      simp only [hdec, htk]
      rw [jsTrimEnd_eq_self _ (trimEnd_decomp n).2.2]
      rw [if_neg (hasNotes_trimEnd_ne n hhn)]
      rfl

/-- C10 (amended): a tags/location update preserves the human-notes portion
up to trailing-whitespace trimming whenever the decoded notes of the stored
body carry no decodable trailing metadata marker — marker-less bodies,
corrupted-token bodies, and freshly composed single-marker bodies all
satisfy this; a body whose decoded notes end in a second, decodable marker
is the one way the property fails. -/
theorem C10_notes_frame :
    ∀ (env : Env) (store : Store) (listName reminderName : Str) (item : RItem)
      (attrs : ReminderAttributesUpdate) (nextLoc : Option ReminderLocation),
      getReminderByName env store listName reminderName = .ok (some item) →
      (attrs.tags.isSome || attrs.location.isSome) = true →
      (match attrs.location with
       | some (some loc) => normalizeLocation (some loc) true
       | some none => Except.ok none
       | none => Except.ok (parseReminderBody item.body).metadata.location) =
        Except.ok nextLoc →
      (∀ (n : Str) (idx : Nat) (tok : Str),
        (parseReminderBody item.body).notes = some n →
        findMarker n = some (idx, tok) → decodeMetadataToken tok = none) →
      ∃ pay : UpdatePayload,
        setReminderAttributes env store listName reminderName attrs =
          .ok (.updated (item.id.getD []) pay) ∧
        notesCanon (parseReminderBody pay.body).notes =
          notesCanon (parseReminderBody item.body).notes := by
  intro env store listName reminderName item attrs nextLoc hfind hsup hloc hnodec
  refine ⟨_, setAttrs_update env store listName reminderName item attrs nextLoc
    hfind hsup hloc, ?_⟩
  cases henc : encodeMetadata
      ⟨(match attrs.tags with
        | some ts =>
          if normalizeTags (some ts) = [] then none
          else some (normalizeTags (some ts))
        | none => (parseReminderBody item.body).metadata.tags),
       nextLoc⟩ with
  | some tok =>
    have hp := parse_compose_some (parseReminderBody item.body).notes
      ⟨(match attrs.tags with
        | some ts =>
          if normalizeTags (some ts) = [] then none
          else some (normalizeTags (some ts))
        | none => (parseReminderBody item.body).metadata.tags),
       nextLoc⟩ tok henc
    cases hcomp : composeReminderBody (parseReminderBody item.body).notes
        ⟨(match attrs.tags with
          | some ts =>
            if normalizeTags (some ts) = [] then none
            else some (normalizeTags (some ts))
          | none => (parseReminderBody item.body).metadata.tags),
         nextLoc⟩ with
    | none =>
      exfalso
      rw [composeReminderBody] at hcomp
      rw [henc] at hcomp
      dsimp only at hcomp
      cases hhn : hasNotes (parseReminderBody item.body).notes <;>
        rw [hhn] at hcomp <;> simp at hcomp
    | some b =>
      rw [hcomp] at hp
      show notesCanon (parseReminderBody (some (Option.getD (some b) []))).notes =
        notesCanon (parseReminderBody item.body).notes
      rw [show Option.getD (some b) [] = b from rfl]
      rw [hp, specComposeParse]
      cases hhn : hasNotes (parseReminderBody item.body).notes with
      | false =>
        simp only [Bool.false_eq_true, if_false]
        rw [hasNotes_false_canon _ hhn]
        simp only [henc]
        rfl
      | true =>
        simp only [eq_self_iff_true, if_true]
        cases hns : (parseReminderBody item.body).notes with
        | none => exact absurd (hns ▸ hhn) (by decide)
        | some n =>
          rw [hns] at hhn
          simp only [henc]
          have hne := hasNotes_trimEnd_ne n hhn
          rw [notesCanon, notesCanon]
          simp only [Option.getD_some]
          rw [jsTrimEnd_eq_self _ (trimEnd_decomp n).2.2]
  | none =>
    have hcompeq : composeReminderBody (parseReminderBody item.body).notes
        ⟨(match attrs.tags with
          | some ts =>
            if normalizeTags (some ts) = [] then none
            else some (normalizeTags (some ts))
          | none => (parseReminderBody item.body).metadata.tags),
         nextLoc⟩ =
        (if hasNotes (parseReminderBody item.body).notes = true then
          (parseReminderBody item.body).notes
        else none) := by
      simp only [composeReminderBody, henc]
    cases hhn : hasNotes (parseReminderBody item.body).notes with
    | false =>
      rw [hhn] at hcompeq
      simp only [Bool.false_eq_true, if_false] at hcompeq
      rw [hcompeq]
      rw [hasNotes_false_canon _ hhn]
      rfl
    | true =>
      rw [hhn] at hcompeq
      simp only [eq_self_iff_true, if_true] at hcompeq
      rw [hcompeq]
      cases hns : (parseReminderBody item.body).notes with
      | none => exact absurd (hns ▸ hhn) (by decide)
      | some n =>
        rw [hns] at hhn
        have hne : n ≠ [] := by
          intro hcon
          subst hcon
          exact absurd hhn (by decide)
        have hparse : parseReminderBody (some n) = ⟨some n, {}⟩ := by
          rw [parseReminderBody]
          rw [if_neg hne]
          cases hfm : findMarker n with
          | none => rfl
          | some p =>
            obtain ⟨idx, tok⟩ := p
            simp only [hnodec n idx tok hns hfm]
        show notesCanon (parseReminderBody (some (Option.getD (some n) []))).notes =
          notesCanon (some n)
        rw [show Option.getD (some n) [] = n from rfl]
        rw [hparse]

/-- First metadata payload of the C10 counterexample body. -/
def c10MetaA : ReminderMetadata := ⟨some [strOf "x"], none⟩

/-- Second metadata payload of the C10 counterexample body. -/
def c10MetaB : ReminderMetadata := ⟨some [strOf "y"], none⟩

/-- The two valid tokens. -/
def c10TokA : Str := (encodeMetadata c10MetaA).getD []

def c10TokB : Str := (encodeMetadata c10MetaB).getD []

/-- A stored body holding two complete markers separated by a blank: only
the trailing one is decoded, the leading one is part of the notes. -/
def c10Body : Str := markerOf c10TokA ++ strOf " " ++ markerOf c10TokB

def c10Item : RItem :=
  ⟨some (strOf "I1"), some (strOf "R"), some c10Body, none, none, none, none⟩

def c10Store : Store := ⟨[⟨strOf "L1", strOf "Work"⟩], [(strOf "L1", [c10Item])]⟩

def c10Env : Env := ⟨0, 0, 0, 0⟩

/-- C10 counterexample: on a double-marker body, clearing tags and location
rewrites the body to the bare leading marker, and the decoded notes change
from the leading marker's text to absent — the dormant marker is resurrected
as live metadata instead of being preserved as notes. -/
theorem C10_counterexample :
    setReminderAttributes c10Env c10Store (strOf "Work") (strOf "R")
        ⟨none, none, some [], some none⟩ =
      .ok (.updated (strOf "I1") ⟨none, none, some (markerOf c10TokA)⟩) ∧
    (parseReminderBody c10Item.body).notes = some (markerOf c10TokA) ∧
    (parseReminderBody (some (markerOf c10TokA))).notes = none := by
  have hencB : encodeMetadata c10MetaB = some c10TokB := by rfl
  have hdecB := decodeMetadataToken_encode c10MetaB c10TokB hencB
  have hfmB : findMarker c10Body = some ((markerOf c10TokA).length, c10TokB) := by
    rfl
  have hparse_old : parseReminderBody (some c10Body) =
      ⟨some (markerOf c10TokA), specDecodedMeta c10MetaB⟩ := by
    rw [parseReminderBody]
    rw [if_neg (by decide)]
    simp only [hfmB, hdecB]
    rfl
  have hencA : encodeMetadata c10MetaA = some c10TokA := by rfl
  have hcomposeA : composeReminderBody none c10MetaA = some (markerOf c10TokA) := by
    rfl
  have hparse_new : parseReminderBody (some (markerOf c10TokA)) =
      ⟨none, specDecodedMeta c10MetaA⟩ := by
    have h := parse_compose none c10MetaA (by intro n hn; cases hn)
    rw [hcomposeA] at h
    rw [h]
    rfl
  refine ⟨?_, ?_, ?_⟩
  · have hfind : getReminderByName c10Env c10Store (strOf "Work") (strOf "R") =
        .ok (some c10Item) := by rfl
    have hup := setAttrs_update c10Env c10Store (strOf "Work") (strOf "R")
      c10Item ⟨none, none, some [], some none⟩ none hfind rfl rfl
    rw [show c10Item.body = some c10Body from rfl, hparse_old] at hup
    rw [hup]
    rfl
  · rw [show c10Item.body = some c10Body from rfl, hparse_old]
  · rw [hparse_new]

/-- The C10 witness's stored body: a corrupted-token marker, so the decoded
notes are the entire body — sentinel included — and its marker decodes to
nothing. -/
def c10WBody : Str := strOf "note [[mcp-reminder-meta:AAAA]]"

/-- The C10 witness's stored reminder row. -/
def c10WItem : RItem :=
  ⟨some (strOf "I2"), some (strOf "S"), some c10WBody, none, none, none, none⟩

/-- The C10 witness's store. -/
def c10WStore : Store := ⟨[⟨strOf "L1", strOf "Work"⟩], [(strOf "L1", [c10WItem])]⟩

/-- C10 witness: the frame theorem applied to a corrupted-token stored body —
a tags update leaves the canonical notes (the whole old body) unchanged. -/
theorem C10_witness :
    ∃ pay : UpdatePayload,
      setReminderAttributes c10Env c10WStore (strOf "Work") (strOf "S")
          ⟨none, none, some [strOf "t"], none⟩ =
        .ok (.updated (strOf "I2") pay) ∧
      notesCanon (parseReminderBody pay.body).notes =
        notesCanon (parseReminderBody c10WItem.body).notes :=
  C10_notes_frame c10Env c10WStore (strOf "Work") (strOf "S") c10WItem
    ⟨none, none, some [strOf "t"], none⟩
    ((parseReminderBody c10WItem.body).metadata.location)
    (by rfl) rfl rfl
    (by
      intro n idx tok hn hfm
      have hparseW : parseReminderBody (some c10WBody) = ⟨some c10WBody, {}⟩ := by
        rw [parseReminderBody]
        rw [if_neg (by decide)]
        simp only [show findMarker c10WBody = some (4, strOf "AAAA") from rfl,
          decodeToken_AAAA_none]
      rw [show c10WItem.body = some c10WBody from rfl, hparseW] at hn
      injection hn with hn
      subst hn
      rw [show findMarker c10WBody = some (4, strOf "AAAA") from rfl,
        Option.some_inj, Prod.mk.injEq] at hfm
      obtain ⟨-, h2⟩ := hfm
      rw [← h2]
      exact decodeToken_AAAA_none)

end ARM
